import Mathlib

/-!
# Hangman (guesser side): a shallow embedding of `hangman.cpp`

The development follows the C++ source function by function.

* `std::string` / `std::string_view` are `List Char`; the unknown slot of the
  pattern is the character `'\0'`, as in the source.
* `std::list<Word>` is `List Word`; `remove_if` keeps the survivors in order.
* `std::set<int>` is a strictly increasing `List Int` built by `setInsert`.
* `std::array<T, std::numeric_limits<char>::max()>` is a table `Fin 127 → T`;
  an access whose index is outside `0 .. 126` is undefined behaviour in the
  source and is `none` here.
* `std::size_t` counters are natural numbers reduced modulo `2 ^ 64`.
* `double` scores are kept abstract (`ScoreArith`): the proofs use only the
  few laws listed there, and the rationals are the executable instance.
* `hangmanFrames` (header `hangmanFrames.h`) only enters through the constant
  `maxGuess`, which is a parameter here.
* The word file is the sequence of words `inputFile >> word.str` extracts; the
  `int` counter `rank` and the cast of `size()` to `int` keep their ranges.
* A truthful player (`truthfulLine`, `truthfulLines`) answers each proposal
  with the 1-based positions of the letter in the word the player holds.
-/

namespace Hangman

/-! ## Data model -/

/-- A word and its commonality rank (`struct Word`). -/
structure Word where
  str : List Char
  rank : Int
  deriving DecidableEq, Repr

/-- Generic return code (`enum class ReturnCode`). -/
inductive ReturnCode where
  | success
  | noInput
  | illegalInput
  | gameOver
  deriving DecidableEq, Repr

/-- The character `'\0'`, which marks an unknown slot of the pattern. -/
abbrev unknownSlot : Char := Char.ofNat 0

/-- Number of entries of the character-indexed tables,
`std::numeric_limits<char>::max()`. -/
abbrev charMax : Nat := 127

/-- A table `std::array<T, std::numeric_limits<char>::max()>`. -/
abbrev Table (α : Type) : Type := Fin charMax → α

/-- Checked table read `table[i]`: `none` when `i` is out of bounds. -/
def Table.read {α : Type} (t : Table α) (i : Int) : Option α :=
  if h : 0 ≤ i ∧ i < (charMax : Int) then
    some (t ⟨i.toNat, by omega⟩)
  else none

/-- Table write `table[i] = v` at an index already known to be in bounds. -/
def Table.write {α : Type} (t : Table α) (i : Fin charMax) (v : α) : Table α :=
  fun j => if j = i then v else t j

/-! ## Evidence filter -/

/-- The loop of the predicate given to `remove_if` in `filterGuessed`:
walks the word from slot `i` on and answers `true` (remove) at the first slot
that disagrees with the asserted positions. The test `pos.find(i) == pos.end()`
is membership of the slot number in the set. -/
def filterGuessedLoop (latest : Char) (pos : List Int) : List Char → Nat → Bool
  | [], _ => false
  | ch :: rest, i =>
    if ¬ ((i : Int) ∈ pos) then
      if ch = latest then true else filterGuessedLoop latest pos rest (i + 1)
    else
      if ch ≠ latest then true else filterGuessedLoop latest pos rest (i + 1)

/-- `Hangman::filterGuessed`: `list.remove_if` with the loop above. -/
def filterGuessed (list : List Word) (latest : Char) (pos : List Int) : List Word :=
  list.filter (fun word => !filterGuessedLoop latest pos word.str 0)

/-- `std::string::find(ch)` from slot `i` on: the position of the first
occurrence, `none` for `npos`. -/
def strFind (ch : Char) : List Char → Nat → Option Nat
  | [], _ => none
  | c :: rest, i => if c = ch then some i else strFind ch rest (i + 1)

/-- `Hangman::filterFailedToGuess`: `list.remove_if` of the words in which
`guess` is found. -/
def filterFailedToGuess (list : List Word) (guess : Char) : List Word :=
  list.filter (fun word => !decide (strFind guess word.str 0 ≠ none))

/-! ## Letter scorer -/

/-- The arithmetic of the `double` scores. Only these laws are used; they hold
for IEEE doubles on the values the scorer produces (`0.0`, `1.0 / rank` and
their running sums, none of which is a NaN) and for the rationals. -/
class ScoreArith (S : Type) extends LinearOrder S, Zero S, Add S where
  /-- The quotient `1.0 / rank`. -/
  recip : Int → S
  recip_pos : ∀ r : Int, 1 ≤ r → 0 < recip r
  add_pos_of_nonneg : ∀ a b : S, 0 ≤ a → 0 < b → 0 < a + b

instance instScoreArithRat : ScoreArith ℚ where
  recip r := 1 / (r : ℚ)
  recip_pos r hr := by
    have : (0 : ℚ) < (r : ℚ) := by exact_mod_cast (by omega : (0 : Int) < r)
    positivity
  add_pos_of_nonneg a b ha hb := add_pos_of_nonneg_of_pos ha hb

/-- `Hangman::alphabeticIndex`: `std::tolower(ch) - 'a'`. -/
def alphabeticIndex (ch : Char) : Int :=
  (ch.toLower.toNat : Int) - ('a'.toNat : Int)

/-- `Hangman::alphabeticIndexToChar`: `static_cast<char>('a' + i)`. -/
def alphabeticIndexToChar (i : Int) : Char :=
  Char.ofNat (('a'.toNat : Int) + i).toNat

/-- Read `str[i]` on a `std::string`: the terminator at `i = size()`, undefined
past it. -/
def strAt (str : List Char) (i : Nat) : Option Char :=
  match str[i]? with
  | some ch => some ch
  | none => if i = str.length then some (Char.ofNat 0) else none

/-- Bounds check of a table index. -/
def Table.index (i : Int) : Option (Fin charMax) :=
  if h : 0 ≤ i ∧ i < (charMax : Int) then some ⟨i.toNat, by omega⟩ else none

/-- Body of the inner loop of `getMostLikelyLetter` at slot `i`; `acc` is the
pair `(words, charsInThisWord)`. -/
def scoreSlot {S : Type} [ScoreArith S] (alreadyGuessed : Table Bool) (current : List Char)
    (word : Word) (acc : Table S × Table Bool) (i : Nat) : Option (Table S × Table Bool) :=
  if current[i]? = some unknownSlot then
    match strAt word.str i with
    | none => none
    | some ch =>
      match Table.index (alphabeticIndex ch) with
      | none => none
      | some charIndex =>
        if (!alreadyGuessed charIndex && !acc.2 charIndex) = true then
          some (acc.1.write charIndex (acc.1 charIndex + ScoreArith.recip word.rank),
                acc.2.write charIndex true)
        else some acc
  else some acc

/-- Body of the outer loop of `getMostLikelyLetter` for one word: a fresh
`charsInThisWord`, then every slot of the pattern in turn. -/
def scoreWord {S : Type} [ScoreArith S] (alreadyGuessed : Table Bool) (current : List Char)
    (words : Table S) (word : Word) : Option (Table S) :=
  ((List.range current.length).foldlM (scoreSlot alreadyGuessed current word)
    (words, fun _ => false)).map Prod.fst

/-- The table `words` of `getMostLikelyLetter` after the loop over the list. -/
def scores {S : Type} [ScoreArith S] (list : List Word) (alreadyGuessed : Table Bool)
    (current : List Char) : Option (Table S) :=
  list.foldlM (scoreWord alreadyGuessed current) (fun _ => 0)

/-- Loop of `std::max_element`: `i` is the index of the next element, `li` and
`lv` are the index and value of the largest element so far. -/
def maxElementLoop {S : Type} [ScoreArith S] : List S → Nat → Nat → S → Nat
  | [], _, li, _ => li
  | x :: xs, i, li, lv =>
    if lv < x then maxElementLoop xs (i + 1) i x else maxElementLoop xs (i + 1) li lv

/-- `std::max_element` as an index: the first largest element. -/
def maxElement {S : Type} [ScoreArith S] : List S → Nat
  | [] => 0
  | x :: xs => maxElementLoop xs 1 0 x

/-- `Hangman::getMostLikelyLetter`. -/
def getMostLikelyLetter (S : Type) [ScoreArith S] (list : List Word)
    (alreadyGuessed : Table Bool) (current : List Char) : Option Char :=
  (scores list alreadyGuessed current : Option (Table S)).map
    (fun words => alphabeticIndexToChar (maxElement (List.ofFn words) : Nat))

/-- Score of a letter in a table: `words[alphabeticIndex(x)]`. -/
def letterScore {S : Type} (words : Table S) (x : Char) : Option S :=
  words.read (alphabeticIndex x)

/-- Whether a letter is marked: `alreadyGuessed[alphabeticIndex(x)]`. -/
def isGuessed (alreadyGuessed : Table Bool) (x : Char) : Bool :=
  alreadyGuessed.read (alphabeticIndex x) = some true

/-- Lowercase letters `a` to `z`. -/
def isLowercase (ch : Char) : Bool :=
  decide ('a'.toNat ≤ ch.toNat ∧ ch.toNat ≤ 'z'.toNat)

/-- The word has letter `x` in at least one unknown slot of the pattern. -/
def inUnknownSlot (current : List Char) (word : Word) (x : Char) : Bool :=
  (List.range current.length).any
    (fun i => decide (current[i]? = some unknownSlot ∧ word.str[i]? = some x))

/-- Table index of the letter the word shows at slot `i`, when slot `i` of the
pattern is unknown and the accesses are in bounds. -/
def slotIndex (current : List Char) (word : Word) (i : Nat) : Option (Fin charMax) :=
  if current[i]? = some unknownSlot then
    (strAt word.str i).bind (fun ch => Table.index (alphabeticIndex ch))
  else none

/-- Slot `i` is processed without an out-of-bounds access. -/
def slotDefined (current : List Char) (word : Word) (i : Nat) : Prop :=
  current[i]? = some unknownSlot → (slotIndex current word i).isSome = true

/-- Some slot among `slots` shows a letter of table index `k`. -/
def touches (current : List Char) (word : Word) (slots : List Nat) (k : Fin charMax) : Bool :=
  slots.any (fun i => decide (slotIndex current word i = some k))

/-- The word adds its weight to entry `k` of the score table. -/
def counts (alreadyGuessed : Table Bool) (current : List Char) (word : Word)
    (k : Fin charMax) : Bool :=
  !alreadyGuessed k && touches current word (List.range current.length) k

/-! ## Index input -/

/-- The conversion `static_cast<size_t>(i)`. -/
def toSizeT (i : Int) : Nat := (i % (2 ^ 64 : Int)).toNat

/-- Insertion into a `std::set<int>`, kept as an increasing list. -/
def setInsert (x : Int) : List Int → List Int
  | [] => [x]
  | y :: ys => if x < y then x :: y :: ys else if x = y then y :: ys else y :: setInsert x ys

/-- The loop of `Hangman::readIndexes` over the integers extracted from the
line, with `pos` threaded through (it is an out-parameter in the source). -/
def readIndexesLoop (word : List Char) : List Int → List Int → ReturnCode × List Int
  | [], pos => (if pos.isEmpty then ReturnCode.noInput else ReturnCode.success, pos)
  | i :: rest, pos =>
    if (toSizeT i + 2 ^ 64 - 1) % 2 ^ 64 ≥ word.length
        ∨ word.getD (toSizeT (i - 1)) unknownSlot ≠ unknownSlot then
      (ReturnCode.illegalInput, pos)
    else readIndexesLoop word rest (setInsert (i - 1) pos)

/-- `Hangman::readIndexes`, where `entered` is the sequence of `int` values
that `is >> i` extracts from the line; the result is the return code and the
final content of `pos`. -/
def readIndexes (word : List Char) (entered : List Int) : ReturnCode × List Int :=
  readIndexesLoop word entered []

/-- An entered index `i` (1-based) denotes a position that is negative, not
below the length of the pattern, or a slot that is already confirmed. -/
def badIndex (word : List Char) (i : Int) : Prop :=
  i - 1 < 0 ∨ (word.length : Int) ≤ i - 1 ∨ word.getD (i - 1).toNat unknownSlot ≠ unknownSlot

/-- Values of type `int`. -/
def isInt (i : Int) : Bool := decide (-(2 ^ 31 : Int) ≤ i ∧ i < (2 ^ 31 : Int))

/-! ## Game state evaluator -/

/-- `Hangman::displayThinking`: the text it prints. -/
def displayThinking (possibleWords : List Word) (max : Int) : String :=
  let sz : Int := possibleWords.length
  if sz ≠ 0 then
    let max := if max < 0 then sz else max
    let loopCount := min sz max
    "Thinking of: "
      ++ String.join ((possibleWords.take loopCount.toNat).map
          (fun word => String.mk word.str ++ ", "))
      ++ (if loopCount < sz then "..." else "")
      ++ "\n\n"
  else ""

/-- `Hangman::checkGameState`: the return code and the text printed. -/
def checkGameState (maxGuess : Nat) (possibleWords : List Word) (guess : List Char)
    (wrongGuessCount correctGuessCount : Nat) : ReturnCode × String :=
  if wrongGuessCount = maxGuess then
    (ReturnCode.gameOver, "You win!\n" ++ displayThinking possibleWords (-1))
  else if correctGuessCount = guess.length then
    (ReturnCode.gameOver, "I win!\n")
  else if possibleWords.isEmpty then
    (ReturnCode.gameOver, "Out of guesses\nLooks like my word list does not have that word\n")
  else (ReturnCode.success, "")

/-! ## The play loop -/

/-- The local variables of `Hangman::play` that live across rounds. -/
structure State where
  possibleWords : List Word
  guess : List Char
  wrongGuessCount : Nat
  correctGuessCount : Nat
  alreadyGuessed : Table Bool

/-- The state before the first round for a store and a word length. -/
def initialState (possibleWords : List Word) (size : Nat) : State where
  possibleWords := possibleWords
  guess := List.replicate size unknownSlot
  wrongGuessCount := 0
  correctGuessCount := 0
  alreadyGuessed := fun _ => false

/-- The `switch` on the result of `readIndexes` in `play`, for the proposed
letter `chGuess`. -/
def playSwitch (s : State) (chGuess : Char) (code : ReturnCode) (pos : List Int) :
    Option State :=
  match code with
  | ReturnCode.success =>
    match Table.index (alphabeticIndex chGuess) with
    | none => none
    | some k =>
      some { possibleWords := filterGuessed s.possibleWords chGuess pos
             guess := pos.foldl (fun g i => g.set (toSizeT i) chGuess) s.guess
             wrongGuessCount := s.wrongGuessCount
             correctGuessCount := (s.correctGuessCount + pos.length) % 2 ^ 64
             alreadyGuessed := s.alreadyGuessed.write k true }
  | ReturnCode.noInput =>
    some { s with
           wrongGuessCount := (s.wrongGuessCount + 1) % 2 ^ 64
           possibleWords := filterFailedToGuess s.possibleWords chGuess }
  | ReturnCode.illegalInput => some s
  | ReturnCode.gameOver => some s

/-- What a round did: the letter proposed, how the answer was classified and
the positions read. -/
structure Round where
  letter : Char
  code : ReturnCode
  pos : List Int

/-- One round of `play` after the game-state check: propose a letter, read
the indexes, run the `switch`. `none` stands for undefined behaviour. -/
def playRound (S : Type) [ScoreArith S] (s : State) (line : List Int) :
    Option (State × Round) :=
  match getMostLikelyLetter S s.possibleWords s.alreadyGuessed s.guess with
  | none => none
  | some chGuess =>
    let r := readIndexes s.guess line
    match playSwitch s chGuess r.1 r.2 with
    | none => none
    | some s1 => some (s1, ⟨chGuess, r.1, r.2⟩)

/-- The `while (true)` loop of `play`, one input line per round. The result is
the state when the loop is left (or the lines run out) together with the log
of the rounds played; `none` stands for undefined behaviour. The log is
bookkeeping for the statements about the history of a game: no step reads it. -/
def playLoop (S : Type) [ScoreArith S] (maxGuess : Nat) :
    List (List Int) → State → List Round → Option (State × List Round)
  | [], s, log => some (s, log)
  | line :: rest, s, log =>
    if (checkGameState maxGuess s.possibleWords s.guess s.wrongGuessCount
        s.correctGuessCount).1 = ReturnCode.gameOver then
      some (s, log)
    else
      match playRound S s line with
      | none => none
      | some (s1, r) => playLoop S maxGuess rest s1 (log ++ [r])

/-- Number of confirmed slots of a pattern. -/
def confirmedCount (guess : List Char) : Nat :=
  guess.countP (fun ch => decide (ch ≠ unknownSlot))

/-- The facts that hold of the state of `play` and the log of the rounds
played, at the top of the loop, for a game started on the store `store0` with
word length `L`. -/
structure PlayInv (store0 : List Word) (L maxGuess : Nat) (s : State) (log : List Round) :
    Prop where
  guess_length : s.guess.length = L
  correct_eq : s.correctGuessCount = confirmedCount s.guess
  wrong_le : s.wrongGuessCount ≤ maxGuess
  sublist : s.possibleWords.Sublist store0
  hit : ∀ r ∈ log, r.code = ReturnCode.success →
    97 ≤ r.letter.toNat
      ∧ (∀ p ∈ r.pos, 0 ≤ p ∧ p < (L : Int) ∧ s.guess[p.toNat]? = some r.letter)
      ∧ ∀ w ∈ s.possibleWords, ∀ i : Nat, i < w.str.length →
          (w.str[i]? = some r.letter ↔ (i : Int) ∈ r.pos)
  miss : ∀ r ∈ log, r.code = ReturnCode.noInput → ∀ w ∈ s.possibleWords, r.letter ∉ w.str
  confirmed : ∀ i : Nat, i < L → s.guess[i]? ≠ some unknownSlot →
    ∃ r ∈ log, r.code = ReturnCode.success ∧ (i : Int) ∈ r.pos
  marked : ∀ k, s.alreadyGuessed k = true →
    ∃ r ∈ log, r.code = ReturnCode.success ∧ Table.index (alphabeticIndex r.letter) = some k

/-! ## Word source -/

/-- The conversion `static_cast<int>(n)` of a `size_t` value. -/
def toInt32 (n : Nat) : Int := ((n : Int) + 2 ^ 31) % 2 ^ 32 - 2 ^ 31

/-- The loop of `Hangman::readAllWordsWithSize` over the words that
`inputFile >> word.str` extracts, with the counter `rank` and the list built so
far. `++rank` on the largest `int` is undefined and is `none` here. -/
def readAllWordsWithSizeLoop (size : Int) :
    List (List Char) → Int → List Word → Option (List Word)
  | [], _, possibleWords => some possibleWords
  | str :: rest, rank, possibleWords =>
    if rank + 1 ≥ 2 ^ 31 then none
    else
      readAllWordsWithSizeLoop size rest (rank + 1)
        (if toInt32 str.length = size then possibleWords ++ [⟨str, rank⟩] else possibleWords)

/-- `Hangman::readAllWordsWithSize` on the sequence of words of the file. -/
def readAllWordsWithSize (wordList : List (List Char)) (size : Int) : Option (List Word) :=
  readAllWordsWithSizeLoop size wordList 1 []

/-! ## A truthful player -/

/-- The set `{i | word[i] == c}` of the 0-based positions of `c` in a word. -/
def occurrences (word : Word) (c : Char) : List Int :=
  ((List.range word.str.length).filter (fun i => decide (word.str[i]? = some c))).map
    (fun (i : Nat) => (i : Int))

/-- The line a player who holds the word `secret` enters when the letter `c`
is proposed: the 1-based indexes of `c` in `secret`, none when `c` does not
occur. -/
def truthfulLine (secret : Word) (c : Char) : List Int :=
  (occurrences secret c).map (fun p => p + 1)

/-- The lines a player who holds the word `secret` enters during the next `n`
rounds of the play loop from the state `s`. -/
def truthfulLines (S : Type) [ScoreArith S] (maxGuess : Nat) (secret : Word) :
    Nat → State → List (List Int)
  | 0, _ => []
  | n + 1, s =>
    if (checkGameState maxGuess s.possibleWords s.guess s.wrongGuessCount
        s.correctGuessCount).1 = ReturnCode.gameOver then
      []
    else
      match getMostLikelyLetter S s.possibleWords s.alreadyGuessed s.guess with
      | none => []
      | some c =>
        truthfulLine secret c ::
          (match playRound S s (truthfulLine secret c) with
            | none => []
            | some (s1, _) => truthfulLines S maxGuess secret n s1)

/-- The letters the word shows at the unknown slots of the pattern. -/
def unrevealedLetters (word : Word) (guess : List Char) : Finset Char :=
  (((List.range guess.length).filter (fun i => decide (guess[i]? = some unknownSlot))).map
    (fun i => word.str.getD i unknownSlot)).toFinset

/-! ## Sample data -/

/-- A store of three words of length 3. -/
def sampleStore : List Word :=
  [⟨"cat".toList, 1⟩, ⟨"act".toList, 2⟩, ⟨"can".toList, 3⟩]

/-- The store `cat` (rank 1), `car` (rank 2), `can` (rank 3). -/
def catCarCan : List Word :=
  [⟨"cat".toList, 1⟩, ⟨"car".toList, 2⟩, ⟨"can".toList, 3⟩]

/-- The guessed-letter table in which only `a` is marked. -/
def guessedA : Table Bool := fun k => decide ((k : Nat) = 0)

/-- The pattern of length 3 with `a` confirmed at slot 1. -/
def patternA : List Char := [unknownSlot, 'a', unknownSlot]

/-- The store `cat` (rank 1), `aha` (rank 2). -/
def catAha : List Word :=
  [⟨"cat".toList, 1⟩, ⟨"aha".toList, 2⟩]

/-! ## Lemmas on the evidence filter -/

theorem filterGuessedLoop_eq_false (latest : Char) (pos : List Int) (s : List Char) (k : Nat) :
    filterGuessedLoop latest pos s k = false ↔
      ∀ i, i < s.length → (s[i]? = some latest ↔ ((k + i : Nat) : Int) ∈ pos) := by
  induction s generalizing k with
  | nil => simp [filterGuessedLoop]
  | cons ch rest ih =>
    unfold filterGuessedLoop
    constructor
    · intro h i hi
      by_cases hk : ((k : Nat) : Int) ∈ pos
      · simp only [hk, not_true_eq_false, if_false] at h
        by_cases hc : ch = latest
        · simp only [hc, ne_eq, not_true_eq_false, if_false] at h
          cases i with
          | zero => simp [hc, hk]
          | succ j =>
            have := (ih (k + 1)).1 h j (by simpa using hi)
            simpa [Nat.add_assoc, Nat.add_comm 1 j] using this
        · simp [hc] at h
      · simp only [hk, not_false_eq_true, if_true] at h
        by_cases hc : ch = latest
        · simp [hc] at h
        · simp only [hc, if_false] at h
          cases i with
          | zero => simp [hc, hk]
          | succ j =>
            have := (ih (k + 1)).1 h j (by simpa using hi)
            simpa [Nat.add_assoc, Nat.add_comm 1 j] using this
    · intro h
      have h0 := h 0 (by simp)
      have hrest : filterGuessedLoop latest pos rest (k + 1) = false := by
        refine (ih (k + 1)).2 ?_
        intro i hi
        have := h (i + 1) (by simpa using hi)
        simpa [Nat.add_assoc, Nat.add_comm 1 i] using this
      simp only [List.getElem?_cons_zero, Option.some.injEq, Nat.add_zero] at h0
      by_cases hk : ((k : Nat) : Int) ∈ pos
      · have hc : ch = latest := h0.2 hk
        simp [hk, hc, hrest]
      · have hc : ¬ ch = latest := fun hc => hk (h0.1 hc)
        simp [hk, hc, hrest]

theorem strFind_eq_none (ch : Char) (str : List Char) :
    ∀ i : Nat, strFind ch str i = none ↔ ch ∉ str := by
  induction str with
  | nil => intro i; simp [strFind]
  | cons c rest ih =>
    intro i
    unfold strFind
    by_cases h : c = ch
    · subst h
      simp
    · rw [if_neg h, ih (i + 1)]
      have h' : ¬ ch = c := fun e => h e.symm
      simp [h']

/-! ## Lemmas on characters and table indexes -/

theorem toNat_ofNat_small (n : Nat) (h : n < 55296) : (Char.ofNat n).toNat = n := by
  have hv : n.isValidChar := Or.inl h
  simp only [Char.ofNat, hv, dite_true, Char.ofNatAux, Char.toNat]
  rfl

theorem toLower_of_ge (c : Char) (h : 97 ≤ c.toNat) : c.toLower = c := by
  unfold Char.toLower
  have : ¬ (c.toNat ≥ 65 ∧ c.toNat ≤ 90) := by omega
  simp only [this, if_false]

theorem char_eq_of_toNat_eq (c d : Char) (h : c.toNat = d.toNat) : c = d := by
  have := congrArg Char.ofNat h
  simpa using this

theorem isLowercase_iff (ch : Char) : isLowercase ch = true ↔ 97 ≤ ch.toNat ∧ ch.toNat ≤ 122 := by
  unfold isLowercase
  rw [decide_eq_true_iff]
  rfl

theorem alphabeticIndex_of_lowercase (ch : Char) (h : isLowercase ch = true) :
    alphabeticIndex ch = (ch.toNat : Int) - 97 := by
  rw [isLowercase_iff] at h
  unfold alphabeticIndex
  rw [toLower_of_ge ch h.1]
  rfl

theorem index_of_lowercase (ch : Char) (h : isLowercase ch = true) :
    ∃ k : Fin charMax, Table.index (alphabeticIndex ch) = some k
      ∧ (k : Nat) + 97 = ch.toNat ∧ (k : Nat) < 26 := by
  have hidx := alphabeticIndex_of_lowercase ch h
  rw [isLowercase_iff] at h
  have hc : charMax = 127 := rfl
  have hb : 0 ≤ alphabeticIndex ch ∧ alphabeticIndex ch < (charMax : Int) := by
    rw [hidx]
    constructor <;> omega
  refine ⟨⟨(alphabeticIndex ch).toNat, by omega⟩, ?_, ?_, ?_⟩
  · unfold Table.index
    rw [dif_pos hb]
  · simp only [hidx]
    omega
  · simp only [hidx]
    omega

theorem alphabeticIndexToChar_toNat (k : Nat) (hk : k < charMax) :
    (alphabeticIndexToChar (k : Int)).toNat = 97 + k := by
  unfold alphabeticIndexToChar
  have h97 : ('a'.toNat : Int) = 97 := rfl
  rw [h97]
  have : ((97 : Int) + (k : Int)).toNat = 97 + k := by omega
  rw [this]
  have hc : charMax = 127 := rfl
  exact toNat_ofNat_small _ (by omega)

theorem alphabeticIndex_alphabeticIndexToChar (k : Nat) (hk : k < charMax) :
    alphabeticIndex (alphabeticIndexToChar (k : Int)) = (k : Int) := by
  have h := alphabeticIndexToChar_toNat k hk
  unfold alphabeticIndex
  rw [toLower_of_ge _ (by omega), h]
  have h97 : ('a'.toNat : Int) = 97 := rfl
  rw [h97]
  omega

theorem index_natCast (k : Fin charMax) : Table.index ((k : Nat) : Int) = some k := by
  unfold Table.index
  have hb : 0 ≤ ((k : Nat) : Int) ∧ ((k : Nat) : Int) < (charMax : Int) := by
    have := k.isLt
    constructor <;> omega
  rw [dif_pos hb]
  simp

theorem read_eq_index_map {α : Type} (t : Table α) (i : Int) :
    t.read i = (Table.index i).map t := by
  unfold Table.read Table.index
  by_cases hb : 0 ≤ i ∧ i < (charMax : Int)
  · rw [dif_pos hb, dif_pos hb]
    rfl
  · rw [dif_neg hb, dif_neg hb]
    rfl

theorem index_alphabeticIndexToChar (k : Fin charMax) :
    Table.index (alphabeticIndex (alphabeticIndexToChar ((k : Nat) : Int))) = some k := by
  rw [alphabeticIndex_alphabeticIndexToChar k k.isLt]
  exact index_natCast k

/-! ## Lemmas on the index input -/

theorem isInt_iff (i : Int) : isInt i = true ↔ -(2147483648 : Int) ≤ i ∧ i < 2147483648 := by
  simp [isInt]

/-- On `int` values and strings shorter than `2 ^ 63`, the unsigned test of
`readIndexes` rejects exactly the positions outside the string. -/
theorem sizeT_test_iff (i : Int) (L : Nat) (hi : isInt i = true) (hL : L < 2 ^ 63) :
    (toSizeT i + 2 ^ 64 - 1) % 2 ^ 64 ≥ L ↔ (i - 1 < 0 ∨ (L : Int) ≤ i - 1) := by
  rw [isInt_iff] at hi
  unfold toSizeT
  norm_num at hL ⊢
  omega

theorem toSizeT_of_nonneg (i : Int) (h0 : 0 ≤ i) (hi : i < 2 ^ 63) :
    toSizeT i = i.toNat := by
  unfold toSizeT
  norm_num at hi ⊢
  omega

theorem mem_setInsert (x y : Int) (s : List Int) : y ∈ setInsert x s ↔ y = x ∨ y ∈ s := by
  induction s with
  | nil => simp [setInsert]
  | cons z zs ih =>
    unfold setInsert
    by_cases h1 : x < z
    · simp [h1]
    · by_cases h2 : x = z
      · subst h2
        simp
      · simp only [h1, h2, if_false, List.mem_cons, ih]
        tauto

theorem setInsert_pairwise (x : Int) (s : List Int) (hs : s.Pairwise (· < ·)) :
    (setInsert x s).Pairwise (· < ·) := by
  induction s with
  | nil => simp [setInsert]
  | cons z zs ih =>
    unfold setInsert
    rw [List.pairwise_cons] at hs
    by_cases h1 : x < z
    · simp only [h1, if_true, List.pairwise_cons]
      refine ⟨?_, hs⟩
      intro a ha
      rcases List.mem_cons.1 ha with rfl | ha
      · exact h1
      · exact lt_trans h1 (hs.1 a ha)
    · by_cases h2 : x = z
      · subst h2
        simp only [lt_self_iff_false, if_false, if_true, List.pairwise_cons]
        exact hs
      · simp only [h1, h2, if_false, List.pairwise_cons]
        refine ⟨?_, ih hs.2⟩
        intro a ha
        rcases (mem_setInsert x a zs).1 ha with rfl | ha
        · omega
        · exact hs.1 a ha

theorem readIndexes_test_iff (word : List Char) (i : Int) (hi : isInt i = true)
    (hL : word.length < 2 ^ 63) :
    ((toSizeT i + 2 ^ 64 - 1) % 2 ^ 64 ≥ word.length
        ∨ word.getD (toSizeT (i - 1)) unknownSlot ≠ unknownSlot) ↔ badIndex word i := by
  rw [sizeT_test_iff i word.length hi hL]
  unfold badIndex
  by_cases h : i - 1 < 0 ∨ (word.length : Int) ≤ i - 1
  · simp only [h, true_or]
    rcases h with h | h
    · simp [h]
    · simp [h]
  · have h0 : 0 ≤ i - 1 := by omega
    have h1 : i - 1 < 2 ^ 63 := by
      have : ((word.length : Nat) : Int) < 2 ^ 63 := by exact_mod_cast hL
      omega
    rw [toSizeT_of_nonneg (i - 1) h0 h1]
    constructor
    · rintro (h' | h')
      · exact absurd h' h
      · exact Or.inr (Or.inr h')
    · rintro (h' | h' | h')
      · exact absurd (Or.inl h') h
      · exact absurd (Or.inr h') h
      · exact Or.inr h'

theorem readIndexesLoop_good (word : List Char) (hL : word.length < 2 ^ 63) :
    ∀ (entered pos : List Int), (∀ i ∈ entered, isInt i = true ∧ ¬ badIndex word i) →
      readIndexesLoop word entered pos
        = (if (entered.foldl (fun p i => setInsert (i - 1) p) pos).isEmpty
            then ReturnCode.noInput else ReturnCode.success,
           entered.foldl (fun p i => setInsert (i - 1) p) pos) := by
  intro entered
  induction entered with
  | nil => intro pos _; simp [readIndexesLoop]
  | cons i rest ih =>
    intro pos h
    have hi := h i (List.mem_cons_self i rest)
    have htest := (readIndexes_test_iff word i hi.1 hL).not.2 hi.2
    unfold readIndexesLoop
    rw [if_neg htest, List.foldl_cons]
    exact ih _ (fun j hj => h j (List.mem_cons_of_mem i hj))

theorem readIndexesLoop_bad (word : List Char) (hL : word.length < 2 ^ 63) :
    ∀ (entered pos : List Int), (∀ i ∈ entered, isInt i = true) →
      (∃ i ∈ entered, badIndex word i) →
      (readIndexesLoop word entered pos).1 = ReturnCode.illegalInput := by
  intro entered
  induction entered with
  | nil => intro pos _ h; simp at h
  | cons i rest ih =>
    intro pos hint hbad
    unfold readIndexesLoop
    by_cases htest : (toSizeT i + 2 ^ 64 - 1) % 2 ^ 64 ≥ word.length
        ∨ word.getD (toSizeT (i - 1)) unknownSlot ≠ unknownSlot
    · rw [if_pos htest]
    · rw [if_neg htest]
      have hgood : ¬ badIndex word i :=
        (readIndexes_test_iff word i (hint i (List.mem_cons_self i rest)) hL).not.1 htest
      refine ih _ (fun j hj => hint j (List.mem_cons_of_mem i hj)) ?_
      obtain ⟨j, hj, hjbad⟩ := hbad
      rcases List.mem_cons.1 hj with rfl | hj
      · exact absurd hjbad hgood
      · exact ⟨j, hj, hjbad⟩

theorem mem_foldl_setInsert (entered : List Int) :
    ∀ (pos : List Int) (p : Int),
      p ∈ entered.foldl (fun q i => setInsert (i - 1) q) pos
        ↔ p ∈ pos ∨ ∃ i ∈ entered, p = i - 1 := by
  induction entered with
  | nil => intro pos p; simp
  | cons i rest ih =>
    intro pos p
    rw [List.foldl_cons, ih, mem_setInsert]
    simp only [List.mem_cons, exists_eq_or_imp]
    tauto

theorem foldl_setInsert_pairwise (entered : List Int) :
    ∀ (pos : List Int), pos.Pairwise (· < ·) →
      (entered.foldl (fun q i => setInsert (i - 1) q) pos).Pairwise (· < ·) := by
  induction entered with
  | nil => intro pos h; simpa using h
  | cons i rest ih =>
    intro pos h
    rw [List.foldl_cons]
    exact ih _ (setInsert_pairwise _ _ h)

theorem foldl_setInsert_ne_nil (entered : List Int) (hne : entered ≠ []) (pos : List Int) :
    entered.foldl (fun q i => setInsert (i - 1) q) pos ≠ [] := by
  cases entered with
  | nil => exact absurd rfl hne
  | cons i rest =>
    intro h
    have hmem : i - 1 ∈ (i :: rest).foldl (fun q j => setInsert (j - 1) q) pos :=
      (mem_foldl_setInsert (i :: rest) pos (i - 1)).2 (Or.inr ⟨i, List.mem_cons_self i rest, rfl⟩)
    rw [h] at hmem
    exact absurd hmem (List.not_mem_nil _)

/-! ## Lemmas on the letter scorer -/

theorem recip_rat (r : Int) : (ScoreArith.recip r : ℚ) = 1 / (r : ℚ) := rfl


theorem scoreSlot_eq {S : Type} [ScoreArith S] (alreadyGuessed : Table Bool)
    (current : List Char) (word : Word) (acc : Table S × Table Bool) (i : Nat)
    (hdef : slotDefined current word i) :
    scoreSlot alreadyGuessed current word acc i
      = some (match slotIndex current word i with
          | some k =>
            if (!alreadyGuessed k && !acc.2 k) = true then
              (acc.1.write k (acc.1 k + ScoreArith.recip word.rank), acc.2.write k true)
            else acc
          | none => acc) := by
  unfold scoreSlot
  by_cases hc : current[i]? = some unknownSlot
  · have hsome := hdef hc
    unfold slotIndex at hsome ⊢
    rw [if_pos hc] at hsome ⊢
    rw [if_pos hc]
    cases hs : strAt word.str i with
    | none => rw [hs] at hsome; simp at hsome
    | some ch =>
      rw [hs] at hsome
      simp only [Option.some_bind] at hsome ⊢
      cases hk : Table.index (alphabeticIndex ch) with
      | none => rw [hk] at hsome; simp at hsome
      | some k =>
        simp only []
        by_cases hcond : (!alreadyGuessed k && !acc.2 k) = true
        · rw [if_pos hcond, if_pos hcond]
        · rw [if_neg hcond, if_neg hcond]
  · unfold slotIndex
    rw [if_neg hc, if_neg hc]

theorem foldlM_scoreSlot {S : Type} [ScoreArith S] (alreadyGuessed : Table Bool)
    (current : List Char) (word : Word) :
    ∀ (slots : List Nat) (ws : Table S) (seen : Table Bool),
      (∀ i ∈ slots, slotDefined current word i) →
      slots.foldlM (scoreSlot alreadyGuessed current word) (ws, seen)
        = some (fun k =>
              if (!seen k && !alreadyGuessed k && touches current word slots k) = true
              then ws k + ScoreArith.recip word.rank else ws k,
            fun k => seen k || (!alreadyGuessed k && touches current word slots k)) := by
  intro slots
  induction slots with
  | nil =>
    intro ws seen _
    simp [touches]
  | cons i rest ih =>
    intro ws seen hdef
    rw [List.foldlM_cons, scoreSlot_eq alreadyGuessed current word (ws, seen) i
      (hdef i (List.mem_cons_self i rest))]
    have hrest : ∀ j ∈ rest, slotDefined current word j :=
      fun j hj => hdef j (List.mem_cons_of_mem i hj)
    simp only [Option.bind_eq_bind, Option.some_bind]
    cases hidx : slotIndex current word i with
    | none =>
      simp only []
      rw [ih ws seen hrest]
      simp [touches, hidx]
    | some k0 =>
      simp only []
      by_cases hcond : (!alreadyGuessed k0 && !seen k0) = true
      · rw [if_pos hcond, ih _ _ hrest]
        simp only [Bool.and_eq_true, Bool.not_eq_true'] at hcond
        congr 1
        refine Prod.ext ?_ ?_
        · funext k
          by_cases hk : k = k0
          · subst hk
            simp [Table.write, touches, hidx, hcond.1, hcond.2]
          · have hk' : ¬ k0 = k := fun h => hk h.symm
            simp [Table.write, touches, hidx, hk, hk']
        · funext k
          by_cases hk : k = k0
          · subst hk
            simp [Table.write, touches, hidx, hcond.1, hcond.2]
          · have hk' : ¬ k0 = k := fun h => hk h.symm
            simp [Table.write, touches, hidx, hk, hk']
      · rw [if_neg hcond, ih _ _ hrest]
        congr 1
        refine Prod.ext ?_ ?_
        · funext k
          by_cases hk : k = k0
          · subst hk
            cases hg : alreadyGuessed k <;> cases hs : seen k <;>
              simp [touches, hidx, hg, hs] at hcond ⊢
          · have hk' : ¬ k0 = k := fun h => hk h.symm
            simp [touches, hidx, hk, hk']
        · funext k
          by_cases hk : k = k0
          · subst hk
            cases hg : alreadyGuessed k <;> cases hs : seen k <;>
              simp [touches, hidx, hg, hs] at hcond ⊢
          · have hk' : ¬ k0 = k := fun h => hk h.symm
            simp [touches, hidx, hk, hk']

theorem scoreWord_eq {S : Type} [ScoreArith S] (alreadyGuessed : Table Bool)
    (current : List Char) (ws : Table S) (word : Word)
    (hdef : ∀ i, i < current.length → slotDefined current word i) :
    scoreWord alreadyGuessed current ws word
      = some (fun k =>
          if counts alreadyGuessed current word k = true
          then ws k + ScoreArith.recip word.rank else ws k) := by
  unfold scoreWord
  rw [foldlM_scoreSlot alreadyGuessed current word (List.range current.length) ws
    (fun _ => false) (fun i hi => hdef i (List.mem_range.1 hi))]
  simp [counts]

theorem foldlM_scoreWord {S : Type} [ScoreArith S] (alreadyGuessed : Table Bool)
    (current : List Char) :
    ∀ (list : List Word) (ws : Table S),
      (∀ w ∈ list, ∀ i, i < current.length → slotDefined current w i) →
      list.foldlM (scoreWord alreadyGuessed current) ws
        = some (fun k => list.foldl
            (fun acc w => if counts alreadyGuessed current w k = true
              then acc + ScoreArith.recip w.rank else acc) (ws k)) := by
  intro list
  induction list with
  | nil => intro ws _; simp
  | cons w rest ih =>
    intro ws hdef
    rw [List.foldlM_cons, scoreWord_eq alreadyGuessed current ws w
      (hdef w (List.mem_cons_self w rest))]
    simp only [Option.bind_eq_bind, Option.some_bind]
    rw [ih _ (fun v hv => hdef v (List.mem_cons_of_mem w hv))]
    simp

theorem foldl_cond_eq_filter {S : Type} [ScoreArith S] (p : Word → Bool) :
    ∀ (list : List Word) (a : S),
      list.foldl (fun acc w => if p w = true then acc + ScoreArith.recip w.rank else acc) a
        = (list.filter p).foldl (fun acc w => acc + ScoreArith.recip w.rank) a := by
  intro list
  induction list with
  | nil => intro a; rfl
  | cons w rest ih =>
    intro a
    by_cases hp : p w = true
    · simp only [List.foldl_cons, hp, if_true, List.filter_cons_of_pos]
      exact ih _
    · simp only [List.foldl_cons, hp, if_false]
      rw [List.filter_cons_of_neg hp]
      exact ih _

/-- The score table, when no access is out of bounds: entry `k` is the running
sum of `1.0 / rank` over the words that count for `k`, in list order. -/
theorem scores_eq {S : Type} [ScoreArith S] (list : List Word) (alreadyGuessed : Table Bool)
    (current : List Char)
    (hdef : ∀ w ∈ list, ∀ i, i < current.length → slotDefined current w i) :
    (scores list alreadyGuessed current : Option (Table S))
      = some (fun k => ((list.filter (fun w => counts alreadyGuessed current w k)).foldl
          (fun acc w => acc + ScoreArith.recip w.rank) 0)) := by
  unfold scores
  rw [foldlM_scoreWord alreadyGuessed current list _ hdef]
  congr 1
  funext k
  exact foldl_cond_eq_filter (fun w => counts alreadyGuessed current w k) list 0

theorem maxElementLoop_spec {S : Type} [ScoreArith S] (xs : List S) :
    ∀ (pre : List S) (li : Nat) (lv : S), pre[li]? = some lv →
      (∀ (j : Nat) (v : S), pre[j]? = some v → v ≤ lv) →
      (∀ (j : Nat) (v : S), j < li → pre[j]? = some v → v < lv) →
      ∃ rv, (pre ++ xs)[maxElementLoop xs pre.length li lv]? = some rv
        ∧ (∀ (j : Nat) (v : S), (pre ++ xs)[j]? = some v → v ≤ rv)
        ∧ (∀ (j : Nat) (v : S), j < maxElementLoop xs pre.length li lv →
            (pre ++ xs)[j]? = some v → v < rv) := by
  induction xs with
  | nil =>
    intro pre li lv hli hle hlt
    refine ⟨lv, ?_, ?_, ?_⟩
    · simpa [maxElementLoop] using hli
    · simpa using hle
    · simpa [maxElementLoop] using hlt
  | cons x xs ih =>
    intro pre li lv hli hle hlt
    have hlen : (pre ++ [x]).length = pre.length + 1 := by simp
    have happ : (pre ++ [x]) ++ xs = pre ++ x :: xs := by simp
    have hget : ∀ j v, (pre ++ [x])[j]? = some v → pre[j]? = some v ∨ (j = pre.length ∧ v = x) := by
      intro j v hv
      by_cases hj : j < pre.length
      · rw [List.getElem?_append_left hj] at hv
        exact Or.inl hv
      · have hj' : pre.length ≤ j := by omega
        rw [List.getElem?_append_right hj'] at hv
        by_cases h0 : j - pre.length = 0
        · rw [h0] at hv
          simp only [List.getElem?_cons_zero, Option.some.injEq] at hv
          exact Or.inr ⟨by omega, hv.symm⟩
        · have : ([x] : List S)[j - pre.length]? = none := by
            apply List.getElem?_eq_none
            simp only [List.length_singleton]
            omega
          rw [this] at hv
          exact absurd hv (by simp)
    have hliLt : li < pre.length := by
      by_contra hcon
      have : pre[li]? = none := List.getElem?_eq_none (by omega)
      rw [this] at hli
      exact absurd hli (by simp)
    unfold maxElementLoop
    by_cases hx : lv < x
    · rw [if_pos hx]
      have := ih (pre ++ [x]) pre.length x (by simp)
        (fun j v hv => by
          rcases hget j v hv with h | ⟨_, h⟩
          · exact le_of_lt (lt_of_le_of_lt (hle j v h) hx)
          · exact le_of_eq h)
        (fun j v hj hv => by
          rcases hget j v hv with h | ⟨h, _⟩
          · exact lt_of_le_of_lt (hle j v h) hx
          · omega)
      rw [hlen, happ] at this
      exact this
    · rw [if_neg hx]
      have := ih (pre ++ [x]) li lv
        (by rw [List.getElem?_append_left hliLt]; exact hli)
        (fun j v hv => by
          rcases hget j v hv with h | ⟨_, h⟩
          · exact hle j v h
          · rw [h]; exact le_of_not_lt hx)
        (fun j v hj hv => by
          rcases hget j v hv with h | ⟨h, _⟩
          · exact hlt j v hj h
          · omega)
      rw [hlen, happ] at this
      exact this

theorem maxElement_spec {S : Type} [ScoreArith S] (l : List S) (hne : l ≠ []) :
    ∃ rv, l[maxElement l]? = some rv
      ∧ (∀ (j : Nat) (v : S), l[j]? = some v → v ≤ rv)
      ∧ (∀ (j : Nat) (v : S), j < maxElement l → l[j]? = some v → v < rv) := by
  cases l with
  | nil => exact absurd rfl hne
  | cons x xs =>
    have := maxElementLoop_spec xs [x] 0 x (by simp)
      (fun j v hv => by
        cases j with
        | zero => simp at hv; exact le_of_eq hv.symm
        | succ j => simp at hv)
      (fun j v hj _ => by omega)
    simpa [maxElement] using this

/-- The index `std::max_element` returns on a score table: in bounds, a largest
entry, and strictly larger than every entry before it. -/
theorem maxElement_table {S : Type} [ScoreArith S] (words : Table S) :
    ∃ r : Fin charMax, maxElement (List.ofFn words) = (r : Nat)
      ∧ (∀ k, words k ≤ words r)
      ∧ (∀ k : Fin charMax, (k : Nat) < (r : Nat) → words k < words r) := by
  have hne : List.ofFn words ≠ [] := by
    intro h
    have := congrArg List.length h
    rw [List.length_ofFn] at this
    exact Nat.succ_ne_zero 126 this
  obtain ⟨rv, hr, hle, hlt⟩ := maxElement_spec (List.ofFn words) hne
  have hrlt : maxElement (List.ofFn words) < charMax := by
    by_contra hcon
    have : (List.ofFn words)[maxElement (List.ofFn words)]? = none :=
      List.getElem?_eq_none (by simp only [List.length_ofFn]; omega)
    rw [this] at hr
    exact absurd hr (by simp)
  have hget : ∀ k : Fin charMax, (List.ofFn words)[(k : Nat)]? = some (words k) := by
    intro k
    rw [List.getElem?_eq_getElem (by simp only [List.length_ofFn]; exact k.isLt)]
    simp only [List.getElem_ofFn]
  refine ⟨⟨maxElement (List.ofFn words), hrlt⟩, rfl, ?_, ?_⟩
  · intro k
    have hrv : words ⟨maxElement (List.ofFn words), hrlt⟩ = rv := by
      have := hget ⟨maxElement (List.ofFn words), hrlt⟩
      rw [hr] at this
      exact (Option.some.inj this).symm
    rw [hrv]
    exact hle k (words k) (hget k)
  · intro k hk
    have hrv : words ⟨maxElement (List.ofFn words), hrlt⟩ = rv := by
      have := hget ⟨maxElement (List.ofFn words), hrlt⟩
      rw [hr] at this
      exact (Option.some.inj this).symm
    rw [hrv]
    exact hlt k (words k) hk (hget k)

theorem strAt_of_lt (str : List Char) (i : Nat) (hi : i < str.length) :
    strAt str i = some str[i] := by
  unfold strAt
  rw [List.getElem?_eq_getElem hi]

theorem slotDefined_of_slots (current : List Char) (word : Word)
    (hlow : ∀ ch ∈ word.str, isLowercase ch = true) (i : Nat)
    (hslot : current[i]? = some unknownSlot → i < word.str.length) :
    slotDefined current word i := by
  intro hc
  have hi' : i < word.str.length := hslot hc
  obtain ⟨k, hk, _⟩ := index_of_lowercase word.str[i] (hlow _ (List.getElem_mem hi'))
  unfold slotIndex
  rw [if_pos hc, strAt_of_lt word.str i hi']
  simp [hk]

theorem slotDefined_of_lowercase (current : List Char) (word : Word)
    (hlen : current.length ≤ word.str.length)
    (hlow : ∀ ch ∈ word.str, isLowercase ch = true) (i : Nat) (hi : i < current.length) :
    slotDefined current word i := by
  intro hc
  have hi' : i < word.str.length := by omega
  obtain ⟨k, hk, _⟩ := index_of_lowercase word.str[i] (hlow _ (List.getElem_mem hi'))
  unfold slotIndex
  rw [if_pos hc, strAt_of_lt word.str i hi']
  simp [hk]

theorem slotIndex_eq_some_iff (current : List Char) (word : Word)
    (hlen : current.length ≤ word.str.length)
    (hlow : ∀ ch ∈ word.str, isLowercase ch = true) (i : Nat) (hi : i < current.length)
    (x : Char) (hx : isLowercase x = true) (k : Fin charMax)
    (hk : Table.index (alphabeticIndex x) = some k) :
    slotIndex current word i = some k
      ↔ (current[i]? = some unknownSlot ∧ word.str[i]? = some x) := by
  have hi' : i < word.str.length := by omega
  obtain ⟨k1, hk1, hk1nat, _⟩ := index_of_lowercase word.str[i] (hlow _ (List.getElem_mem hi'))
  obtain ⟨k2, hk2, hk2nat, _⟩ := index_of_lowercase x hx
  have hkk : k2 = k := by
    rw [hk2] at hk
    exact Option.some.inj hk
  subst hkk
  unfold slotIndex
  rw [strAt_of_lt word.str i hi', List.getElem?_eq_getElem hi']
  by_cases hc : current[i]? = some unknownSlot
  · rw [if_pos hc]
    simp only [Option.some_bind, hk1, Option.some.injEq, hc, true_and]
    constructor
    · intro h
      subst h
      exact char_eq_of_toNat_eq _ _ (by omega)
    · intro h
      rw [h] at hk1
      rw [hk2] at hk1
      exact (Option.some.inj hk1).symm
  · rw [if_neg hc]
    simp [hc]

theorem touches_eq_inUnknownSlot (current : List Char) (word : Word)
    (hlen : current.length ≤ word.str.length)
    (hlow : ∀ ch ∈ word.str, isLowercase ch = true)
    (x : Char) (hx : isLowercase x = true) (k : Fin charMax)
    (hk : Table.index (alphabeticIndex x) = some k) :
    touches current word (List.range current.length) k = inUnknownSlot current word x := by
  unfold touches inUnknownSlot
  rw [Bool.eq_iff_iff]
  simp only [List.any_eq_true, List.mem_range, decide_eq_true_eq]
  constructor
  · rintro ⟨i, hi, h⟩
    exact ⟨i, hi, (slotIndex_eq_some_iff current word hlen hlow i hi x hx k hk).1 h⟩
  · rintro ⟨i, hi, h⟩
    exact ⟨i, hi, (slotIndex_eq_some_iff current word hlen hlow i hi x hx k hk).2 h⟩

theorem isGuessed_eq (alreadyGuessed : Table Bool) (x : Char) (k : Fin charMax)
    (hk : Table.index (alphabeticIndex x) = some k) :
    isGuessed alreadyGuessed x = alreadyGuessed k := by
  unfold isGuessed
  rw [read_eq_index_map, hk]
  simp

theorem letterScore_eq {S : Type} (words : Table S) (x : Char) (k : Fin charMax)
    (hk : Table.index (alphabeticIndex x) = some k) :
    letterScore words x = some (words k) := by
  unfold letterScore
  rw [read_eq_index_map, hk]
  rfl

theorem foldl_recip_pos {S : Type} [ScoreArith S] :
    ∀ (l : List Word) (a : S), 0 < a → (∀ w ∈ l, 1 ≤ w.rank) →
      0 < l.foldl (fun acc w => acc + ScoreArith.recip w.rank) a := by
  intro l
  induction l with
  | nil => intro a ha _; simpa using ha
  | cons w rest ih =>
    intro a ha hr
    rw [List.foldl_cons]
    refine ih _ ?_ (fun v hv => hr v (List.mem_cons_of_mem w hv))
    exact ScoreArith.add_pos_of_nonneg a _ (le_of_lt ha)
      (ScoreArith.recip_pos w.rank (hr w (List.mem_cons_self w rest)))

theorem foldl_recip_pos_of_ne_nil {S : Type} [ScoreArith S] (l : List Word) (hne : l ≠ [])
    (hr : ∀ w ∈ l, 1 ≤ w.rank) :
    (0 : S) < l.foldl (fun acc w => acc + ScoreArith.recip w.rank) 0 := by
  cases l with
  | nil => exact absurd rfl hne
  | cons w rest =>
    rw [List.foldl_cons]
    refine foldl_recip_pos rest _ ?_ (fun v hv => hr v (List.mem_cons_of_mem w hv))
    exact ScoreArith.add_pos_of_nonneg 0 _ (le_refl 0)
      (ScoreArith.recip_pos w.rank (hr w (List.mem_cons_self w rest)))

/-- The scorer on a well-formed list in which some word shows a letter that is
not marked at an unknown slot: the proposed letter is a lowercase letter, not
marked, that some word of the list shows at an unknown slot. -/
theorem getMostLikelyLetter_fresh (S : Type) [ScoreArith S] (list : List Word)
    (alreadyGuessed : Table Bool) (current : List Char)
    (hw : ∀ w ∈ list, current.length ≤ w.str.length
      ∧ (∀ ch ∈ w.str, isLowercase ch = true) ∧ 1 ≤ w.rank)
    (hex : ∃ w ∈ list, ∃ x, inUnknownSlot current w x = true
      ∧ isGuessed alreadyGuessed x = false) :
    ∃ c, getMostLikelyLetter S list alreadyGuessed current = some c
      ∧ isLowercase c = true
      ∧ isGuessed alreadyGuessed c = false
      ∧ ∃ w ∈ list, inUnknownSlot current w c = true := by
  have hdef : ∀ w ∈ list, ∀ i, i < current.length → slotDefined current w i :=
    fun w hwl i hi => slotDefined_of_lowercase current w (hw w hwl).1 (hw w hwl).2.1 i hi
  have hs := scores_eq (S := S) list alreadyGuessed current hdef
  obtain ⟨r, hr, hmax, _⟩ := maxElement_table (S := S)
    (fun k => ((list.filter (fun w => counts alreadyGuessed current w k)).foldl
      (fun acc w => acc + ScoreArith.recip w.rank) 0))
  -- some entry of the table is positive
  obtain ⟨w0, hw0, x, hx, hgx⟩ := hex
  have hxlow : isLowercase x = true := by
    unfold inUnknownSlot at hx
    simp only [List.any_eq_true, List.mem_range, decide_eq_true_eq] at hx
    obtain ⟨i, _, _, hxi⟩ := hx
    exact (hw w0 hw0).2.1 x (List.getElem?_mem hxi)
  obtain ⟨k, hk, _⟩ := index_of_lowercase x hxlow
  have hcount : counts alreadyGuessed current w0 k = true := by
    rw [isGuessed_eq alreadyGuessed x k hk] at hgx
    unfold counts
    rw [touches_eq_inUnknownSlot current w0 (hw w0 hw0).1 (hw w0 hw0).2.1 x hxlow k hk, hx, hgx]
    rfl
  have hkpos : (0 : S) < (list.filter (fun w => counts alreadyGuessed current w k)).foldl
      (fun acc w => acc + ScoreArith.recip w.rank) 0 := by
    refine foldl_recip_pos_of_ne_nil _ ?_ ?_
    · intro hnil
      have : w0 ∈ list.filter (fun w => counts alreadyGuessed current w k) :=
        List.mem_filter.2 ⟨hw0, hcount⟩
      rw [hnil] at this
      exact absurd this (List.not_mem_nil _)
    · intro w hwf
      exact (hw w (List.mem_filter.1 hwf).1).2.2
  have hrpos : (0 : S) < (list.filter (fun w => counts alreadyGuessed current w r)).foldl
      (fun acc w => acc + ScoreArith.recip w.rank) 0 := lt_of_lt_of_le hkpos (hmax k)
  -- hence some word counts for the entry of the largest score
  have hne : list.filter (fun w => counts alreadyGuessed current w r) ≠ [] := by
    intro hnil
    rw [hnil] at hrpos
    exact absurd hrpos (lt_irrefl _)
  obtain ⟨w1, hw1⟩ := List.exists_mem_of_ne_nil _ hne
  obtain ⟨hw1l, hw1c⟩ := List.mem_filter.1 hw1
  unfold counts at hw1c
  simp only [Bool.and_eq_true, Bool.not_eq_true'] at hw1c
  obtain ⟨hgr, htouch⟩ := hw1c
  unfold touches at htouch
  simp only [List.any_eq_true, List.mem_range, decide_eq_true_eq] at htouch
  obtain ⟨i, hi, hidx⟩ := htouch
  have hi1 : i < w1.str.length := lt_of_lt_of_le hi (hw w1 hw1l).1
  have hchlow : isLowercase w1.str[i] = true := (hw w1 hw1l).2.1 _ (List.getElem_mem hi1)
  obtain ⟨k1, hk1, hk1nat, _⟩ := index_of_lowercase w1.str[i] hchlow
  have hcur : current[i]? = some unknownSlot := by
    by_contra hc
    unfold slotIndex at hidx
    rw [if_neg hc] at hidx
    exact absurd hidx (by simp)
  have hk1r : k1 = r := by
    unfold slotIndex at hidx
    rw [if_pos hcur, strAt_of_lt w1.str i hi1] at hidx
    simp only [Option.some_bind, hk1, Option.some.injEq] at hidx
    exact hidx
  subst hk1r
  have hc : alphabeticIndexToChar ((k1 : Nat) : Int) = w1.str[i] := by
    apply char_eq_of_toNat_eq
    rw [alphabeticIndexToChar_toNat k1 k1.isLt]
    omega
  refine ⟨w1.str[i], ?_, hchlow, ?_, w1, hw1l, ?_⟩
  · unfold getMostLikelyLetter
    rw [hs]
    simp only [Option.map_some', Option.some.injEq]
    rw [hr]
    exact hc
  · rw [isGuessed_eq alreadyGuessed _ k1 hk1]
    exact hgr
  · unfold inUnknownSlot
    simp only [List.any_eq_true, List.mem_range, decide_eq_true_eq]
    exact ⟨i, hi, hcur, List.getElem?_eq_getElem hi1⟩

/-! ## Lemmas on the play loop -/

theorem readIndexes_success (word : List Char) (entered : List Int)
    (hL : word.length < 2 ^ 63) (hint : ∀ i ∈ entered, isInt i = true)
    (hcode : (readIndexes word entered).1 = ReturnCode.success) :
    (readIndexes word entered).2.Pairwise (· < ·)
      ∧ ∀ p ∈ (readIndexes word entered).2,
          0 ≤ p ∧ p < (word.length : Int) ∧ word[p.toNat]? = some unknownSlot := by
  by_cases hbad : ∃ i ∈ entered, badIndex word i
  · have := readIndexesLoop_bad word hL entered [] hint hbad
    unfold readIndexes at hcode
    rw [this] at hcode
    exact absurd hcode (by decide)
  · have hgood : ∀ i ∈ entered, isInt i = true ∧ ¬ badIndex word i :=
      fun i hi => ⟨hint i hi, fun hb => hbad ⟨i, hi, hb⟩⟩
    have hrun := readIndexesLoop_good word hL entered [] hgood
    unfold readIndexes
    rw [hrun]
    refine ⟨foldl_setInsert_pairwise entered [] List.Pairwise.nil, ?_⟩
    intro p hp
    rcases (mem_foldl_setInsert entered [] p).1 hp with h | ⟨i, hi, rfl⟩
    · exact absurd h (List.not_mem_nil _)
    · have hnb := (hgood i hi).2
      unfold badIndex at hnb
      have h0 : 0 ≤ i - 1 := by
        by_contra hc
        exact hnb (Or.inl (by omega))
      have h1 : i - 1 < (word.length : Int) := by
        by_contra hc
        exact hnb (Or.inr (Or.inl (by omega)))
      have h2 : word.getD (i - 1).toNat unknownSlot = unknownSlot := by
        by_contra hc
        exact hnb (Or.inr (Or.inr hc))
      have hlt : (i - 1).toNat < word.length := by omega
      refine ⟨h0, h1, ?_⟩
      rw [List.getD_eq_getElem?_getD, List.getElem?_eq_getElem hlt] at h2
      rw [List.getElem?_eq_getElem hlt]
      simpa using h2

theorem checkGameState_success (maxGuess : Nat) (possibleWords : List Word)
    (guess : List Char) (wrongGuessCount correctGuessCount : Nat)
    (h : ¬ (checkGameState maxGuess possibleWords guess wrongGuessCount correctGuessCount).1
      = ReturnCode.gameOver) :
    wrongGuessCount ≠ maxGuess ∧ correctGuessCount ≠ guess.length ∧ possibleWords ≠ [] := by
  unfold checkGameState at h
  by_cases h1 : wrongGuessCount = maxGuess
  · simp [h1] at h
  · by_cases h2 : correctGuessCount = guess.length
    · simp [h1, h2] at h
    · cases possibleWords with
      | nil => simp [h1, h2] at h
      | cons w ws => exact ⟨h1, h2, by simp⟩

theorem foldl_set_length (ch : Char) (pos : List Int) :
    ∀ g : List Char, (pos.foldl (fun g i => g.set (toSizeT i) ch) g).length = g.length := by
  induction pos with
  | nil => intro g; rfl
  | cons p rest ih =>
    intro g
    rw [List.foldl_cons, ih]
    simp

theorem foldl_set_of_not_mem (ch : Char) (pos : List Int)
    (hpos : ∀ p ∈ pos, 0 ≤ p ∧ p < 2 ^ 63) (j : Nat) (hj : (j : Int) ∉ pos) :
    ∀ g : List Char, (pos.foldl (fun g i => g.set (toSizeT i) ch) g)[j]? = g[j]? := by
  induction pos with
  | nil => intro g; rfl
  | cons p rest ih =>
    intro g
    rw [List.foldl_cons, ih (fun q hq => hpos q (List.mem_cons_of_mem p hq))
      (fun h => hj (List.mem_cons_of_mem p h))]
    have hp := hpos p (List.mem_cons_self p rest)
    rw [toSizeT_of_nonneg p hp.1 hp.2, List.getElem?_set]
    have hne : ¬ p.toNat = j := by
      intro h
      apply hj
      have : (j : Int) = p := by omega
      rw [this]
      exact List.mem_cons_self p rest
    rw [if_neg hne]

theorem foldl_set_of_mem (ch : Char) (pos : List Int)
    (hpos : ∀ p ∈ pos, 0 ≤ p ∧ p < 2 ^ 63) (j : Nat) (hj : (j : Int) ∈ pos) :
    ∀ g : List Char, j < g.length →
      (pos.foldl (fun g i => g.set (toSizeT i) ch) g)[j]? = some ch := by
  induction pos with
  | nil => exact absurd hj (List.not_mem_nil _)
  | cons p rest ih =>
    intro g hjg
    rw [List.foldl_cons]
    have hp := hpos p (List.mem_cons_self p rest)
    have hrest : ∀ q ∈ rest, 0 ≤ q ∧ q < 2 ^ 63 :=
      fun q hq => hpos q (List.mem_cons_of_mem p hq)
    by_cases hjr : (j : Int) ∈ rest
    · exact ih hrest hjr _ (by simpa using hjg)
    · rw [foldl_set_of_not_mem ch rest hrest j hjr, toSizeT_of_nonneg p hp.1 hp.2,
        List.getElem?_set]
      have hjp : (j : Int) = p := by
        rcases List.mem_cons.1 hj with h | h
        · exact h
        · exact absurd h hjr
      have : p.toNat = j := by omega
      rw [if_pos this, if_pos (by omega)]

theorem confirmedCount_set (ch : Char) (hch : ch ≠ unknownSlot) :
    ∀ (g : List Char) (n : Nat), g[n]? = some unknownSlot →
      confirmedCount (g.set n ch) = confirmedCount g + 1 := by
  intro g
  induction g with
  | nil => intro n h; simp at h
  | cons c rest ih =>
    intro n h
    cases n with
    | zero =>
      simp only [List.getElem?_cons_zero, Option.some.injEq] at h
      subst h
      simp [confirmedCount, List.countP_cons, hch]
    | succ m =>
      simp only [List.getElem?_cons_succ] at h
      have := ih m h
      unfold confirmedCount at this ⊢
      simp only [List.set_cons_succ, List.countP_cons]
      omega

theorem confirmedCount_le (g : List Char) : confirmedCount g ≤ g.length :=
  List.countP_le_length _

theorem confirmedCount_foldl_set (ch : Char) (hch : ch ≠ unknownSlot) (pos : List Int) :
    ∀ g : List Char, pos.Pairwise (· < ·) →
      (∀ p ∈ pos, 0 ≤ p ∧ p < 2 ^ 63 ∧ g[p.toNat]? = some unknownSlot) →
      confirmedCount (pos.foldl (fun g i => g.set (toSizeT i) ch) g)
        = confirmedCount g + pos.length := by
  induction pos with
  | nil => intro g _ _; rfl
  | cons p rest ih =>
    intro g hpw hpos
    rw [List.pairwise_cons] at hpw
    have hp := hpos p (List.mem_cons_self p rest)
    rw [List.foldl_cons, toSizeT_of_nonneg p hp.1 hp.2.1]
    rw [ih (g.set p.toNat ch) hpw.2 ?_, confirmedCount_set ch hch g p.toNat hp.2.2]
    · simp only [List.length_cons]
      omega
    · intro q hq
      have hq' := hpos q (List.mem_cons_of_mem p hq)
      refine ⟨hq'.1, hq'.2.1, ?_⟩
      have hlt := hpw.1 q hq
      rw [List.getElem?_set, if_neg (by omega)]
      exact hq'.2.2

theorem getMostLikelyLetter_range (S : Type) [ScoreArith S] (list : List Word)
    (alreadyGuessed : Table Bool) (current : List Char) (c : Char)
    (h : getMostLikelyLetter S list alreadyGuessed current = some c) :
    ∃ r : Fin charMax, c = alphabeticIndexToChar ((r : Nat) : Int) := by
  unfold getMostLikelyLetter at h
  cases hs : (scores list alreadyGuessed current : Option (Table S)) with
  | none =>
    rw [hs] at h
    exact Option.noConfusion h
  | some words =>
    rw [hs] at h
    simp only [Option.map_some', Option.some.injEq] at h
    obtain ⟨r, hr, _⟩ := maxElement_table words
    exact ⟨r, by rw [← h, hr]⟩

theorem playInv_other (store0 : List Word) (L maxGuess : Nat) (s : State) (log : List Round)
    (hinv : PlayInv store0 L maxGuess s log) (r : Round)
    (h1 : r.code ≠ ReturnCode.success) (h2 : r.code ≠ ReturnCode.noInput) :
    PlayInv store0 L maxGuess s (log ++ [r]) where
  guess_length := hinv.guess_length
  correct_eq := hinv.correct_eq
  wrong_le := hinv.wrong_le
  sublist := hinv.sublist
  hit := by
    intro r0 hr0 hc
    rcases List.mem_append.1 hr0 with h | h
    · exact hinv.hit r0 h hc
    · rw [List.mem_singleton] at h
      subst h
      exact absurd hc h1
  miss := by
    intro r0 hr0 hc
    rcases List.mem_append.1 hr0 with h | h
    · exact hinv.miss r0 h hc
    · rw [List.mem_singleton] at h
      subst h
      exact absurd hc h2
  confirmed := by
    intro i hi hg
    obtain ⟨r0, hr0, h⟩ := hinv.confirmed i hi hg
    exact ⟨r0, List.mem_append_left _ hr0, h⟩
  marked := by
    intro k hk
    obtain ⟨r0, hr0, h⟩ := hinv.marked k hk
    exact ⟨r0, List.mem_append_left _ hr0, h⟩

theorem playInv_miss (store0 : List Word) (L maxGuess : Nat) (s : State) (log : List Round)
    (hinv : PlayInv store0 L maxGuess s log) (ch : Char) (pos : List Int)
    (hnot : s.wrongGuessCount ≠ maxGuess) :
    PlayInv store0 L maxGuess
      { s with
        wrongGuessCount := (s.wrongGuessCount + 1) % 2 ^ 64
        possibleWords := filterFailedToGuess s.possibleWords ch }
      (log ++ [⟨ch, ReturnCode.noInput, pos⟩]) where
  guess_length := hinv.guess_length
  correct_eq := hinv.correct_eq
  wrong_le := by
    have h1 := hinv.wrong_le
    have h2 : (s.wrongGuessCount + 1) % 2 ^ 64 ≤ s.wrongGuessCount + 1 := Nat.mod_le _ _
    show (s.wrongGuessCount + 1) % 2 ^ 64 ≤ maxGuess
    omega
  sublist := (List.filter_sublist _).trans hinv.sublist
  hit := by
    intro r0 hr0 hc
    rcases List.mem_append.1 hr0 with h | h
    · obtain ⟨ha, hb, hw⟩ := hinv.hit r0 h hc
      exact ⟨ha, hb, fun w hwf => hw w (List.mem_filter.1 hwf).1⟩
    · rw [List.mem_singleton] at h
      subst h
      exact ReturnCode.noConfusion hc
  miss := by
    intro r0 hr0 hc w hwf
    rcases List.mem_append.1 hr0 with h | h
    · exact hinv.miss r0 h hc w (List.mem_filter.1 hwf).1
    · rw [List.mem_singleton] at h
      subst h
      have := (List.mem_filter.1 hwf).2
      simp only [ne_eq, decide_not, Bool.not_not, decide_eq_true_eq] at this
      exact (strFind_eq_none _ w.str 0).1 this
  confirmed := by
    intro i hi hg
    obtain ⟨r0, hr0, h⟩ := hinv.confirmed i hi hg
    exact ⟨r0, List.mem_append_left _ hr0, h⟩
  marked := by
    intro k hk
    obtain ⟨r0, hr0, h⟩ := hinv.marked k hk
    exact ⟨r0, List.mem_append_left _ hr0, h⟩

theorem playInv_hit (store0 : List Word) (L maxGuess : Nat) (s : State) (log : List Round)
    (hinv : PlayInv store0 L maxGuess s log) (hL : L < 2 ^ 63)
    (k : Fin charMax) (pos : List Int) (hpw : pos.Pairwise (· < ·))
    (hpos : ∀ p ∈ pos, 0 ≤ p ∧ p < (L : Int) ∧ s.guess[p.toNat]? = some unknownSlot) :
    PlayInv store0 L maxGuess
      { possibleWords := filterGuessed s.possibleWords (alphabeticIndexToChar ((k : Nat) : Int)) pos
        guess := pos.foldl
          (fun g i => g.set (toSizeT i) (alphabeticIndexToChar ((k : Nat) : Int))) s.guess
        wrongGuessCount := s.wrongGuessCount
        correctGuessCount := (s.correctGuessCount + pos.length) % 2 ^ 64
        alreadyGuessed := s.alreadyGuessed.write k true }
      (log ++ [⟨alphabeticIndexToChar ((k : Nat) : Int), ReturnCode.success, pos⟩]) := by
  have hchNat := alphabeticIndexToChar_toNat k k.isLt
  have hch : alphabeticIndexToChar ((k : Nat) : Int) ≠ unknownSlot := by
    intro h
    have h0 : unknownSlot.toNat = 0 := rfl
    rw [h] at hchNat
    omega
  have hL' : (L : Int) < 2 ^ 63 := by exact_mod_cast hL
  have hrange : ∀ p ∈ pos, 0 ≤ p ∧ p < 2 ^ 63 :=
    fun p hp => ⟨(hpos p hp).1, lt_trans (hpos p hp).2.1 hL'⟩
  have hcount := confirmedCount_foldl_set _ hch pos s.guess hpw
    (fun p hp => ⟨(hrange p hp).1, (hrange p hp).2, (hpos p hp).2.2⟩)
  have hlen := foldl_set_length (alphabeticIndexToChar ((k : Nat) : Int)) pos s.guess
  refine
    { guess_length := ?_, correct_eq := ?_, wrong_le := hinv.wrong_le,
      sublist := (List.filter_sublist _).trans hinv.sublist,
      hit := ?_, miss := ?_, confirmed := ?_, marked := ?_ }
  · show (pos.foldl _ s.guess).length = L
    rw [hlen]
    exact hinv.guess_length
  · show (s.correctGuessCount + pos.length) % 2 ^ 64 = confirmedCount (pos.foldl _ s.guess)
    rw [hcount, hinv.correct_eq]
    apply Nat.mod_eq_of_lt
    have h1 := confirmedCount_le (pos.foldl
      (fun g i => g.set (toSizeT i) (alphabeticIndexToChar ((k : Nat) : Int))) s.guess)
    rw [hcount, hlen, hinv.guess_length] at h1
    have : (2 : Nat) ^ 63 < 2 ^ 64 := by norm_num
    omega
  · intro r0 hr0 hc
    rcases List.mem_append.1 hr0 with h | h
    · obtain ⟨ha, hb, hw⟩ := hinv.hit r0 h hc
      refine ⟨ha, ?_, fun w hwf => hw w (List.mem_filter.1 hwf).1⟩
      intro p hp
      obtain ⟨hp0, hp1, hp2⟩ := hb p hp
      refine ⟨hp0, hp1, ?_⟩
      show (pos.foldl _ s.guess)[p.toNat]? = some r0.letter
      rw [foldl_set_of_not_mem _ pos hrange p.toNat ?_ s.guess]
      · exact hp2
      · intro hmem
        have hcast : ((p.toNat : Nat) : Int) = p := Int.toNat_of_nonneg hp0
        rw [hcast] at hmem
        have hnul := (hpos p hmem).2.2
        rw [hp2] at hnul
        have hnat := congrArg Char.toNat (Option.some.inj hnul)
        have h0 : unknownSlot.toNat = 0 := rfl
        omega
    · rw [List.mem_singleton] at h
      subst h
      refine ⟨by show 97 ≤ (alphabeticIndexToChar ((k : Nat) : Int)).toNat; omega, ?_, ?_⟩
      · intro p hp
        obtain ⟨hp0, hp1, _⟩ := hpos p hp
        refine ⟨hp0, hp1, ?_⟩
        have hcast : ((p.toNat : Nat) : Int) = p := Int.toNat_of_nonneg hp0
        exact foldl_set_of_mem _ pos hrange p.toNat (by rw [hcast]; exact hp) s.guess
          (by rw [hinv.guess_length]; omega)
      · intro w hwf i hi
        have hloop := (List.mem_filter.1 hwf).2
        simp only [Bool.not_eq_true'] at hloop
        have := (filterGuessedLoop_eq_false _ pos w.str 0).1 hloop i hi
        simpa using this
  · intro r0 hr0 hc w hwf
    rcases List.mem_append.1 hr0 with h | h
    · exact hinv.miss r0 h hc w (List.mem_filter.1 hwf).1
    · rw [List.mem_singleton] at h
      subst h
      exact ReturnCode.noConfusion hc
  · intro i hi hg
    by_cases hmem : (i : Int) ∈ pos
    · exact ⟨_, List.mem_append_right _ (List.mem_singleton.2 rfl), rfl, hmem⟩
    · have : (pos.foldl (fun g i => g.set (toSizeT i)
          (alphabeticIndexToChar ((k : Nat) : Int))) s.guess)[i]? = s.guess[i]? :=
        foldl_set_of_not_mem _ pos hrange i hmem s.guess
      have hg' : s.guess[i]? ≠ some unknownSlot := by
        rw [← this]
        exact hg
      obtain ⟨r0, hr0, h⟩ := hinv.confirmed i hi hg'
      exact ⟨r0, List.mem_append_left _ hr0, h⟩
  · intro k1 hk1
    by_cases hk : k1 = k
    · subst hk
      exact ⟨_, List.mem_append_right _ (List.mem_singleton.2 rfl), rfl,
        index_alphabeticIndexToChar k1⟩
    · have : s.alreadyGuessed k1 = true := by
        have h := hk1
        simp only [Table.write, hk, if_false] at h
        exact h
      obtain ⟨r0, hr0, h⟩ := hinv.marked k1 this
      exact ⟨r0, List.mem_append_left _ hr0, h⟩

theorem playInv_initial (store0 : List Word) (L maxGuess : Nat) :
    PlayInv store0 L maxGuess (initialState store0 L) [] where
  guess_length := by simp [initialState]
  correct_eq := by
    show 0 = confirmedCount (List.replicate L unknownSlot)
    unfold confirmedCount
    rw [eq_comm, List.countP_eq_zero]
    intro ch hch
    rw [List.eq_of_mem_replicate hch]
    simp
  wrong_le := Nat.zero_le _
  sublist := List.Sublist.refl _
  hit := fun r hr => absurd hr (List.not_mem_nil r)
  miss := fun r hr => absurd hr (List.not_mem_nil r)
  confirmed := by
    intro i hi hg
    exfalso
    apply hg
    show (List.replicate L unknownSlot)[i]? = some unknownSlot
    rw [List.getElem?_eq_getElem (by simpa using hi)]
    simp
  marked := by
    intro k hk
    exact absurd hk (by simp [initialState])

theorem playRound_inv (S : Type) [ScoreArith S] (store0 : List Word) (L maxGuess : Nat)
    (s : State) (log : List Round) (line : List Int)
    (hinv : PlayInv store0 L maxGuess s log) (hL : L < 2 ^ 63)
    (hint : ∀ i ∈ line, isInt i = true) (hnot : s.wrongGuessCount ≠ maxGuess)
    (s1 : State) (r : Round) (hround : playRound S s line = some (s1, r)) :
    PlayInv store0 L maxGuess s1 (log ++ [r]) := by
  unfold playRound at hround
  cases hq : getMostLikelyLetter S s.possibleWords s.alreadyGuessed s.guess with
  | none =>
    rw [hq] at hround
    exact Option.noConfusion hround
  | some ch =>
    rw [hq] at hround
    obtain ⟨k, hk⟩ := getMostLikelyLetter_range S _ _ _ ch hq
    subst hk
    simp only [] at hround
    cases hcode : (readIndexes s.guess line).1 with
    | success =>
      obtain ⟨hpw, hpos⟩ := readIndexes_success s.guess line
        (by rw [hinv.guess_length]; exact hL) hint hcode
      rw [hcode] at hround
      simp only [playSwitch, index_alphabeticIndexToChar k, Option.some.injEq,
        Prod.mk.injEq] at hround
      obtain ⟨hs1, hr⟩ := hround
      subst hs1
      subst hr
      refine playInv_hit store0 L maxGuess s log hinv hL k _ hpw ?_
      intro p hp
      have := hpos p hp
      rw [hinv.guess_length] at this
      exact this
    | noInput =>
      rw [hcode] at hround
      simp only [playSwitch, Option.some.injEq, Prod.mk.injEq] at hround
      obtain ⟨hs1, hr⟩ := hround
      subst hs1
      subst hr
      exact playInv_miss store0 L maxGuess s log hinv _ _ hnot
    | illegalInput =>
      rw [hcode] at hround
      simp only [playSwitch, Option.some.injEq, Prod.mk.injEq] at hround
      obtain ⟨hs1, hr⟩ := hround
      subst hs1
      subst hr
      exact playInv_other store0 L maxGuess s log hinv _
        (fun h => ReturnCode.noConfusion h) (fun h => ReturnCode.noConfusion h)
    | gameOver =>
      rw [hcode] at hround
      simp only [playSwitch, Option.some.injEq, Prod.mk.injEq] at hround
      obtain ⟨hs1, hr⟩ := hround
      subst hs1
      subst hr
      exact playInv_other store0 L maxGuess s log hinv _
        (fun h => ReturnCode.noConfusion h) (fun h => ReturnCode.noConfusion h)

theorem playRound_isSome (S : Type) [ScoreArith S] (store0 : List Word) (L maxGuess : Nat)
    (s : State) (log : List Round) (line : List Int)
    (hinv : PlayInv store0 L maxGuess s log)
    (hw : ∀ w ∈ store0, w.str.length = L ∧ ∀ ch ∈ w.str, isLowercase ch = true) :
    ∃ s1 r, playRound S s line = some (s1, r) := by
  have hdef : ∀ w ∈ s.possibleWords, ∀ i, i < s.guess.length → slotDefined s.guess w i := by
    intro w hwl i hi
    have hw0 := hw w (hinv.sublist.subset hwl)
    exact slotDefined_of_lowercase s.guess w (by rw [hw0.1, hinv.guess_length]) hw0.2 i hi
  have hs := scores_eq (S := S) s.possibleWords s.alreadyGuessed s.guess hdef
  obtain ⟨k, hk, _⟩ := maxElement_table (S := S)
    (fun k => ((s.possibleWords.filter (fun w => counts s.alreadyGuessed s.guess w k)).foldl
      (fun acc w => acc + ScoreArith.recip w.rank) 0))
  have hq : getMostLikelyLetter S s.possibleWords s.alreadyGuessed s.guess
      = some (alphabeticIndexToChar ((k : Nat) : Int)) := by
    unfold getMostLikelyLetter
    rw [hs]
    simp only [Option.map_some', Option.some.injEq]
    rw [hk]
  unfold playRound
  rw [hq]
  simp only []
  cases hcode : (readIndexes s.guess line).1 <;>
    simp [playSwitch, index_alphabeticIndexToChar k]

theorem playLoop_inv (S : Type) [ScoreArith S] (store0 : List Word) (L maxGuess : Nat)
    (hL : L < 2 ^ 63) :
    ∀ (lines : List (List Int)) (s : State) (log : List Round),
      (∀ line ∈ lines, ∀ i ∈ line, isInt i = true) →
      PlayInv store0 L maxGuess s log →
      ∀ s1 log1, playLoop S maxGuess lines s log = some (s1, log1) →
        PlayInv store0 L maxGuess s1 log1 := by
  intro lines
  induction lines with
  | nil =>
    intro s log _ hinv s1 log1 h
    simp only [playLoop, Option.some.injEq, Prod.mk.injEq] at h
    obtain ⟨h1, h2⟩ := h
    subst h1
    subst h2
    exact hinv
  | cons line rest ih =>
    intro s log hint hinv s1 log1 h
    unfold playLoop at h
    by_cases hover : (checkGameState maxGuess s.possibleWords s.guess s.wrongGuessCount
        s.correctGuessCount).1 = ReturnCode.gameOver
    · rw [if_pos hover] at h
      simp only [Option.some.injEq, Prod.mk.injEq] at h
      obtain ⟨h1, h2⟩ := h
      subst h1
      subst h2
      exact hinv
    · rw [if_neg hover] at h
      have hnot := (checkGameState_success _ _ _ _ _ hover).1
      cases hround : playRound S s line with
      | none =>
        rw [hround] at h
        exact Option.noConfusion h
      | some res =>
        obtain ⟨s2, r⟩ := res
        rw [hround] at h
        simp only [] at h
        have hinv2 := playRound_inv S store0 L maxGuess s log line hinv hL
          (hint line (List.mem_cons_self line rest)) hnot s2 r hround
        exact ih s2 (log ++ [r]) (fun l hl => hint l (List.mem_cons_of_mem line hl))
          hinv2 s1 log1 h

theorem playLoop_isSome (S : Type) [ScoreArith S] (store0 : List Word) (L maxGuess : Nat)
    (hL : L < 2 ^ 63)
    (hw : ∀ w ∈ store0, w.str.length = L ∧ ∀ ch ∈ w.str, isLowercase ch = true) :
    ∀ (lines : List (List Int)) (s : State) (log : List Round),
      (∀ line ∈ lines, ∀ i ∈ line, isInt i = true) →
      PlayInv store0 L maxGuess s log →
      ∃ s1 log1, playLoop S maxGuess lines s log = some (s1, log1) := by
  intro lines
  induction lines with
  | nil =>
    intro s log _ _
    exact ⟨s, log, rfl⟩
  | cons line rest ih =>
    intro s log hint hinv
    unfold playLoop
    by_cases hover : (checkGameState maxGuess s.possibleWords s.guess s.wrongGuessCount
        s.correctGuessCount).1 = ReturnCode.gameOver
    · rw [if_pos hover]
      exact ⟨s, log, rfl⟩
    · rw [if_neg hover]
      have hnot := (checkGameState_success _ _ _ _ _ hover).1
      obtain ⟨s2, r, hround⟩ := playRound_isSome S store0 L maxGuess s log line hinv hw
      rw [hround]
      simp only []
      have hinv2 := playRound_inv S store0 L maxGuess s log line hinv hL
        (hint line (List.mem_cons_self line rest)) hnot s2 r hround
      exact ih s2 (log ++ [r]) (fun l hl => hint l (List.mem_cons_of_mem line hl)) hinv2

theorem exists_unknown_of_count_ne (g : List Char) (h : confirmedCount g ≠ g.length) :
    ∃ i : Nat, i < g.length ∧ g[i]? = some unknownSlot := by
  unfold confirmedCount at h
  rw [Ne, List.countP_eq_length] at h
  simp only [decide_eq_true_eq, not_forall, not_not] at h
  obtain ⟨ch, hmem, hch⟩ := h
  obtain ⟨i, hi⟩ := List.mem_iff_getElem?.1 hmem
  refine ⟨i, ?_, by rw [hi, hch]⟩
  by_contra hcon
  rw [List.getElem?_eq_none (by omega)] at hi
  exact Option.noConfusion hi

theorem letter_eq_of_index_eq (a x : Char) (ha : 97 ≤ a.toNat) (hx : isLowercase x = true)
    (k : Fin charMax) (hak : Table.index (alphabeticIndex a) = some k)
    (hxk : Table.index (alphabeticIndex x) = some k) : a = x := by
  obtain ⟨k1, hk1, hk1nat, _⟩ := index_of_lowercase x hx
  rw [hxk] at hk1
  have hkk : k = k1 := Option.some.inj hk1
  subst hkk
  have hidx : alphabeticIndex a = (a.toNat : Int) - 97 := by
    unfold alphabeticIndex
    rw [toLower_of_ge a ha]
    rfl
  unfold Table.index at hak
  by_cases hb : 0 ≤ alphabeticIndex a ∧ alphabeticIndex a < (charMax : Int)
  · rw [dif_pos hb] at hak
    have h1 := congrArg (fun j : Fin charMax => (j : Nat)) (Option.some.inj hak)
    simp only [] at h1
    apply char_eq_of_toNat_eq
    omega
  · rw [dif_neg hb] at hak
    exact Option.noConfusion hak

/-- A letter that a candidate shows at an unknown slot was never the letter of
a round processed as a hit or as a miss. -/
theorem letter_not_in_log (store0 : List Word) (L maxGuess : Nat) (s : State)
    (log : List Round) (hinv : PlayInv store0 L maxGuess s log)
    (w : Word) (hw : w ∈ s.possibleWords) (i : Nat)
    (hslot : s.guess[i]? = some unknownSlot) (c : Char) (hc : w.str[i]? = some c) :
    ∀ r ∈ log, (r.code = ReturnCode.success ∨ r.code = ReturnCode.noInput) → r.letter ≠ c := by
  intro r hr hcode heq
  have hi : i < w.str.length := by
    by_contra hcon
    rw [List.getElem?_eq_none (by omega)] at hc
    exact Option.noConfusion hc
  rcases hcode with hcode | hcode
  · obtain ⟨hge, hpos, hwords⟩ := hinv.hit r hr hcode
    have hmem : (i : Int) ∈ r.pos := (hwords w hw i hi).1 (by rw [heq]; exact hc)
    have hpat := (hpos _ hmem).2.2
    simp only [Int.toNat_ofNat] at hpat
    rw [hslot] at hpat
    have hnat := congrArg Char.toNat (Option.some.inj hpat)
    have h0 : unknownSlot.toNat = 0 := rfl
    omega
  · have := hinv.miss r hr hcode w hw
    rw [heq] at this
    exact this (List.getElem?_mem hc)

/-! ## Claims on the evidence filter -/

/-- C1: on a list whose words all have length `L`, and for a set `P` of
positions below `L`, `filterGuessed` keeps, in their original order, exactly
the words that have `c` at slot `i` if and only if `i` is in `P`, for every
slot `i < L`; every remaining word has `c` at each position of `P` and nowhere
else. -/
theorem filterGuessed_keeps_exactly (L : Nat) (list : List Word) (c : Char) (P : List Int)
    (hlen : ∀ w ∈ list, w.str.length = L)
    (hP : ∀ p ∈ P, 0 ≤ p ∧ p < (L : Int)) :
    filterGuessed list c P
        = list.filter (fun w => decide (∀ i : Nat, i < L → (w.str[i]? = some c ↔ (i : Int) ∈ P)))
      ∧ ∀ w ∈ filterGuessed list c P,
          (∀ p ∈ P, w.str[p.toNat]? = some c)
            ∧ ∀ i : Nat, i < L → (w.str[i]? = some c → (i : Int) ∈ P) := by
  have key : ∀ w ∈ list, (!filterGuessedLoop c P w.str 0)
      = decide (∀ i : Nat, i < L → (w.str[i]? = some c ↔ (i : Int) ∈ P)) := by
    intro w hw
    have h := filterGuessedLoop_eq_false c P w.str 0
    rw [hlen w hw] at h
    simp only [Nat.zero_add] at h
    by_cases hb : filterGuessedLoop c P w.str 0 = false
    · rw [hb]
      simpa using h.1 hb
    · have hn : ¬ ∀ i : Nat, i < L → (w.str[i]? = some c ↔ (i : Int) ∈ P) := fun hx => hb (h.2 hx)
      simp only [Bool.not_eq_false] at hb
      rw [hb]
      simpa using hn
  have heq : filterGuessed list c P
      = list.filter (fun w => decide (∀ i : Nat, i < L → (w.str[i]? = some c ↔ (i : Int) ∈ P))) := by
    unfold filterGuessed
    exact List.filter_congr key
  refine ⟨heq, ?_⟩
  intro w hw
  rw [heq, List.mem_filter] at hw
  have hall := of_decide_eq_true hw.2
  refine ⟨?_, fun i hi hc => (hall i hi).1 hc⟩
  intro p hp
  obtain ⟨h0, h1⟩ := hP p hp
  have hcast : ((p.toNat : Nat) : Int) = p := Int.toNat_of_nonneg h0
  refine (hall p.toNat (by omega)).2 ?_
  rw [hcast]
  exact hp

/-- Witness for C1: the store `cat, act, can` filtered by `a` at position 1. -/
theorem filterGuessed_keeps_exactly_witness :
    (∀ w ∈ sampleStore, w.str.length = 3)
      ∧ (∀ p ∈ ([1] : List Int), 0 ≤ p ∧ p < ((3 : Nat) : Int))
      ∧ filterGuessed sampleStore (Char.ofNat 97) [1]
          = sampleStore.filter (fun w =>
              decide (∀ i : Nat, i < 3 → (w.str[i]? = some (Char.ofNat 97) ↔ (i : Int) ∈ ([1] : List Int))))
      ∧ ∀ w ∈ filterGuessed sampleStore (Char.ofNat 97) [1],
          (∀ p ∈ ([1] : List Int), w.str[p.toNat]? = some (Char.ofNat 97))
            ∧ ∀ i : Nat, i < 3 → (w.str[i]? = some (Char.ofNat 97) → (i : Int) ∈ ([1] : List Int)) :=
  ⟨by decide, by decide,
    filterGuessed_keeps_exactly 3 sampleStore (Char.ofNat 97) [1] (by decide) (by decide)⟩

/-- C2: `filterFailedToGuess` keeps, in their original order, exactly the
words that do not contain `c`; no remaining word contains `c`. -/
theorem filterFailedToGuess_keeps_exactly (list : List Word) (c : Char) :
    filterFailedToGuess list c = list.filter (fun w => decide (c ∉ w.str))
      ∧ ∀ w ∈ filterFailedToGuess list c, c ∉ w.str := by
  have heq : filterFailedToGuess list c = list.filter (fun w => decide (c ∉ w.str)) := by
    unfold filterFailedToGuess
    refine List.filter_congr ?_
    intro w _
    have h := strFind_eq_none c w.str 0
    by_cases hc : c ∈ w.str
    · have hn : ¬ strFind c w.str 0 = none := fun e => (h.1 e) hc
      simp [hc, hn]
    · simp [hc, h.2 hc]
  refine ⟨heq, ?_⟩
  intro w hw
  rw [heq, List.mem_filter] at hw
  exact of_decide_eq_true hw.2

/-! ## Claims on the game state evaluator -/

/-- C7: `checkGameState` tests, in this order, the guess budget ("You win!"),
the full reveal ("I win!") and the empty list (no match); it returns
`gameOver` exactly when one of the three holds and `success` exactly when
none does. -/
theorem checkGameState_priority (maxGuess : Nat) (possibleWords : List Word)
    (guess : List Char) (wrongGuessCount correctGuessCount : Nat) :
    (wrongGuessCount = maxGuess →
        checkGameState maxGuess possibleWords guess wrongGuessCount correctGuessCount
          = (ReturnCode.gameOver, "You win!\n" ++ displayThinking possibleWords (-1)))
      ∧ (wrongGuessCount ≠ maxGuess → correctGuessCount = guess.length →
        checkGameState maxGuess possibleWords guess wrongGuessCount correctGuessCount
          = (ReturnCode.gameOver, "I win!\n"))
      ∧ (wrongGuessCount ≠ maxGuess → correctGuessCount ≠ guess.length → possibleWords = [] →
        checkGameState maxGuess possibleWords guess wrongGuessCount correctGuessCount
          = (ReturnCode.gameOver,
              "Out of guesses\nLooks like my word list does not have that word\n"))
      ∧ (wrongGuessCount ≠ maxGuess → correctGuessCount ≠ guess.length → possibleWords ≠ [] →
        checkGameState maxGuess possibleWords guess wrongGuessCount correctGuessCount
          = (ReturnCode.success, ""))
      ∧ ((checkGameState maxGuess possibleWords guess wrongGuessCount correctGuessCount).1
            = ReturnCode.gameOver
          ↔ (wrongGuessCount = maxGuess ∨ correctGuessCount = guess.length
              ∨ possibleWords = []))
      ∧ ((checkGameState maxGuess possibleWords guess wrongGuessCount correctGuessCount).1
            = ReturnCode.success
          ↔ ¬ (wrongGuessCount = maxGuess ∨ correctGuessCount = guess.length
              ∨ possibleWords = [])) := by
  unfold checkGameState
  by_cases h1 : wrongGuessCount = maxGuess
  · simp [h1]
  · by_cases h2 : correctGuessCount = guess.length
    · simp [h1, h2]
    · cases possibleWords with
      | nil => simp [h1, h2]
      | cons w ws => simp [h1, h2]

/-! ## Claims on the index input -/

/-- C9: for a pattern and a sequence of entered `int` indexes, `readIndexes`
returns `illegalInput` as soon as some entered index denotes a position that
is negative, not below the pattern length, or already confirmed, and the
round of `play` then hands on the state it started from; an empty sequence
yields `noInput`; every other sequence yields `success` with `pos` the set of
the entered 0-based positions. -/
theorem readIndexes_classifies (word : List Char) (entered : List Int)
    (hL : word.length < 2 ^ 63) (hint : ∀ i ∈ entered, isInt i = true) :
    ((∃ i ∈ entered, badIndex word i) →
        (readIndexes word entered).1 = ReturnCode.illegalInput
          ∧ ∀ (S : Type) [ScoreArith S] (s : State), s.guess = word →
              playRound S s entered
                = (getMostLikelyLetter S s.possibleWords s.alreadyGuessed s.guess).map
                    (fun ch => (s, ⟨ch, ReturnCode.illegalInput, (readIndexes word entered).2⟩)))
      ∧ (entered = [] → readIndexes word entered = (ReturnCode.noInput, []))
      ∧ (entered ≠ [] → (∀ i ∈ entered, ¬ badIndex word i) →
          (readIndexes word entered).1 = ReturnCode.success
            ∧ (∀ p : Int, p ∈ (readIndexes word entered).2 ↔ ∃ i ∈ entered, p = i - 1)
            ∧ (readIndexes word entered).2.Pairwise (· < ·)) := by
  refine ⟨?_, ?_, ?_⟩
  · intro hbad
    have hcode : (readIndexes word entered).1 = ReturnCode.illegalInput :=
      readIndexesLoop_bad word hL entered [] hint hbad
    refine ⟨hcode, ?_⟩
    intro S _ s hs
    unfold playRound
    cases hq : getMostLikelyLetter S s.possibleWords s.alreadyGuessed s.guess with
    | none => rfl
    | some ch =>
      simp only [Option.map_some']
      rw [hs, hcode]
      rfl
  · intro he
    subst he
    rfl
  · intro hne hgood
    have hrun := readIndexesLoop_good word hL entered []
      (fun i hi => ⟨hint i hi, hgood i hi⟩)
    have hnil := foldl_setInsert_ne_nil entered hne []
    unfold readIndexes
    rw [hrun]
    refine ⟨?_, ?_, ?_⟩
    · simp [hnil]
    · intro p
      simpa using mem_foldl_setInsert entered [] p
    · exact foldl_setInsert_pairwise entered [] List.Pairwise.nil

/-- Witness for C9: on a pattern of length 3 with every slot unknown, the
entered index 6 (position 5) is refused. -/
theorem readIndexes_classifies_witness :
    (List.replicate 3 unknownSlot).length < 2 ^ 63
      ∧ (∀ i ∈ ([6] : List Int), isInt i = true)
      ∧ (∃ i ∈ ([6] : List Int), badIndex (List.replicate 3 unknownSlot) i)
      ∧ (readIndexes (List.replicate 3 unknownSlot) [6]).1 = ReturnCode.illegalInput :=
  ⟨by decide, by decide, ⟨6, by decide, Or.inr (Or.inl (by decide))⟩,
    ((readIndexes_classifies (List.replicate 3 unknownSlot) [6] (by decide) (by decide)).1
      ⟨6, by decide, Or.inr (Or.inl (by decide))⟩).1⟩

/-! ## Claims on the letter scorer -/

/-- C3: for a list of lowercase words of length `L`, a pattern of length `L`
and a guessed-letter table, the score accumulated for a letter `x` is `0` when
`x` is already guessed, and otherwise the sum of `1 / rank`, taken in list
order, over exactly the words that have `x` in at least one unknown slot, each
word counted once. -/
theorem scores_eq_sum (S : Type) [ScoreArith S] (L : Nat) (list : List Word)
    (alreadyGuessed : Table Bool) (current : List Char)
    (hcur : current.length = L)
    (hw : ∀ w ∈ list, w.str.length = L ∧ ∀ ch ∈ w.str, isLowercase ch = true) :
    ∃ words : Table S, scores list alreadyGuessed current = some words
      ∧ ∀ x, isLowercase x = true →
          letterScore words x
            = some (if isGuessed alreadyGuessed x = true then 0
                else (list.filter (fun w => inUnknownSlot current w x)).foldl
                  (fun acc w => acc + ScoreArith.recip w.rank) 0) := by
  have hdef : ∀ w ∈ list, ∀ i, i < current.length → slotDefined current w i := by
    intro w hwl i hi
    exact slotDefined_of_lowercase current w (by rw [(hw w hwl).1, hcur]) (hw w hwl).2 i hi
  refine ⟨_, scores_eq list alreadyGuessed current hdef, ?_⟩
  intro x hx
  obtain ⟨k, hk, _⟩ := index_of_lowercase x hx
  rw [letterScore_eq _ x k hk, isGuessed_eq alreadyGuessed x k hk]
  congr 1
  by_cases hg : alreadyGuessed k = true
  · rw [if_pos hg]
    have : list.filter (fun w => counts alreadyGuessed current w k) = [] := by
      rw [List.filter_eq_nil_iff]
      intro w _
      simp [counts, hg]
    simp only [this, List.foldl_nil]
  · rw [if_neg hg]
    have : list.filter (fun w => counts alreadyGuessed current w k)
        = list.filter (fun w => inUnknownSlot current w x) := by
      refine List.filter_congr ?_
      intro w hwl
      simp only [Bool.not_eq_true] at hg
      simp only [counts, hg, Bool.not_false, Bool.true_and]
      exact touches_eq_inUnknownSlot current w (by rw [(hw w hwl).1, hcur]) (hw w hwl).2 x hx k hk
    simp only [this]

/-- Witness for C3: with the store `cat`:1, `car`:2, `can`:3 and `a` confirmed
at slot 1, the scores of `t`, `r`, `n` are `1`, `1/2`, `1/3`. -/
theorem scores_eq_sum_witness :
    patternA.length = 3
      ∧ (∀ w ∈ catCarCan, w.str.length = 3 ∧ ∀ ch ∈ w.str, isLowercase ch = true)
      ∧ ∃ words : Table ℚ, scores catCarCan guessedA patternA = some words
          ∧ letterScore words 't' = some 1
          ∧ letterScore words 'r' = some (1 / 2)
          ∧ letterScore words 'n' = some (1 / 3) := by
  obtain ⟨words, hs, hx⟩ := scores_eq_sum ℚ 3 catCarCan guessedA patternA (by decide) (by decide)
  refine ⟨by decide, by decide, words, hs, ?_, ?_, ?_⟩
  · have hf : catCarCan.filter (fun w => inUnknownSlot patternA w 't')
        = [⟨"cat".toList, 1⟩] := by decide
    have hg : isGuessed guessedA 't' = false := by decide
    rw [hx 't' (by decide), hf, hg]
    norm_num [recip_rat]
  · have hf : catCarCan.filter (fun w => inUnknownSlot patternA w 'r')
        = [⟨"car".toList, 2⟩] := by decide
    have hg : isGuessed guessedA 'r' = false := by decide
    rw [hx 'r' (by decide), hf, hg]
    norm_num [recip_rat]
  · have hf : catCarCan.filter (fun w => inUnknownSlot patternA w 'n')
        = [⟨"can".toList, 3⟩] := by decide
    have hg : isGuessed guessedA 'n' = false := by decide
    rw [hx 'n' (by decide), hf, hg]
    norm_num [recip_rat]

/-- C4: for a list of lowercase words of length `L` and a pattern whose
unknown slots lie within the words, the letter returned by
`getMostLikelyLetter` has a score greater than or equal to the score of every
letter, and strictly greater than the score of every letter of smaller
alphabetic index. -/
theorem getMostLikelyLetter_first_max (S : Type) [ScoreArith S] (L : Nat) (list : List Word)
    (alreadyGuessed : Table Bool) (current : List Char)
    (hslots : ∀ i : Nat, current[i]? = some unknownSlot → i < L)
    (hw : ∀ w ∈ list, w.str.length = L ∧ ∀ ch ∈ w.str, isLowercase ch = true) :
    ∃ (words : Table S) (c : Char) (sc : S),
      scores list alreadyGuessed current = some words
        ∧ getMostLikelyLetter S list alreadyGuessed current = some c
        ∧ letterScore words c = some sc
        ∧ ∀ x, isLowercase x = true →
            ∃ sx, letterScore words x = some sx ∧ sx ≤ sc
              ∧ (alphabeticIndex x < alphabeticIndex c → sx < sc) := by
  have hdef : ∀ w ∈ list, ∀ i, i < current.length → slotDefined current w i := by
    intro w hwl i _
    refine slotDefined_of_slots current w (hw w hwl).2 i ?_
    intro hc
    rw [(hw w hwl).1]
    exact hslots i hc
  have hs := scores_eq (S := S) list alreadyGuessed current hdef
  obtain ⟨r, hr, hmax, hfirst⟩ := maxElement_table (S := S)
    (fun k => ((list.filter (fun w => counts alreadyGuessed current w k)).foldl
      (fun acc w => acc + ScoreArith.recip w.rank) 0))
  refine ⟨_, alphabeticIndexToChar ((r : Nat) : Int), _, hs, ?_,
    letterScore_eq _ _ r (index_alphabeticIndexToChar r), ?_⟩
  · unfold getMostLikelyLetter
    rw [hs]
    simp only [Option.map_some', Option.some.injEq]
    rw [hr]
  · intro x hx
    obtain ⟨k, hk, hknat, _⟩ := index_of_lowercase x hx
    refine ⟨_, letterScore_eq _ x k hk, hmax k, ?_⟩
    intro hlt
    rw [alphabeticIndex_of_lowercase x hx, alphabeticIndex_alphabeticIndexToChar r r.isLt] at hlt
    exact hfirst k (by omega)

/-- Witness for C4: the store `cat`, `car`, `can` with `a` confirmed at slot 1. -/
theorem getMostLikelyLetter_first_max_witness :
    (∀ i : Nat, patternA[i]? = some unknownSlot → i < 3)
      ∧ (∀ w ∈ catCarCan, w.str.length = 3 ∧ ∀ ch ∈ w.str, isLowercase ch = true)
      ∧ ∃ (words : Table ℚ) (c : Char) (sc : ℚ),
          scores catCarCan guessedA patternA = some words
            ∧ getMostLikelyLetter ℚ catCarCan guessedA patternA = some c
            ∧ letterScore words c = some sc
            ∧ ∀ x, isLowercase x = true →
                ∃ sx, letterScore words x = some sx ∧ sx ≤ sc
                  ∧ (alphabeticIndex x < alphabeticIndex c → sx < sc) :=
  have hslots : ∀ i : Nat, patternA[i]? = some unknownSlot → i < 3 := by
    intro i hi
    by_contra hcon
    have : patternA[i]? = none := List.getElem?_eq_none (by simp [patternA]; omega)
    rw [this] at hi
    exact absurd hi (by simp)
  ⟨hslots, by decide,
    getMostLikelyLetter_first_max ℚ 3 catCarCan guessedA patternA hslots (by decide)⟩

/-- C5, as stated, fails: on the one-word list `a` (rank 1) with the pattern
of one unknown slot and `a` marked as guessed, every score is zero and the
scorer returns `a`, which is marked. -/
theorem getMostLikelyLetter_returns_guessed :
    ([⟨['a'], 1⟩] : List Word) ≠ []
      ∧ (∀ w ∈ ([⟨['a'], 1⟩] : List Word),
          w.str.length = 1 ∧ (∀ ch ∈ w.str, isLowercase ch = true) ∧ 1 ≤ w.rank)
      ∧ [unknownSlot].length = 1
      ∧ getMostLikelyLetter ℚ [⟨['a'], 1⟩] guessedA [unknownSlot] = some 'a'
      ∧ isGuessed guessedA 'a' = true := by
  refine ⟨by decide, by decide, by decide, ?_, by decide⟩
  set_option maxRecDepth 100000 in
  decide

/-- C5, amended: for a list of lowercase words of length `L` with ranks at
least 1 and a pattern of length `L`, if some word of the list shows, at an
unknown slot, a letter that is not marked in the guessed-letter table, then
`getMostLikelyLetter` returns a lowercase letter that is not marked. -/
theorem getMostLikelyLetter_not_guessed (S : Type) [ScoreArith S] (L : Nat)
    (list : List Word) (alreadyGuessed : Table Bool) (current : List Char)
    (hcur : current.length = L)
    (hw : ∀ w ∈ list, w.str.length = L ∧ (∀ ch ∈ w.str, isLowercase ch = true) ∧ 1 ≤ w.rank)
    (hex : ∃ w ∈ list, ∃ x, inUnknownSlot current w x = true
      ∧ isGuessed alreadyGuessed x = false) :
    ∃ c, getMostLikelyLetter S list alreadyGuessed current = some c
      ∧ isLowercase c = true ∧ isGuessed alreadyGuessed c = false := by
  obtain ⟨c, hc, hlow, hg, _⟩ := getMostLikelyLetter_fresh S list alreadyGuessed current
    (fun w hwl => ⟨by rw [(hw w hwl).1, hcur], (hw w hwl).2⟩) hex
  exact ⟨c, hc, hlow, hg⟩

/-- Witness for the amended C5: the store `cat`, `car`, `can` with `a`
confirmed at slot 1; `cat` shows the unmarked letter `t` at slot 2. -/
theorem getMostLikelyLetter_not_guessed_witness :
    patternA.length = 3
      ∧ (∀ w ∈ catCarCan,
          w.str.length = 3 ∧ (∀ ch ∈ w.str, isLowercase ch = true) ∧ 1 ≤ w.rank)
      ∧ (∃ w ∈ catCarCan, ∃ x, inUnknownSlot patternA w x = true
          ∧ isGuessed guessedA x = false)
      ∧ ∃ c, getMostLikelyLetter ℚ catCarCan guessedA patternA = some c
          ∧ isLowercase c = true ∧ isGuessed guessedA c = false :=
  ⟨by decide, by decide, ⟨⟨"cat".toList, 1⟩, by decide, 't', by decide, by decide⟩,
    getMostLikelyLetter_not_guessed ℚ 3 catCarCan guessedA patternA (by decide) (by decide)
      ⟨⟨"cat".toList, 1⟩, by decide, 't', by decide, by decide⟩⟩

/-! ## Claims on the play loop -/

/-- C6: in a run of the play loop from a store of lowercase words of length
`L` (ranks at least 1) and the all-unknown pattern, the loop never meets
undefined behaviour, and whenever `checkGameState` reports that the game is
not over, `getMostLikelyLetter` proposes a letter that is not the letter of
any earlier round processed as a hit or as a miss. -/
theorem play_never_proposes_twice (S : Type) [ScoreArith S] (store : List Word)
    (L maxGuess : Nat) (lines : List (List Int))
    (hL : L < 2 ^ 63) (hint : ∀ line ∈ lines, ∀ i ∈ line, isInt i = true)
    (hw : ∀ w ∈ store, w.str.length = L ∧ (∀ ch ∈ w.str, isLowercase ch = true) ∧ 1 ≤ w.rank) :
    (∃ s log, playLoop S maxGuess lines (initialState store L) [] = some (s, log))
      ∧ ∀ s log, playLoop S maxGuess lines (initialState store L) [] = some (s, log) →
          (checkGameState maxGuess s.possibleWords s.guess s.wrongGuessCount
            s.correctGuessCount).1 = ReturnCode.success →
          ∃ c, getMostLikelyLetter S s.possibleWords s.alreadyGuessed s.guess = some c
            ∧ ∀ r ∈ log, (r.code = ReturnCode.success ∨ r.code = ReturnCode.noInput) →
                r.letter ≠ c := by
  refine ⟨playLoop_isSome S store L maxGuess hL (fun w h => ⟨(hw w h).1, (hw w h).2.1⟩)
    lines _ [] hint (playInv_initial store L maxGuess), ?_⟩
  intro s log hrun hstate
  have hinv := playLoop_inv S store L maxGuess hL lines _ [] hint
    (playInv_initial store L maxGuess) s log hrun
  have hnotover : ¬ (checkGameState maxGuess s.possibleWords s.guess s.wrongGuessCount
      s.correctGuessCount).1 = ReturnCode.gameOver := by
    rw [hstate]
    exact fun h => ReturnCode.noConfusion h
  obtain ⟨_, hcorrect, hne⟩ := checkGameState_success _ _ _ _ _ hnotover
  rw [hinv.correct_eq] at hcorrect
  obtain ⟨i, hi, hslot⟩ := exists_unknown_of_count_ne s.guess hcorrect
  obtain ⟨w, hwmem⟩ := List.exists_mem_of_ne_nil _ hne
  have hw0 := hw w (hinv.sublist.subset hwmem)
  have hiw : i < w.str.length := by rw [hw0.1, ← hinv.guess_length]; exact hi
  have hwf : ∀ v ∈ s.possibleWords, s.guess.length ≤ v.str.length
      ∧ (∀ ch ∈ v.str, isLowercase ch = true) ∧ 1 ≤ v.rank := by
    intro v hv
    have hv0 := hw v (hinv.sublist.subset hv)
    exact ⟨by rw [hv0.1, hinv.guess_length], hv0.2⟩
  have hxlow : isLowercase w.str[i] = true := hw0.2.1 _ (List.getElem_mem hiw)
  have hex : ∃ v ∈ s.possibleWords, ∃ x, inUnknownSlot s.guess v x = true
      ∧ isGuessed s.alreadyGuessed x = false := by
    refine ⟨w, hwmem, w.str[i], ?_, ?_⟩
    · unfold inUnknownSlot
      simp only [List.any_eq_true, List.mem_range, decide_eq_true_eq]
      exact ⟨i, hi, hslot, List.getElem?_eq_getElem hiw⟩
    · obtain ⟨k, hk, _⟩ := index_of_lowercase w.str[i] hxlow
      rw [isGuessed_eq s.alreadyGuessed _ k hk]
      by_contra hg
      simp only [Bool.not_eq_false] at hg
      obtain ⟨r, hr, hcode, hidx⟩ := hinv.marked k hg
      have hge := (hinv.hit r hr hcode).1
      have heq := letter_eq_of_index_eq r.letter w.str[i] hge hxlow k hidx hk
      exact letter_not_in_log store L maxGuess s log hinv w hwmem i hslot w.str[i]
        (List.getElem?_eq_getElem hiw) r hr (Or.inl hcode) heq
  obtain ⟨c, hc, _, _, w1, hw1, hin⟩ :=
    getMostLikelyLetter_fresh S s.possibleWords s.alreadyGuessed s.guess hwf hex
  refine ⟨c, hc, ?_⟩
  unfold inUnknownSlot at hin
  simp only [List.any_eq_true, List.mem_range, decide_eq_true_eq] at hin
  obtain ⟨i1, _, hslot1, hc1⟩ := hin
  exact letter_not_in_log store L maxGuess s log hinv w1 hw1 i1 hslot1 c hc1

/-- Witness for C6: the store `cat`, `car`, `can`, a budget of 6 and the input
lines `2`, `1`, `7`, empty. -/
theorem play_never_proposes_twice_witness :
    (3 : Nat) < 2 ^ 63
      ∧ (∀ line ∈ ([[2], [1], [7], []] : List (List Int)), ∀ i ∈ line, isInt i = true)
      ∧ (∀ w ∈ catCarCan,
          w.str.length = 3 ∧ (∀ ch ∈ w.str, isLowercase ch = true) ∧ 1 ≤ w.rank)
      ∧ (∃ s log, playLoop ℚ 6 [[2], [1], [7], []] (initialState catCarCan 3) [] = some (s, log))
      ∧ ∀ s log, playLoop ℚ 6 [[2], [1], [7], []] (initialState catCarCan 3) [] = some (s, log) →
          (checkGameState 6 s.possibleWords s.guess s.wrongGuessCount
            s.correctGuessCount).1 = ReturnCode.success →
          ∃ c, getMostLikelyLetter ℚ s.possibleWords s.alreadyGuessed s.guess = some c
            ∧ ∀ r ∈ log, (r.code = ReturnCode.success ∨ r.code = ReturnCode.noInput) →
                r.letter ≠ c :=
  ⟨by decide, by decide, by decide,
    play_never_proposes_twice ℚ catCarCan 3 6 [[2], [1], [7], []] (by decide) (by decide)
      (by decide)⟩

/-- C8: in every state the play loop reaches from the initial state, for
every sequence of input lines, `correctGuessCount` is at most the word length
`L` and `wrongGuessCount` is at most the guess budget; on a store of lowercase
words of length `L` the loop reaches such a state for every input. -/
theorem play_counters_bounded (S : Type) [ScoreArith S] (store : List Word)
    (L maxGuess : Nat) (lines : List (List Int))
    (hL : L < 2 ^ 63) (hint : ∀ line ∈ lines, ∀ i ∈ line, isInt i = true) :
    (∀ s log, playLoop S maxGuess lines (initialState store L) [] = some (s, log) →
        s.correctGuessCount ≤ L ∧ s.wrongGuessCount ≤ maxGuess)
      ∧ ((∀ w ∈ store, w.str.length = L ∧ ∀ ch ∈ w.str, isLowercase ch = true) →
          ∃ s log, playLoop S maxGuess lines (initialState store L) [] = some (s, log)) := by
  refine ⟨?_, fun hw => playLoop_isSome S store L maxGuess hL hw lines _ [] hint
    (playInv_initial store L maxGuess)⟩
  intro s log hrun
  have hinv := playLoop_inv S store L maxGuess hL lines _ [] hint
    (playInv_initial store L maxGuess) s log hrun
  refine ⟨?_, hinv.wrong_le⟩
  rw [hinv.correct_eq, ← hinv.guess_length]
  exact confirmedCount_le s.guess

/-- Witness for C8: the store `cat`, `car`, `can`, a budget of 6 and the input
lines `2`, `1`, `7`, empty. -/
theorem play_counters_bounded_witness :
    (3 : Nat) < 2 ^ 63
      ∧ (∀ line ∈ ([[2], [1], [7], []] : List (List Int)), ∀ i ∈ line, isInt i = true)
      ∧ (∀ s log, playLoop ℚ 6 [[2], [1], [7], []] (initialState catCarCan 3) [] = some (s, log) →
          s.correctGuessCount ≤ 3 ∧ s.wrongGuessCount ≤ 6)
      ∧ ((∀ w ∈ catCarCan, w.str.length = 3 ∧ ∀ ch ∈ w.str, isLowercase ch = true) →
          ∃ s log, playLoop ℚ 6 [[2], [1], [7], []] (initialState catCarCan 3) [] = some (s, log)) :=
  ⟨by decide, by decide,
    play_counters_bounded ℚ catCarCan 3 6 [[2], [1], [7], []] (by decide) (by decide)⟩

/-- C10: in every state the play loop reaches on a store of words of length
`L`, every word of the candidate store has each letter processed as a hit at
exactly the positions reported for it, agrees with the pattern at every
confirmed slot, shows no letter of the pattern at an unknown slot, and
contains no letter processed as a miss; on a store of lowercase words the loop
reaches such a state for every input. -/
theorem play_store_consistent (S : Type) [ScoreArith S] (store : List Word)
    (L maxGuess : Nat) (lines : List (List Int))
    (hL : L < 2 ^ 63) (hint : ∀ line ∈ lines, ∀ i ∈ line, isInt i = true)
    (hlen : ∀ w ∈ store, w.str.length = L) :
    (∀ s log, playLoop S maxGuess lines (initialState store L) [] = some (s, log) →
        ∀ w ∈ s.possibleWords,
          (∀ r ∈ log, r.code = ReturnCode.success →
              (∀ p ∈ r.pos, 0 ≤ p ∧ p < (L : Int) ∧ w.str[p.toNat]? = some r.letter)
                ∧ ∀ i : Nat, i < L → w.str[i]? = some r.letter → (i : Int) ∈ r.pos)
            ∧ (∀ i : Nat, i < L → s.guess[i]? ≠ some unknownSlot → w.str[i]? = s.guess[i]?)
            ∧ (∀ i j : Nat, i < L → j < L → s.guess[i]? = some unknownSlot →
                s.guess[j]? ≠ some unknownSlot → w.str[i]? ≠ s.guess[j]?)
            ∧ (∀ r ∈ log, r.code = ReturnCode.noInput → r.letter ∉ w.str))
      ∧ ((∀ w ∈ store, ∀ ch ∈ w.str, isLowercase ch = true) →
          ∃ s log, playLoop S maxGuess lines (initialState store L) [] = some (s, log)) := by
  refine ⟨?_, fun hw => playLoop_isSome S store L maxGuess hL
    (fun w h => ⟨hlen w h, hw w h⟩) lines _ [] hint (playInv_initial store L maxGuess)⟩
  intro s log hrun w hwmem
  have hinv := playLoop_inv S store L maxGuess hL lines _ [] hint
    (playInv_initial store L maxGuess) s log hrun
  have hwl : w.str.length = L := hlen w (hinv.sublist.subset hwmem)
  have hhit : ∀ r ∈ log, r.code = ReturnCode.success →
      (∀ p ∈ r.pos, 0 ≤ p ∧ p < (L : Int) ∧ w.str[p.toNat]? = some r.letter)
        ∧ ∀ i : Nat, i < L → w.str[i]? = some r.letter → (i : Int) ∈ r.pos := by
    intro r hr hcode
    obtain ⟨_, hpos, hwords⟩ := hinv.hit r hr hcode
    refine ⟨?_, fun i hi h => (hwords w hwmem i (by rw [hwl]; exact hi)).1 h⟩
    intro p hp
    obtain ⟨hp0, hp1, _⟩ := hpos p hp
    refine ⟨hp0, hp1, ?_⟩
    have hcast : ((p.toNat : Nat) : Int) = p := Int.toNat_of_nonneg hp0
    exact (hwords w hwmem p.toNat (by rw [hwl]; omega)).2 (by rw [hcast]; exact hp)
  have hagree : ∀ i : Nat, i < L → s.guess[i]? ≠ some unknownSlot →
      w.str[i]? = s.guess[i]? := by
    intro i hi hg
    obtain ⟨r, hr, hcode, hmem⟩ := hinv.confirmed i hi hg
    obtain ⟨_, hpos, hwords⟩ := hinv.hit r hr hcode
    have hpat := (hpos _ hmem).2.2
    simp only [Int.toNat_ofNat] at hpat
    rw [hpat]
    exact (hwords w hwmem i (by rw [hwl]; exact hi)).2 hmem
  refine ⟨hhit, hagree, ?_, fun r hr hcode => hinv.miss r hr hcode w hwmem⟩
  intro i j hi hj hslot hconf heq
  obtain ⟨r, hr, hcode, hmem⟩ := hinv.confirmed j hj hconf
  obtain ⟨hge, hpos, hwords⟩ := hinv.hit r hr hcode
  have hpat := (hpos _ hmem).2.2
  simp only [Int.toNat_ofNat] at hpat
  rw [hpat] at heq
  exact letter_not_in_log store L maxGuess s log hinv w hwmem i hslot r.letter heq r hr
    (Or.inl hcode) rfl

/-- Witness for C10: the store `cat`, `car`, `can`, a budget of 6 and the
input lines `2`, `1`, `7`, empty. -/
theorem play_store_consistent_witness :
    (3 : Nat) < 2 ^ 63
      ∧ (∀ line ∈ ([[2], [1], [7], []] : List (List Int)), ∀ i ∈ line, isInt i = true)
      ∧ (∀ w ∈ catCarCan, w.str.length = 3)
      ∧ (∀ s log,
          playLoop ℚ 6 [[2], [1], [7], []] (initialState catCarCan 3) [] = some (s, log) →
          ∀ w ∈ s.possibleWords,
            (∀ r ∈ log, r.code = ReturnCode.success →
                (∀ p ∈ r.pos, 0 ≤ p ∧ p < ((3 : Nat) : Int) ∧ w.str[p.toNat]? = some r.letter)
                  ∧ ∀ i : Nat, i < 3 → w.str[i]? = some r.letter → (i : Int) ∈ r.pos)
              ∧ (∀ i : Nat, i < 3 → s.guess[i]? ≠ some unknownSlot → w.str[i]? = s.guess[i]?)
              ∧ (∀ i j : Nat, i < 3 → j < 3 → s.guess[i]? = some unknownSlot →
                  s.guess[j]? ≠ some unknownSlot → w.str[i]? ≠ s.guess[j]?)
              ∧ (∀ r ∈ log, r.code = ReturnCode.noInput → r.letter ∉ w.str))
      ∧ ((∀ w ∈ catCarCan, ∀ ch ∈ w.str, isLowercase ch = true) →
          ∃ s log,
            playLoop ℚ 6 [[2], [1], [7], []] (initialState catCarCan 3) [] = some (s, log)) :=
  ⟨by decide, by decide, by decide,
    play_store_consistent ℚ catCarCan 3 6 [[2], [1], [7], []] (by decide) (by decide)
      (by decide)⟩

/-! ## Further claims on the evidence filter and on single rounds -/

theorem playSwitch_sublist (s : State) (c : Char) (code : ReturnCode) (pos : List Int)
    (s1 : State) (h : playSwitch s c code pos = some s1) :
    s1.possibleWords.Sublist s.possibleWords := by
  cases code with
  | success =>
    unfold playSwitch at h
    simp only [] at h
    cases hk : Table.index (alphabeticIndex c) with
    | none => rw [hk] at h; exact Option.noConfusion h
    | some k =>
      rw [hk] at h
      simp only [Option.some.injEq] at h
      subst h
      exact List.filter_sublist _
  | noInput =>
    simp only [playSwitch, Option.some.injEq] at h
    subst h
    exact List.filter_sublist _
  | illegalInput =>
    simp only [playSwitch, Option.some.injEq] at h
    subst h
    exact List.Sublist.refl _
  | gameOver =>
    simp only [playSwitch, Option.some.injEq] at h
    subst h
    exact List.Sublist.refl _

theorem playRound_sublist (S : Type) [ScoreArith S] (s : State) (line : List Int)
    (s1 : State) (r : Round) (h : playRound S s line = some (s1, r)) :
    s1.possibleWords.Sublist s.possibleWords := by
  unfold playRound at h
  cases hq : getMostLikelyLetter S s.possibleWords s.alreadyGuessed s.guess with
  | none => rw [hq] at h; exact Option.noConfusion h
  | some c =>
    rw [hq] at h
    simp only [] at h
    cases hsw : playSwitch s c (readIndexes s.guess line).1 (readIndexes s.guess line).2 with
    | none => rw [hsw] at h; exact Option.noConfusion h
    | some s2 =>
      rw [hsw] at h
      simp only [Option.some.injEq, Prod.mk.injEq] at h
      rw [← h.1]
      exact playSwitch_sublist s c _ _ s2 hsw

/-- C11: `filterGuessed` and `filterFailedToGuess` return a sublist of the list
they are given (no word or rank is added or altered), and the candidate store
after a round of `play`, whatever the kind of the round, is a sublist of the
store before it, so its size does not increase. -/
theorem store_only_shrinks (S : Type) [ScoreArith S] (list : List Word) (c : Char)
    (P : List Int) (s : State) (line : List Int) :
    (filterGuessed list c P).Sublist list
      ∧ (filterFailedToGuess list c).Sublist list
      ∧ (∀ s1 r, playRound S s line = some (s1, r) →
          s1.possibleWords.Sublist s.possibleWords
            ∧ s1.possibleWords.length ≤ s.possibleWords.length) :=
  ⟨List.filter_sublist _, List.filter_sublist _,
    fun s1 r h => ⟨playRound_sublist S s line s1 r h,
      (playRound_sublist S s line s1 r h).length_le⟩⟩

/-- C16: both filters are idempotent. -/
theorem filters_idempotent (list : List Word) (c : Char) (P : List Int) :
    filterGuessed (filterGuessed list c P) c P = filterGuessed list c P
      ∧ filterFailedToGuess (filterFailedToGuess list c) c = filterFailedToGuess list c := by
  constructor
  · unfold filterGuessed
    rw [List.filter_filter]
    simp only [Bool.and_self]
  · unfold filterFailedToGuess
    rw [List.filter_filter]
    simp only [Bool.and_self]

/-- C15: a round processed as a miss for the letter `c`, with `wrongGuessCount`
below the largest `size_t`, increases `wrongGuessCount` by exactly 1, leaves
`correctGuessCount` and the pattern unchanged and filters the store with
`filterFailedToGuess`; when no word of the store contains `c` the store is
unchanged. A round of `play` whose proposal is `c` and whose input is read as
`noInput` is such a round. -/
theorem miss_round_frame (s : State) (c : Char) (pos : List Int)
    (hw : s.wrongGuessCount + 1 < 2 ^ 64) :
    ∃ s1, playSwitch s c ReturnCode.noInput pos = some s1
      ∧ s1.wrongGuessCount = s.wrongGuessCount + 1
      ∧ s1.correctGuessCount = s.correctGuessCount
      ∧ s1.guess = s.guess
      ∧ s1.possibleWords = filterFailedToGuess s.possibleWords c
      ∧ ((∀ w ∈ s.possibleWords, c ∉ w.str) → s1.possibleWords = s.possibleWords)
      ∧ ∀ (S : Type) [ScoreArith S] (line : List Int),
          getMostLikelyLetter S s.possibleWords s.alreadyGuessed s.guess = some c →
          readIndexes s.guess line = (ReturnCode.noInput, pos) →
          playRound S s line = some (s1, ⟨c, ReturnCode.noInput, pos⟩) := by
  refine ⟨_, rfl, Nat.mod_eq_of_lt hw, rfl, rfl, rfl, ?_, ?_⟩
  · intro hno
    show filterFailedToGuess s.possibleWords c = s.possibleWords
    unfold filterFailedToGuess
    rw [List.filter_eq_self]
    intro w hwmem
    have := (strFind_eq_none c w.str 0).2 (hno w hwmem)
    simp [this]
  · intro S _ line hq hread
    unfold playRound
    rw [hq]
    simp only [hread]
    rfl

/-- Witness for C15: a miss for `z` on the store `cat`, `car`, `can`. -/
theorem miss_round_frame_witness :
    (initialState catCarCan 3).wrongGuessCount + 1 < 2 ^ 64
      ∧ ∃ s1, playSwitch (initialState catCarCan 3) 'z' ReturnCode.noInput [] = some s1
          ∧ s1.wrongGuessCount = (initialState catCarCan 3).wrongGuessCount + 1
          ∧ s1.correctGuessCount = (initialState catCarCan 3).correctGuessCount
          ∧ s1.guess = (initialState catCarCan 3).guess
          ∧ s1.possibleWords = catCarCan := by
  obtain ⟨s1, h1, h2, h3, h4, _, h6, _⟩ :=
    miss_round_frame (initialState catCarCan 3) 'z' [] (by decide)
  exact ⟨by decide, s1, h1, h2, h3, h4, h6 (by decide)⟩

/-! ## Claims on the word source -/

theorem toInt32_of_lt (n : Nat) (h : n < 2 ^ 31) : toInt32 n = (n : Int) := by
  unfold toInt32
  norm_num at h ⊢
  omega

theorem readAllWordsWithSizeLoop_eq (size : Int) :
    ∀ (source : List (List Char)) (rank : Nat) (acc : List Word),
      rank + source.length < 2 ^ 31 →
      (∀ str ∈ source, str.length < 2 ^ 31) →
      readAllWordsWithSizeLoop size source (rank : Int) acc
        = some (acc ++ ((source.enumFrom rank).filter
            (fun p => decide ((p.2.length : Int) = size))).map
              (fun p => (⟨p.2, (p.1 : Int)⟩ : Word))) := by
  intro source
  induction source with
  | nil => intro rank acc _ _; simp [readAllWordsWithSizeLoop]
  | cons str rest ih =>
    intro rank acc hr hlen
    have hstr := toInt32_of_lt str.length (hlen str (List.mem_cons_self str rest))
    have hlt : ¬ ((rank : Int) + 1 ≥ 2 ^ 31) := by
      simp only [List.length_cons] at hr
      norm_num at hr ⊢
      omega
    unfold readAllWordsWithSizeLoop
    rw [if_neg hlt, hstr]
    have hcast : ((rank : Int) + 1) = ((rank + 1 : Nat) : Int) := by push_cast; rfl
    rw [hcast, ih (rank + 1) _ (by simp only [List.length_cons] at hr; omega)
      (fun t ht => hlen t (List.mem_cons_of_mem str ht))]
    by_cases hsz : (str.length : Int) = size
    · simp [List.enumFrom_cons, hsz]
    · simp [List.enumFrom_cons, hsz]

/-- C12: for a source of fewer than `2 ^ 31 - 1` words, each shorter than
`2 ^ 31` characters, `readAllWordsWithSize` returns, in source order, exactly
the words whose length equals the target size, each tagged with its 1-based
position in the whole source; every rank is at least 1 and the ranks increase
strictly along the list. -/
theorem readAllWordsWithSize_ranks (source : List (List Char)) (size : Int)
    (hsrc : source.length < 2 ^ 31 - 1)
    (hlen : ∀ str ∈ source, str.length < 2 ^ 31) :
    ∃ ws, readAllWordsWithSize source size = some ws
      ∧ ws = ((source.enumFrom 1).filter (fun p => decide ((p.2.length : Int) = size))).map
          (fun p => (⟨p.2, (p.1 : Int)⟩ : Word))
      ∧ (∀ w ∈ ws, 1 ≤ w.rank)
      ∧ (ws.map (fun w => w.rank)).Pairwise (· < ·) := by
  have hrun := readAllWordsWithSizeLoop_eq size source 1 []
    (by norm_num at hsrc ⊢; omega) hlen
  refine ⟨_, by unfold readAllWordsWithSize; exact hrun, by simp, ?_, ?_⟩
  · intro w hw
    simp only [List.nil_append, List.mem_map, List.mem_filter] at hw
    obtain ⟨p, ⟨hp, _⟩, rfl⟩ := hw
    have := List.le_fst_of_mem_enumFrom hp
    show (1 : Int) ≤ (p.1 : Int)
    exact_mod_cast this
  · simp only [List.nil_append, List.map_map]
    have hsub : ((source.enumFrom 1).filter (fun p => decide ((p.2.length : Int) = size))).Sublist
        (source.enumFrom 1) := List.filter_sublist _
    have hpw : (source.enumFrom 1).Pairwise (fun p q => (p.1 : Int) < (q.1 : Int)) := by
      have h1 : ((source.enumFrom 1).map Prod.fst).Pairwise (· < ·) := by
        rw [List.enumFrom_map_fst]
        exact List.pairwise_lt_range' 1 source.length
      rw [List.pairwise_map] at h1
      exact h1.imp (fun h => by exact_mod_cast h)
    rw [List.pairwise_map]
    exact (hpw.sublist hsub).imp (fun h => h)

/-- Witness for C12: the source `cat`, `tree`, `car` and the target size 3. -/
theorem readAllWordsWithSize_ranks_witness :
    (["cat".toList, "tree".toList, "car".toList] : List (List Char)).length < 2 ^ 31 - 1
      ∧ (∀ str ∈ (["cat".toList, "tree".toList, "car".toList] : List (List Char)),
          str.length < 2 ^ 31)
      ∧ readAllWordsWithSize ["cat".toList, "tree".toList, "car".toList] 3
          = some [⟨"cat".toList, 1⟩, ⟨"car".toList, 3⟩] := by
  obtain ⟨ws, h1, h2, _⟩ := readAllWordsWithSize_ranks
    ["cat".toList, "tree".toList, "car".toList] 3 (by decide) (by decide)
  refine ⟨by decide, by decide, ?_⟩
  rw [h1, h2]
  decide

/-! ## The first proposal on `cat`, `car`, `can` -/

theorem foldl_recip_eq_sum :
    ∀ (l : List Word) (a : ℚ),
      l.foldl (fun acc w => acc + ScoreArith.recip w.rank) a
        = a + (l.map (fun w => (1 : ℚ) / (w.rank : ℚ))).sum := by
  intro l
  induction l with
  | nil => intro a; simp
  | cons w rest ih =>
    intro a
    rw [List.foldl_cons, ih, recip_rat, List.map_cons, List.sum_cons]
    ring

theorem foldl_recip_filter_le (l : List Word) (p : Word → Bool)
    (hr : ∀ w ∈ l, 1 ≤ w.rank) :
    (l.filter p).foldl (fun acc w => acc + ScoreArith.recip w.rank) (0 : ℚ)
      ≤ l.foldl (fun acc w => acc + ScoreArith.recip w.rank) (0 : ℚ) := by
  rw [foldl_recip_eq_sum, foldl_recip_eq_sum]
  simp only [zero_add]
  refine List.Sublist.sum_le_sum ((List.filter_sublist l).map _) ?_
  intro x hx
  obtain ⟨w, hw, rfl⟩ := List.mem_map.1 hx
  have : (0 : ℚ) < (w.rank : ℚ) := by exact_mod_cast (by have := hr w hw; omega : (0 : Int) < w.rank)
  positivity

theorem maxElement_eq_zero {S : Type} [ScoreArith S] (words : Table S)
    (h : ∀ k, words k ≤ words ⟨0, by decide⟩) : maxElement (List.ofFn words) = 0 := by
  obtain ⟨r, hr, _, hfirst⟩ := maxElement_table words
  rw [hr]
  by_contra hne
  have hlt := hfirst ⟨0, by decide⟩ (by show 0 < (r : Nat); omega)
  exact absurd (h r) (not_le_of_lt hlt)

/-- On rational scores, when every word of the list counts for the table entry
of `a`, the scorer returns `a`. -/
theorem getMostLikelyLetter_rat_a (list : List Word) (alreadyGuessed : Table Bool)
    (current : List Char)
    (hdef : ∀ w ∈ list, ∀ i, i < current.length → slotDefined current w i)
    (hr : ∀ w ∈ list, 1 ≤ w.rank)
    (hall : ∀ w ∈ list, counts alreadyGuessed current w ⟨0, by decide⟩ = true) :
    getMostLikelyLetter ℚ list alreadyGuessed current = some 'a' := by
  have hs := scores_eq (S := ℚ) list alreadyGuessed current hdef
  unfold getMostLikelyLetter
  rw [hs]
  simp only [Option.map_some', Option.some.injEq]
  rw [maxElement_eq_zero]
  · rfl
  · intro k
    have h0 : list.filter (fun w => counts alreadyGuessed current w ⟨0, by decide⟩) = list :=
      List.filter_eq_self.2 hall
    show (list.filter (fun w => counts alreadyGuessed current w k)).foldl _ (0 : ℚ)
      ≤ (list.filter (fun w => counts alreadyGuessed current w ⟨0, by decide⟩)).foldl _ (0 : ℚ)
    rw [h0]
    exact foldl_recip_filter_le list _ hr

theorem catCarCan_slotDefined :
    ∀ w ∈ catCarCan, ∀ i, i < (List.replicate 3 unknownSlot).length →
      slotDefined (List.replicate 3 unknownSlot) w i :=
  fun w hw i hi => slotDefined_of_lowercase _ w
    ((by decide : ∀ w ∈ catCarCan, (List.replicate 3 unknownSlot).length ≤ w.str.length) w hw)
    ((by decide : ∀ w ∈ catCarCan, ∀ ch ∈ w.str, isLowercase ch = true) w hw) i hi

theorem catCarCan_first_proposal :
    getMostLikelyLetter ℚ catCarCan (fun _ => false) (List.replicate 3 unknownSlot)
      = some 'a' :=
  getMostLikelyLetter_rat_a catCarCan (fun _ => false) (List.replicate 3 unknownSlot)
    catCarCan_slotDefined (by decide) (by decide)

/-- C13, as stated, fails: on the store `cat`:1, `car`:2, `can`:3 with the
all-unknown pattern and no letter guessed, the scorer does not return `c`. -/
theorem scorer_does_not_favor_c :
    getMostLikelyLetter ℚ catCarCan (fun _ => false) (List.replicate 3 unknownSlot)
      ≠ some 'c' := by
  rw [catCarCan_first_proposal]
  decide

/-- C13, amended: on the store `cat`:1, `car`:2, `can`:3 with the all-unknown
pattern and no letter guessed, the letters `c` and `a` both have the score
`1 + 1/2 + 1/3`, and the tie goes to the lower alphabetic index: the scorer
returns `a`. -/
theorem scorer_tie_goes_to_a :
    ∃ words : Table ℚ,
      scores catCarCan (fun _ => false) (List.replicate 3 unknownSlot) = some words
        ∧ letterScore words 'c' = some (1 + 1 / 2 + 1 / 3)
        ∧ letterScore words 'a' = some (1 + 1 / 2 + 1 / 3)
        ∧ getMostLikelyLetter ℚ catCarCan (fun _ => false) (List.replicate 3 unknownSlot)
            = some 'a' := by
  refine ⟨_, scores_eq (S := ℚ) catCarCan (fun _ => false) (List.replicate 3 unknownSlot)
    catCarCan_slotDefined, ?_, ?_, catCarCan_first_proposal⟩
  · have hk : Table.index (alphabeticIndex 'c') = some ⟨2, by decide⟩ := by decide
    have hf : catCarCan.filter
        (fun w => counts (fun _ => false) (List.replicate 3 unknownSlot) w ⟨2, by decide⟩)
        = catCarCan := by decide
    rw [letterScore_eq _ 'c' _ hk]
    simp only [hf]
    rw [foldl_recip_eq_sum]
    norm_num [catCarCan]
  · have hk : Table.index (alphabeticIndex 'a') = some ⟨0, by decide⟩ := by decide
    have hf : catCarCan.filter
        (fun w => counts (fun _ => false) (List.replicate 3 unknownSlot) w ⟨0, by decide⟩)
        = catCarCan := by decide
    rw [letterScore_eq _ 'a' _ hk]
    simp only [hf]
    rw [foldl_recip_eq_sum]
    norm_num [catCarCan]

/-- C14: evaluation of the code at the failing input. On the store `cat`,
`car`, `can` the first proposal is `a`; when the line is empty the round is
processed as a miss and `a` is not marked in `alreadyGuessed` afterwards. -/
theorem miss_leaves_letter_unmarked :
    ∃ s1, playRound ℚ (initialState catCarCan 3) []
        = some (s1, ⟨'a', ReturnCode.noInput, []⟩)
      ∧ isGuessed s1.alreadyGuessed 'a' = false
      ∧ s1.wrongGuessCount = 1 := by
  have hq : getMostLikelyLetter ℚ (initialState catCarCan 3).possibleWords
      (initialState catCarCan 3).alreadyGuessed (initialState catCarCan 3).guess = some 'a' :=
    catCarCan_first_proposal
  refine ⟨{ initialState catCarCan 3 with
      wrongGuessCount := (0 + 1) % 2 ^ 64
      possibleWords := filterFailedToGuess catCarCan 'a' }, ?_, by decide, by decide⟩
  unfold playRound
  rw [hq]
  rfl

/-! ## Lemmas on rounds and on truthful answers -/

theorem readIndexes_noInput (word : List Char) (entered : List Int)
    (hL : word.length < 2 ^ 63) (hint : ∀ i ∈ entered, isInt i = true)
    (hcode : (readIndexes word entered).1 = ReturnCode.noInput) : entered = [] := by
  by_contra hne
  by_cases hbad : ∃ i ∈ entered, badIndex word i
  · have := readIndexesLoop_bad word hL entered [] hint hbad
    unfold readIndexes at hcode
    rw [this] at hcode
    exact ReturnCode.noConfusion hcode
  · have hgood : ∀ i ∈ entered, isInt i = true ∧ ¬ badIndex word i :=
      fun i hi => ⟨hint i hi, fun hb => hbad ⟨i, hi, hb⟩⟩
    have hrun := readIndexesLoop_good word hL entered [] hgood
    have hnil := foldl_setInsert_ne_nil entered hne []
    unfold readIndexes at hcode
    rw [hrun] at hcode
    simp [hnil] at hcode

theorem readIndexes_good (word : List Char) (entered : List Int)
    (hL : word.length < 2 ^ 63) (hint : ∀ i ∈ entered, isInt i = true)
    (hne : entered ≠ []) (hgood : ∀ i ∈ entered, ¬ badIndex word i) :
    (readIndexes word entered).1 = ReturnCode.success
      ∧ ∀ p : Int, p ∈ (readIndexes word entered).2 ↔ ∃ i ∈ entered, p = i - 1 := by
  have hrun := readIndexesLoop_good word hL entered []
    (fun i hi => ⟨hint i hi, hgood i hi⟩)
  have hnil := foldl_setInsert_ne_nil entered hne []
  unfold readIndexes
  rw [hrun]
  refine ⟨by simp [hnil], ?_⟩
  intro p
  simpa using mem_foldl_setInsert entered [] p

theorem readIndexes_success_mem (word : List Char) (entered : List Int)
    (hL : word.length < 2 ^ 63) (hint : ∀ i ∈ entered, isInt i = true)
    (hcode : (readIndexes word entered).1 = ReturnCode.success) :
    ∀ p : Int, p ∈ (readIndexes word entered).2 ↔ ∃ i ∈ entered, p = i - 1 := by
  by_cases hbad : ∃ i ∈ entered, badIndex word i
  · have := readIndexesLoop_bad word hL entered [] hint hbad
    unfold readIndexes at hcode
    rw [this] at hcode
    exact ReturnCode.noConfusion hcode
  · have hrun := readIndexesLoop_good word hL entered []
      (fun i hi => ⟨hint i hi, fun hb => hbad ⟨i, hi, hb⟩⟩)
    intro p
    unfold readIndexes
    rw [hrun]
    simpa using mem_foldl_setInsert entered [] p

theorem mem_occurrences (word : Word) (c : Char) (i : Nat) :
    (i : Int) ∈ occurrences word c ↔ word.str[i]? = some c := by
  unfold occurrences
  simp only [List.mem_map, List.mem_filter, List.mem_range, decide_eq_true_eq]
  constructor
  · rintro ⟨j, ⟨_, hj⟩, hji⟩
    have : j = i := by exact_mod_cast hji
    rw [← this]
    exact hj
  · intro h
    refine ⟨i, ⟨?_, h⟩, rfl⟩
    by_contra hcon
    rw [List.getElem?_eq_none (by omega)] at h
    exact Option.noConfusion h

theorem occurrences_range (word : Word) (c : Char) (p : Int) (hp : p ∈ occurrences word c) :
    0 ≤ p ∧ p < (word.str.length : Int) ∧ word.str[p.toNat]? = some c := by
  unfold occurrences at hp
  simp only [List.mem_map, List.mem_filter, List.mem_range, decide_eq_true_eq] at hp
  obtain ⟨j, ⟨hj, hc⟩, rfl⟩ := hp
  refine ⟨by omega, by omega, ?_⟩
  simpa using hc

theorem mem_truthfulLine (secret : Word) (c : Char) (j : Int) :
    j ∈ truthfulLine secret c ↔ j - 1 ∈ occurrences secret c := by
  unfold truthfulLine
  simp only [List.mem_map]
  constructor
  · rintro ⟨p, hp, rfl⟩
    simpa using hp
  · intro h
    exact ⟨j - 1, h, by omega⟩

theorem truthfulLine_isInt (secret : Word) (c : Char) (h : secret.str.length < 2 ^ 31) :
    ∀ j ∈ truthfulLine secret c, isInt j = true := by
  intro j hj
  rw [mem_truthfulLine] at hj
  obtain ⟨h0, h1, _⟩ := occurrences_range secret c (j - 1) hj
  rw [isInt_iff]
  have h2 : (secret.str.length : Int) < 2147483648 := by
    have : secret.str.length < 2147483648 := by norm_num at h; exact h
    exact_mod_cast this
  omega

theorem truthfulLine_eq_nil (secret : Word) (c : Char) (h : truthfulLine secret c = []) :
    c ∉ secret.str := by
  intro hc
  obtain ⟨i, hi⟩ := List.mem_iff_getElem?.1 hc
  have : ((i : Int) + 1) ∈ truthfulLine secret c := by
    rw [mem_truthfulLine]
    have := (mem_occurrences secret c i).2 hi
    simpa using this
  rw [h] at this
  exact absurd this (List.not_mem_nil _)

/-- The filter for a hit keeps a word that shows `c` exactly at `pos`. -/
theorem mem_filterGuessed_of_exact (list : List Word) (w : Word) (c : Char) (pos : List Int)
    (hw : w ∈ list) (hpos : ∀ i : Nat, i < w.str.length → (w.str[i]? = some c ↔ (i : Int) ∈ pos)) :
    w ∈ filterGuessed list c pos := by
  unfold filterGuessed
  rw [List.mem_filter]
  refine ⟨hw, ?_⟩
  have := (filterGuessedLoop_eq_false c pos w.str 0).2 (by simpa using hpos)
  simp [this]

theorem mem_filterFailedToGuess_of_not_mem (list : List Word) (w : Word) (c : Char)
    (hw : w ∈ list) (hc : c ∉ w.str) : w ∈ filterFailedToGuess list c := by
  unfold filterFailedToGuess
  rw [List.mem_filter]
  refine ⟨hw, ?_⟩
  have := (strFind_eq_none c w.str 0).2 hc
  simp [this]

/-- What a round that completes did: the proposal, the classification of the
line and the state handed on by the `switch`. -/
theorem playRound_spec (S : Type) [ScoreArith S] (s : State) (line : List Int)
    (s1 : State) (r : Round) (h : playRound S s line = some (s1, r)) :
    ∃ k : Fin charMax,
      getMostLikelyLetter S s.possibleWords s.alreadyGuessed s.guess
          = some (alphabeticIndexToChar ((k : Nat) : Int))
        ∧ r = ⟨alphabeticIndexToChar ((k : Nat) : Int), (readIndexes s.guess line).1,
            (readIndexes s.guess line).2⟩
        ∧ playSwitch s (alphabeticIndexToChar ((k : Nat) : Int)) (readIndexes s.guess line).1
            (readIndexes s.guess line).2 = some s1 := by
  unfold playRound at h
  cases hq : getMostLikelyLetter S s.possibleWords s.alreadyGuessed s.guess with
  | none => rw [hq] at h; exact Option.noConfusion h
  | some c =>
    rw [hq] at h
    obtain ⟨k, hk⟩ := getMostLikelyLetter_range S _ _ _ c hq
    subst hk
    simp only [] at h
    cases hsw : playSwitch s (alphabeticIndexToChar ((k : Nat) : Int))
        (readIndexes s.guess line).1 (readIndexes s.guess line).2 with
    | none => rw [hsw] at h; exact Option.noConfusion h
    | some s2 =>
      rw [hsw] at h
      simp only [Option.some.injEq, Prod.mk.injEq] at h
      exact ⟨k, rfl, h.2.symm, by rw [← h.1]; exact hsw⟩

theorem playSwitch_success (s : State) (k : Fin charMax) (pos : List Int) :
    playSwitch s (alphabeticIndexToChar ((k : Nat) : Int)) ReturnCode.success pos
      = some
        { possibleWords :=
            filterGuessed s.possibleWords (alphabeticIndexToChar ((k : Nat) : Int)) pos
          guess := pos.foldl
            (fun g i => g.set (toSizeT i) (alphabeticIndexToChar ((k : Nat) : Int))) s.guess
          wrongGuessCount := s.wrongGuessCount
          correctGuessCount := (s.correctGuessCount + pos.length) % 2 ^ 64
          alreadyGuessed := s.alreadyGuessed.write k true } := by
  simp only [playSwitch, index_alphabeticIndexToChar k]

theorem playLoop_cons_of_round (S : Type) [ScoreArith S] (maxGuess : Nat) (s : State)
    (log : List Round) (line : List Int) (rest : List (List Int)) (s1 : State) (r : Round)
    (hover : ¬ (checkGameState maxGuess s.possibleWords s.guess s.wrongGuessCount
      s.correctGuessCount).1 = ReturnCode.gameOver)
    (hround : playRound S s line = some (s1, r)) :
    playLoop S maxGuess (line :: rest) s log = playLoop S maxGuess rest s1 (log ++ [r]) := by
  rw [playLoop, if_neg hover, hround]

theorem playLoop_of_over (S : Type) [ScoreArith S] (maxGuess : Nat) (s : State)
    (log : List Round) (lines : List (List Int))
    (hover : (checkGameState maxGuess s.possibleWords s.guess s.wrongGuessCount
      s.correctGuessCount).1 = ReturnCode.gameOver) :
    playLoop S maxGuess lines s log = some (s, log) := by
  cases lines with
  | nil => rfl
  | cons line rest => rw [playLoop, if_pos hover]

theorem truthfulLines_of_over (S : Type) [ScoreArith S] (maxGuess : Nat) (secret : Word)
    (n : Nat) (s : State)
    (hover : (checkGameState maxGuess s.possibleWords s.guess s.wrongGuessCount
      s.correctGuessCount).1 = ReturnCode.gameOver) :
    truthfulLines S maxGuess secret n s = [] := by
  cases n with
  | zero => rfl
  | succ m => rw [truthfulLines, if_pos hover]

theorem truthfulLines_succ (S : Type) [ScoreArith S] (maxGuess : Nat) (secret : Word)
    (n : Nat) (s : State) (c : Char) (s1 : State) (r : Round)
    (hover : ¬ (checkGameState maxGuess s.possibleWords s.guess s.wrongGuessCount
      s.correctGuessCount).1 = ReturnCode.gameOver)
    (hq : getMostLikelyLetter S s.possibleWords s.alreadyGuessed s.guess = some c)
    (hround : playRound S s (truthfulLine secret c) = some (s1, r)) :
    truthfulLines S maxGuess secret (n + 1) s
      = truthfulLine secret c :: truthfulLines S maxGuess secret n s1 := by
  rw [truthfulLines, if_neg hover, hq]
  simp only [hround]

theorem truthfulLines_isInt (S : Type) [ScoreArith S] (maxGuess : Nat) (secret : Word)
    (hlen : secret.str.length < 2 ^ 31) :
    ∀ (n : Nat) (s : State), ∀ line ∈ truthfulLines S maxGuess secret n s,
      ∀ i ∈ line, isInt i = true := by
  intro n
  induction n with
  | zero => intro s line hl; exact absurd hl (List.not_mem_nil _)
  | succ m ih =>
    intro s line hl
    rw [truthfulLines] at hl
    by_cases hover : (checkGameState maxGuess s.possibleWords s.guess s.wrongGuessCount
        s.correctGuessCount).1 = ReturnCode.gameOver
    · rw [if_pos hover] at hl
      exact absurd hl (List.not_mem_nil _)
    · rw [if_neg hover] at hl
      cases hq : getMostLikelyLetter S s.possibleWords s.alreadyGuessed s.guess with
      | none =>
        rw [hq] at hl
        exact absurd hl (List.not_mem_nil _)
      | some c =>
        rw [hq] at hl
        simp only [List.mem_cons] at hl
        rcases hl with h | h
        · rw [h]
          exact truthfulLine_isInt secret c hlen
        · cases hround : playRound S s (truthfulLine secret c) with
          | none =>
            rw [hround] at h
            exact absurd h (List.not_mem_nil _)
          | some res =>
            rw [hround] at h
            exact ih res.1 line h

/-- A round answered truthfully for `secret` keeps `secret` in the store. -/
theorem truthful_round_keeps (S : Type) [ScoreArith S] (store0 : List Word) (L maxGuess : Nat)
    (secret : Word) (hL : L < 2 ^ 31) (hlen : secret.str.length = L)
    (s : State) (log : List Round) (hinv : PlayInv store0 L maxGuess s log)
    (hmem : secret ∈ s.possibleWords) (c : Char)
    (hq : getMostLikelyLetter S s.possibleWords s.alreadyGuessed s.guess = some c)
    (s1 : State) (r : Round) (hround : playRound S s (truthfulLine secret c) = some (s1, r)) :
    secret ∈ s1.possibleWords := by
  obtain ⟨k, hk, hr, hsw⟩ := playRound_spec S s _ s1 r hround
  rw [hq] at hk
  have hc : c = alphabeticIndexToChar ((k : Nat) : Int) := Option.some.inj hk
  have hL63 : s.guess.length < 2 ^ 63 := by
    rw [hinv.guess_length]
    exact lt_trans hL (by norm_num)
  have hint := truthfulLine_isInt secret c (by rw [hlen]; exact hL)
  cases hcode : (readIndexes s.guess (truthfulLine secret c)).1 with
  | success =>
    rw [hcode, playSwitch_success] at hsw
    have hs1 := Option.some.inj hsw
    rw [← hs1]
    show secret ∈ filterGuessed s.possibleWords _ _
    rw [← hc]
    refine mem_filterGuessed_of_exact _ secret c _ hmem ?_
    intro i _
    rw [readIndexes_success_mem s.guess _ hL63 hint hcode, ← mem_occurrences]
    constructor
    · intro h
      exact ⟨(i : Int) + 1, (mem_truthfulLine secret c _).2 (by simpa using h), by omega⟩
    · rintro ⟨j, hj, hij⟩
      have := (mem_truthfulLine secret c j).1 hj
      rw [hij]
      exact this
  | noInput =>
    have hnil := readIndexes_noInput s.guess _ hL63 hint hcode
    rw [hcode] at hsw
    simp only [playSwitch, Option.some.injEq] at hsw
    rw [← hsw]
    show secret ∈ filterFailedToGuess s.possibleWords _
    rw [← hc]
    exact mem_filterFailedToGuess_of_not_mem _ secret c hmem (truthfulLine_eq_nil secret c hnil)
  | illegalInput =>
    rw [hcode] at hsw
    simp only [playSwitch, Option.some.injEq] at hsw
    rw [← hsw]
    exact hmem
  | gameOver =>
    rw [hcode] at hsw
    simp only [playSwitch, Option.some.injEq] at hsw
    rw [← hsw]
    exact hmem

theorem truthful_loop_keeps (S : Type) [ScoreArith S] (store0 : List Word) (L maxGuess : Nat)
    (secret : Word) (hL : L < 2 ^ 31) (hlen : secret.str.length = L) :
    ∀ (n : Nat) (s : State) (log : List Round), PlayInv store0 L maxGuess s log →
      secret ∈ s.possibleWords →
      ∀ s2 log2, playLoop S maxGuess (truthfulLines S maxGuess secret n s) s log
          = some (s2, log2) →
        secret ∈ s2.possibleWords := by
  intro n
  induction n with
  | zero =>
    intro s log _ hmem s2 log2 h
    simp only [truthfulLines, playLoop, Option.some.injEq, Prod.mk.injEq] at h
    rw [← h.1]
    exact hmem
  | succ m ih =>
    intro s log hinv hmem s2 log2 h
    by_cases hover : (checkGameState maxGuess s.possibleWords s.guess s.wrongGuessCount
        s.correctGuessCount).1 = ReturnCode.gameOver
    · rw [playLoop_of_over S maxGuess s log _ hover] at h
      simp only [Option.some.injEq, Prod.mk.injEq] at h
      rw [← h.1]
      exact hmem
    · cases hq : getMostLikelyLetter S s.possibleWords s.alreadyGuessed s.guess with
      | none =>
        rw [truthfulLines, if_neg hover, hq] at h
        simp only [playLoop, Option.some.injEq, Prod.mk.injEq] at h
        rw [← h.1]
        exact hmem
      | some c =>
        cases hround : playRound S s (truthfulLine secret c) with
        | none =>
          rw [truthfulLines, if_neg hover, hq] at h
          simp only [hround] at h
          rw [playLoop, if_neg hover, hround] at h
          exact Option.noConfusion h
        | some res =>
          obtain ⟨s1, r⟩ := res
          rw [truthfulLines_succ S maxGuess secret m s c s1 r hover hq hround,
            playLoop_cons_of_round S maxGuess s log _ _ s1 r hover hround] at h
          have hnot := (checkGameState_success _ _ _ _ _ hover).1
          have hinv1 := playRound_inv S store0 L maxGuess s log _ hinv
            (lt_trans hL (by norm_num))
            (truthfulLine_isInt secret c (by rw [hlen]; exact hL)) hnot s1 r hround
          exact ih s1 (log ++ [r]) hinv1
            (truthful_round_keeps S store0 L maxGuess secret hL hlen s log hinv hmem c hq
              s1 r hround) s2 log2 h

/-! ## Claims on truthful play -/

/-- C19: truthful evidence never eliminates the secret word. For a list that
contains a word `secret` of length `L`: if `c` occurs in `secret`, `secret` is
still in `filterGuessed list c {i | secret[i] == c}`; if `c` does not occur,
`secret` is still in `filterFailedToGuess list c`. In a game started on the
list in which every line is the truthful answer for `secret`, `secret` is in
the store of every state reached, so the store is never empty and
`checkGameState` never prints the text of the empty word list; on a list of
lowercase words of length `L` such a game meets no undefined behaviour. -/
theorem truthful_evidence_keeps_secret (S : Type) [ScoreArith S] (list : List Word)
    (secret : Word) (c : Char) (L maxGuess : Nat)
    (hmem : secret ∈ list) (hlen : secret.str.length = L) (hL : L < 2 ^ 31) :
    (c ∈ secret.str → secret ∈ filterGuessed list c (occurrences secret c))
      ∧ (c ∉ secret.str → secret ∈ filterFailedToGuess list c)
      ∧ (∀ n s log,
          playLoop S maxGuess (truthfulLines S maxGuess secret n (initialState list L))
              (initialState list L) [] = some (s, log) →
            secret ∈ s.possibleWords ∧ s.possibleWords ≠ []
              ∧ (checkGameState maxGuess s.possibleWords s.guess s.wrongGuessCount
                  s.correctGuessCount).2
                ≠ "Out of guesses\nLooks like my word list does not have that word\n")
      ∧ ((∀ w ∈ list, w.str.length = L ∧ ∀ ch ∈ w.str, isLowercase ch = true) →
          ∀ n, ∃ s log,
            playLoop S maxGuess (truthfulLines S maxGuess secret n (initialState list L))
              (initialState list L) [] = some (s, log)) := by
  refine ⟨fun _ => mem_filterGuessed_of_exact list secret c _ hmem
      (fun i _ => (mem_occurrences secret c i).symm),
    fun hc => mem_filterFailedToGuess_of_not_mem list secret c hmem hc, ?_, ?_⟩
  · intro n s log hrun
    have hkeep := truthful_loop_keeps S list L maxGuess secret hL hlen n _ []
      (playInv_initial list L maxGuess) hmem s log hrun
    have hne : s.possibleWords ≠ [] := List.ne_nil_of_mem hkeep
    refine ⟨hkeep, hne, ?_⟩
    unfold checkGameState
    by_cases h1 : s.wrongGuessCount = maxGuess
    · rw [if_pos h1]
      intro h
      have h2 := congrArg List.head? (congrArg String.data h)
      simp only [String.data_append] at h2
      simp at h2
    · rw [if_neg h1]
      by_cases h2 : s.correctGuessCount = s.guess.length
      · rw [if_pos h2]
        decide
      · rw [if_neg h2]
        have h3 : s.possibleWords.isEmpty = false := by
          cases hp : s.possibleWords with
          | nil => exact absurd hp hne
          | cons a l => rfl
        simp only [h3]
        decide
  · intro hw n
    exact playLoop_isSome S list L maxGuess (lt_trans hL (by norm_num)) hw _ _ []
      (truthfulLines_isInt S maxGuess secret (by rw [hlen]; exact hL) n _)
      (playInv_initial list L maxGuess)

/-- Witness for C19: the secret `car` in the store `cat`, `car`, `can`. -/
theorem truthful_evidence_keeps_secret_witness :
    (⟨"car".toList, 2⟩ : Word) ∈ catCarCan
      ∧ (⟨"car".toList, 2⟩ : Word).str.length = 3
      ∧ (3 : Nat) < 2 ^ 31
      ∧ (⟨"car".toList, 2⟩ : Word) ∈ filterGuessed catCarCan 'r' [2]
      ∧ ∀ n s log,
          playLoop ℚ 6 (truthfulLines ℚ 6 ⟨"car".toList, 2⟩ n (initialState catCarCan 3))
              (initialState catCarCan 3) [] = some (s, log) →
            (⟨"car".toList, 2⟩ : Word) ∈ s.possibleWords ∧ s.possibleWords ≠ []
              ∧ (checkGameState 6 s.possibleWords s.guess s.wrongGuessCount
                  s.correctGuessCount).2
                ≠ "Out of guesses\nLooks like my word list does not have that word\n" :=
  have h := truthful_evidence_keeps_secret ℚ catCarCan ⟨"car".toList, 2⟩ 'r' 3 6
    (by decide) (by decide) (by decide)
  ⟨by decide, by decide, by decide, h.1 (by decide), h.2.2.1⟩

/-! ## Claims on the pattern -/

theorem alphabeticIndexToChar_ne_unknown (k : Fin charMax) :
    alphabeticIndexToChar ((k : Nat) : Int) ≠ unknownSlot := by
  intro h
  have h1 := alphabeticIndexToChar_toNat k k.isLt
  have h0 : unknownSlot.toNat = 0 := rfl
  rw [h] at h1
  omega

/-- C17: in every state the play loop reaches, `correctGuessCount` equals the
number of confirmed slots of the pattern, and a round played from that state
leaves every confirmed slot as it is; a round processed as a hit changes
exactly the slots of the accepted position set, all of which were unknown
before the round, and any other round leaves the pattern unchanged. -/
theorem confirmed_slots_fixed (S : Type) [ScoreArith S] (store : List Word)
    (L maxGuess : Nat) (lines : List (List Int))
    (hL : L < 2 ^ 63) (hint : ∀ line ∈ lines, ∀ i ∈ line, isInt i = true) :
    ∀ s log, playLoop S maxGuess lines (initialState store L) [] = some (s, log) →
      s.correctGuessCount = confirmedCount s.guess
        ∧ ∀ (line : List Int), (∀ i ∈ line, isInt i = true) →
            ∀ s1 r, playRound S s line = some (s1, r) →
              (∀ (i : Nat) (ch : Char), s.guess[i]? = some ch → ch ≠ unknownSlot →
                  s1.guess[i]? = some ch)
                ∧ (r.code = ReturnCode.success →
                    (∀ p ∈ r.pos, 0 ≤ p ∧ p < (L : Int)
                        ∧ s.guess[p.toNat]? = some unknownSlot)
                      ∧ ∀ i : Nat, i < L → (s1.guess[i]? ≠ s.guess[i]? ↔ (i : Int) ∈ r.pos))
                ∧ (r.code ≠ ReturnCode.success → s1.guess = s.guess) := by
  intro s log hrun
  have hinv := playLoop_inv S store L maxGuess hL lines _ [] hint
    (playInv_initial store L maxGuess) s log hrun
  refine ⟨hinv.correct_eq, ?_⟩
  intro line hline s1 r hround
  obtain ⟨k, _, hr, hsw⟩ := playRound_spec S s line s1 r hround
  have hL63 : s.guess.length < 2 ^ 63 := by rw [hinv.guess_length]; exact hL
  cases hcode : (readIndexes s.guess line).1 with
  | success =>
    obtain ⟨_, hpos⟩ := readIndexes_success s.guess line hL63 hline hcode
    rw [hcode, playSwitch_success] at hsw
    have hs1 := Option.some.inj hsw
    have hguess : s1.guess = (readIndexes s.guess line).2.foldl
        (fun g i => g.set (toSizeT i) (alphabeticIndexToChar ((k : Nat) : Int))) s.guess := by
      rw [← hs1]
    have hrpos : r.pos = (readIndexes s.guess line).2 := by rw [hr]
    have hrange : ∀ p ∈ (readIndexes s.guess line).2, 0 ≤ p ∧ p < 2 ^ 63 := by
      intro p hp
      have := hpos p hp
      have h63 : ((s.guess.length : Nat) : Int) < 2 ^ 63 := by exact_mod_cast hL63
      exact ⟨this.1, lt_trans this.2.1 h63⟩
    have hunknown : ∀ i : Nat, (i : Int) ∈ (readIndexes s.guess line).2 →
        s.guess[i]? = some unknownSlot := by
      intro i hi
      have := (hpos _ hi).2.2
      simpa using this
    refine ⟨?_, fun _ => ⟨?_, ?_⟩, fun hne => absurd (by rw [hr]; exact hcode) hne⟩
    · intro i ch hi hch
      rw [hguess, foldl_set_of_not_mem _ _ hrange i ?_ s.guess]
      · exact hi
      · intro hmem
        rw [hunknown i hmem] at hi
        exact hch (Option.some.inj hi).symm
    · intro p hp
      rw [hrpos] at hp
      have := hpos p hp
      rw [hinv.guess_length] at this
      exact this
    · intro i hi
      rw [hrpos, hguess]
      constructor
      · intro hne
        by_contra hmem
        exact hne (foldl_set_of_not_mem _ _ hrange i hmem s.guess)
      · intro hmem
        rw [foldl_set_of_mem _ _ hrange i hmem s.guess (by rw [hinv.guess_length]; exact hi),
          hunknown i hmem]
        intro h
        exact alphabeticIndexToChar_ne_unknown k (Option.some.inj h)
  | noInput =>
    rw [hcode] at hsw
    simp only [playSwitch, Option.some.injEq] at hsw
    have hg : s1.guess = s.guess := by rw [← hsw]
    refine ⟨fun i ch hi _ => by rw [hg]; exact hi,
      fun h => absurd (show (readIndexes s.guess line).1 = ReturnCode.success by
        rw [hr] at h; exact h) (by rw [hcode]; exact fun e => ReturnCode.noConfusion e),
      fun _ => hg⟩
  | illegalInput =>
    rw [hcode] at hsw
    simp only [playSwitch, Option.some.injEq] at hsw
    have hg : s1.guess = s.guess := by rw [← hsw]
    refine ⟨fun i ch hi _ => by rw [hg]; exact hi,
      fun h => absurd (show (readIndexes s.guess line).1 = ReturnCode.success by
        rw [hr] at h; exact h) (by rw [hcode]; exact fun e => ReturnCode.noConfusion e),
      fun _ => hg⟩
  | gameOver =>
    rw [hcode] at hsw
    simp only [playSwitch, Option.some.injEq] at hsw
    have hg : s1.guess = s.guess := by rw [← hsw]
    refine ⟨fun i ch hi _ => by rw [hg]; exact hi,
      fun h => absurd (show (readIndexes s.guess line).1 = ReturnCode.success by
        rw [hr] at h; exact h) (by rw [hcode]; exact fun e => ReturnCode.noConfusion e),
      fun _ => hg⟩

/-- Witness for C17: the store `cat`, `car`, `can`, a budget of 6 and the
input lines `2`, `1`, `7`, empty. -/
theorem confirmed_slots_fixed_witness :
    (3 : Nat) < 2 ^ 63
      ∧ (∀ line ∈ ([[2], [1], [7], []] : List (List Int)), ∀ i ∈ line, isInt i = true)
      ∧ ∀ s log,
          playLoop ℚ 6 [[2], [1], [7], []] (initialState catCarCan 3) [] = some (s, log) →
            s.correctGuessCount = confirmedCount s.guess :=
  ⟨by decide, by decide, fun s log h =>
    (confirmed_slots_fixed ℚ catCarCan 3 6 [[2], [1], [7], []] (by decide) (by decide)
      s log h).1⟩

/-! ## Claims on the accesses of the scorer -/

theorem counts_index_lt (alreadyGuessed : Table Bool) (current : List Char) (w : Word)
    (hlen : current.length ≤ w.str.length) (hlow : ∀ ch ∈ w.str, isLowercase ch = true)
    (k : Fin charMax) (hc : counts alreadyGuessed current w k = true) : (k : Nat) < 26 := by
  unfold counts at hc
  simp only [Bool.and_eq_true] at hc
  have htouch := hc.2
  unfold touches at htouch
  simp only [List.any_eq_true, List.mem_range, decide_eq_true_eq] at htouch
  obtain ⟨i, hi, hidx⟩ := htouch
  have hi1 : i < w.str.length := lt_of_lt_of_le hi hlen
  obtain ⟨k1, hk1, _, hlt⟩ := index_of_lowercase w.str[i] (hlow _ (List.getElem_mem hi1))
  unfold slotIndex at hidx
  by_cases hcur : current[i]? = some unknownSlot
  · rw [if_pos hcur, strAt_of_lt w.str i hi1] at hidx
    simp only [Option.some_bind, hk1, Option.some.injEq] at hidx
    rw [← hidx]
    exact hlt
  · rw [if_neg hcur] at hidx
    exact Option.noConfusion hidx

theorem foldl_recip_nonneg {S : Type} [ScoreArith S] (l : List Word)
    (hr : ∀ w ∈ l, 1 ≤ w.rank) :
    (0 : S) ≤ l.foldl (fun acc w => acc + ScoreArith.recip w.rank) 0 := by
  cases l with
  | nil => exact le_refl _
  | cons w rest => exact le_of_lt (foldl_recip_pos_of_ne_nil _ (by simp) hr)

theorem isLowercase_alphabeticIndexToChar (k : Fin charMax) (hk : (k : Nat) ≤ 25) :
    isLowercase (alphabeticIndexToChar ((k : Nat) : Int)) = true := by
  rw [isLowercase_iff, alphabeticIndexToChar_toNat k k.isLt]
  omega

/-- C20: when every candidate word consists of lowercase letters, has the
length of the pattern and has a rank of at least 1, every access
`word.str[i]` of `getMostLikelyLetter` is within the word, every table index
it computes lies in `0 .. 25`, no rank it divides by is zero, the index
`std::max_element` yields lies in `0 .. 25` and the returned character is a
lowercase letter; it is `a` when every score is zero, as it is for an empty
list. -/
theorem getMostLikelyLetter_safe (S : Type) [ScoreArith S] (list : List Word)
    (alreadyGuessed : Table Bool) (current : List Char)
    (hw : ∀ w ∈ list, w.str.length = current.length
      ∧ (∀ ch ∈ w.str, isLowercase ch = true) ∧ 1 ≤ w.rank) :
    (∀ w ∈ list, w.rank ≠ 0
        ∧ ∀ i : Nat, i < current.length → current[i]? = some unknownSlot →
            ∃ ch, w.str[i]? = some ch ∧ strAt w.str i = some ch
              ∧ 0 ≤ alphabeticIndex ch ∧ alphabeticIndex ch ≤ 25)
      ∧ (∃ (words : Table S) (r : Fin charMax),
          scores list alreadyGuessed current = some words
            ∧ maxElement (List.ofFn words) = (r : Nat)
            ∧ (r : Nat) ≤ 25
            ∧ getMostLikelyLetter S list alreadyGuessed current
                = some (alphabeticIndexToChar ((r : Nat) : Int))
            ∧ isLowercase (alphabeticIndexToChar ((r : Nat) : Int)) = true
            ∧ ((∀ k, words k = 0) →
                getMostLikelyLetter S list alreadyGuessed current = some 'a'))
      ∧ getMostLikelyLetter S [] alreadyGuessed current = some 'a' := by
  have hempty : ∀ (words : Table S), (∀ k, words k = 0) → maxElement (List.ofFn words) = 0 := by
    intro words hz
    refine maxElement_eq_zero words ?_
    intro k
    rw [hz k, hz ⟨0, by decide⟩]
  refine ⟨?_, ?_, ?_⟩
  · intro w hwl
    obtain ⟨hlen, hlow, hrank⟩ := hw w hwl
    refine ⟨by omega, ?_⟩
    intro i hi _
    have hi1 : i < w.str.length := by rw [hlen]; exact hi
    have hch := hlow _ (List.getElem_mem hi1)
    have hidx := alphabeticIndex_of_lowercase _ hch
    rw [isLowercase_iff] at hch
    refine ⟨w.str[i], List.getElem?_eq_getElem hi1, strAt_of_lt w.str i hi1, ?_, ?_⟩
    · rw [hidx]; omega
    · rw [hidx]; omega
  · have hdef : ∀ w ∈ list, ∀ i, i < current.length → slotDefined current w i :=
      fun w hwl i hi => slotDefined_of_lowercase current w (le_of_eq (hw w hwl).1.symm)
        (hw w hwl).2.1 i hi
    have hs := scores_eq (S := S) list alreadyGuessed current hdef
    obtain ⟨r, hr, hmax, hfirst⟩ := maxElement_table (S := S)
      (fun k => ((list.filter (fun w => counts alreadyGuessed current w k)).foldl
        (fun acc w => acc + ScoreArith.recip w.rank) 0))
    have hnonneg : ∀ k : Fin charMax, (0 : S) ≤
        (list.filter (fun w => counts alreadyGuessed current w k)).foldl
          (fun acc w => acc + ScoreArith.recip w.rank) 0 :=
      fun k => foldl_recip_nonneg _ (fun w hwf => (hw w (List.mem_filter.1 hwf).1).2.2)
    have hr25 : (r : Nat) ≤ 25 := by
      by_cases hnil : list.filter (fun w => counts alreadyGuessed current w r) = []
      · -- the largest score is zero, so it is the first entry
        by_contra hcon
        have hlt := hfirst ⟨0, by decide⟩ (by show 0 < (r : Nat); omega)
        simp only [hnil, List.foldl_nil] at hlt
        exact absurd (hnonneg ⟨0, by decide⟩) (not_le_of_lt hlt)
      · obtain ⟨w1, hw1⟩ := List.exists_mem_of_ne_nil _ hnil
        obtain ⟨hw1l, hw1c⟩ := List.mem_filter.1 hw1
        have := counts_index_lt alreadyGuessed current w1 (le_of_eq (hw w1 hw1l).1.symm)
          (hw w1 hw1l).2.1 r hw1c
        omega
    have hq : getMostLikelyLetter S list alreadyGuessed current
        = some (alphabeticIndexToChar ((r : Nat) : Int)) := by
      unfold getMostLikelyLetter
      rw [hs]
      simp only [Option.map_some', Option.some.injEq]
      rw [hr]
    refine ⟨_, r, hs, hr, hr25, hq, isLowercase_alphabeticIndexToChar r hr25, ?_⟩
    intro hz
    unfold getMostLikelyLetter
    rw [hs]
    simp only [Option.map_some', Option.some.injEq]
    rw [hempty _ hz]
    rfl
  · have hs : (scores [] alreadyGuessed current : Option (Table S)) = some (fun _ => 0) := rfl
    unfold getMostLikelyLetter
    rw [hs]
    simp only [Option.map_some', Option.some.injEq]
    rw [hempty _ (fun _ => rfl)]
    rfl

/-- Witness for C20: the store `cat`, `car`, `can` with `a` confirmed at slot 1. -/
theorem getMostLikelyLetter_safe_witness :
    (∀ w ∈ catCarCan, w.str.length = patternA.length
        ∧ (∀ ch ∈ w.str, isLowercase ch = true) ∧ 1 ≤ w.rank)
      ∧ ∃ (words : Table ℚ) (r : Fin charMax),
          scores catCarCan guessedA patternA = some words
            ∧ (r : Nat) ≤ 25
            ∧ getMostLikelyLetter ℚ catCarCan guessedA patternA
                = some (alphabeticIndexToChar ((r : Nat) : Int)) := by
  obtain ⟨_, ⟨words, r, h1, _, h3, h4, _⟩, _⟩ :=
    getMostLikelyLetter_safe ℚ catCarCan guessedA patternA (by decide)
  exact ⟨by decide, words, r, h1, h3, h4⟩

/-! ## A single remaining candidate -/

/-- In a state of a game on a well-formed store in which the game is not over,
the scorer proposes a letter that some candidate shows at an unknown slot. -/
theorem proposal_in_unknown_slot (S : Type) [ScoreArith S] (store0 : List Word)
    (L maxGuess : Nat) (s : State) (log : List Round)
    (hinv : PlayInv store0 L maxGuess s log)
    (hw : ∀ w ∈ store0, w.str.length = L ∧ (∀ ch ∈ w.str, isLowercase ch = true) ∧ 1 ≤ w.rank)
    (hnotover : ¬ (checkGameState maxGuess s.possibleWords s.guess s.wrongGuessCount
      s.correctGuessCount).1 = ReturnCode.gameOver) :
    ∃ (c : Char) (w1 : Word) (i1 : Nat),
      getMostLikelyLetter S s.possibleWords s.alreadyGuessed s.guess = some c
        ∧ w1 ∈ s.possibleWords ∧ i1 < s.guess.length
        ∧ s.guess[i1]? = some unknownSlot ∧ w1.str[i1]? = some c := by
  obtain ⟨_, hcorrect, hne⟩ := checkGameState_success _ _ _ _ _ hnotover
  rw [hinv.correct_eq] at hcorrect
  obtain ⟨i, hi, hslot⟩ := exists_unknown_of_count_ne s.guess hcorrect
  obtain ⟨w, hwmem⟩ := List.exists_mem_of_ne_nil _ hne
  have hw0 := hw w (hinv.sublist.subset hwmem)
  have hiw : i < w.str.length := by rw [hw0.1, ← hinv.guess_length]; exact hi
  have hwf : ∀ v ∈ s.possibleWords, s.guess.length ≤ v.str.length
      ∧ (∀ ch ∈ v.str, isLowercase ch = true) ∧ 1 ≤ v.rank := by
    intro v hv
    have hv0 := hw v (hinv.sublist.subset hv)
    exact ⟨by rw [hv0.1, hinv.guess_length], hv0.2⟩
  have hxlow : isLowercase w.str[i] = true := hw0.2.1 _ (List.getElem_mem hiw)
  have hex : ∃ v ∈ s.possibleWords, ∃ x, inUnknownSlot s.guess v x = true
      ∧ isGuessed s.alreadyGuessed x = false := by
    refine ⟨w, hwmem, w.str[i], ?_, ?_⟩
    · unfold inUnknownSlot
      simp only [List.any_eq_true, List.mem_range, decide_eq_true_eq]
      exact ⟨i, hi, hslot, List.getElem?_eq_getElem hiw⟩
    · obtain ⟨k, hk, _⟩ := index_of_lowercase w.str[i] hxlow
      rw [isGuessed_eq s.alreadyGuessed _ k hk]
      by_contra hg
      simp only [Bool.not_eq_false] at hg
      obtain ⟨r, hr, hcode, hidx⟩ := hinv.marked k hg
      have hge := (hinv.hit r hr hcode).1
      have heq := letter_eq_of_index_eq r.letter w.str[i] hge hxlow k hidx hk
      exact letter_not_in_log store0 L maxGuess s log hinv w hwmem i hslot w.str[i]
        (List.getElem?_eq_getElem hiw) r hr (Or.inl hcode) heq
  obtain ⟨c, hc, _, _, w1, hw1, hin⟩ :=
    getMostLikelyLetter_fresh S s.possibleWords s.alreadyGuessed s.guess hwf hex
  unfold inUnknownSlot at hin
  simp only [List.any_eq_true, List.mem_range, decide_eq_true_eq] at hin
  obtain ⟨i1, hi1, hslot1, hc1⟩ := hin
  exact ⟨c, w1, i1, hc, hw1, hi1, hslot1, hc1⟩

theorem mem_unrevealedLetters (w : Word) (g : List Char) (x : Char) :
    x ∈ unrevealedLetters w g
      ↔ ∃ i : Nat, i < g.length ∧ g[i]? = some unknownSlot ∧ w.str.getD i unknownSlot = x := by
  unfold unrevealedLetters
  simp only [List.mem_toFinset, List.mem_map, List.mem_filter, List.mem_range,
    decide_eq_true_eq]
  constructor
  · rintro ⟨i, ⟨hi, hg⟩, hx⟩
    exact ⟨i, hi, hg, hx⟩
  · rintro ⟨i, hi, hg, hx⟩
    exact ⟨i, ⟨hi, hg⟩, hx⟩

theorem getD_eq_of_getElem? (l : List Char) (i : Nat) (c : Char) (h : l[i]? = some c) :
    l.getD i unknownSlot = c := by
  rw [List.getD_eq_getElem?_getD, h]
  rfl

theorem getElem?_of_getD (l : List Char) (i : Nat) (hi : i < l.length) :
    l[i]? = some (l.getD i unknownSlot) := by
  rw [List.getD_eq_getElem?_getD, List.getElem?_eq_getElem hi]
  rfl

/-- In a state of a game in which the candidate `w` remains, every slot where
`w` shows a letter it also shows at an unknown slot is itself unknown. -/
theorem occurrence_unknown (store0 : List Word) (L maxGuess : Nat) (s : State)
    (log : List Round) (hinv : PlayInv store0 L maxGuess s log)
    (w : Word) (hw : w ∈ s.possibleWords) (hlen : w.str.length = L)
    (c : Char) (i1 : Nat) (hslot1 : s.guess[i1]? = some unknownSlot)
    (hc1 : w.str[i1]? = some c) (j : Nat) (hj : w.str[j]? = some c) :
    s.guess[j]? = some unknownSlot := by
  by_contra hconf
  have hjlt : j < w.str.length := by
    by_contra hcon
    rw [List.getElem?_eq_none (by omega)] at hj
    exact Option.noConfusion hj
  obtain ⟨r, hr, hcode, hmem⟩ := hinv.confirmed j (by rw [← hlen]; exact hjlt) hconf
  obtain ⟨_, _, hwords⟩ := hinv.hit r hr hcode
  have hrl : w.str[j]? = some r.letter := (hwords w hw j hjlt).2 hmem
  rw [hj] at hrl
  exact letter_not_in_log store0 L maxGuess s log hinv w hw i1 hslot1 c hc1 r hr
    (Or.inl hcode) (Option.some.inj hrl).symm

theorem checkGameState_revealed (maxGuess : Nat) (possibleWords : List Word)
    (guess : List Char) (wrongGuessCount correctGuessCount : Nat)
    (h1 : wrongGuessCount ≠ maxGuess) (h2 : correctGuessCount = guess.length) :
    checkGameState maxGuess possibleWords guess wrongGuessCount correctGuessCount
      = (ReturnCode.gameOver, "I win!\n") := by
  unfold checkGameState
  rw [if_neg h1, if_pos h2]

theorem checkGameState_in_progress (maxGuess : Nat) (possibleWords : List Word)
    (guess : List Char) (wrongGuessCount correctGuessCount : Nat)
    (h1 : wrongGuessCount ≠ maxGuess) (h2 : correctGuessCount ≠ guess.length)
    (h3 : possibleWords ≠ []) :
    ¬ (checkGameState maxGuess possibleWords guess wrongGuessCount correctGuessCount).1
      = ReturnCode.gameOver := by
  unfold checkGameState
  rw [if_neg h1, if_neg h2]
  cases possibleWords with
  | nil => exact absurd rfl h3
  | cons a l =>
    simp only [List.isEmpty_cons]
    exact fun h => ReturnCode.noConfusion h

/-- A round on the single candidate `w`, answered truthfully for `w`: it is
processed as a hit for a letter `w` shows at an unknown slot, the store and
`wrongGuessCount` are unchanged, and `w` shows strictly fewer distinct letters
at unknown slots afterwards. -/
theorem truthful_hit_round (S : Type) [ScoreArith S] (store0 : List Word)
    (L maxGuess : Nat) (hL : L < 2 ^ 31)
    (hw0 : ∀ v ∈ store0, v.str.length = L ∧ (∀ ch ∈ v.str, isLowercase ch = true) ∧ 1 ≤ v.rank)
    (s : State) (log : List Round) (hinv : PlayInv store0 L maxGuess s log)
    (w : Word) (hsingle : s.possibleWords = [w])
    (hnotover : ¬ (checkGameState maxGuess s.possibleWords s.guess s.wrongGuessCount
      s.correctGuessCount).1 = ReturnCode.gameOver) :
    ∃ (c : Char) (s1 : State) (r : Round),
      getMostLikelyLetter S s.possibleWords s.alreadyGuessed s.guess = some c
        ∧ playRound S s (truthfulLine w c) = some (s1, r)
        ∧ r.code = ReturnCode.success ∧ r.letter = c
        ∧ c ∈ unrevealedLetters w s.guess
        ∧ s1.possibleWords = [w]
        ∧ s1.wrongGuessCount = s.wrongGuessCount
        ∧ unrevealedLetters w s1.guess ⊂ unrevealedLetters w s.guess := by
  obtain ⟨c, w1, i1, hq, hw1, hi1, hslot1, hc1⟩ :=
    proposal_in_unknown_slot S store0 L maxGuess s log hinv hw0 hnotover
  have hw1eq : w1 = w := by
    rw [hsingle] at hw1
    exact List.mem_singleton.1 hw1
  subst hw1eq
  have hwlen : w1.str.length = L := (hw0 w1 (hinv.sublist.subset hw1)).1
  obtain ⟨k, hk⟩ := getMostLikelyLetter_range S _ _ _ c hq
  have hL63 : s.guess.length < 2 ^ 63 := by
    rw [hinv.guess_length]
    exact lt_trans hL (by norm_num)
  have hint := truthfulLine_isInt w1 c (by rw [hwlen]; exact hL)
  have hunk : ∀ j : Nat, w1.str[j]? = some c → s.guess[j]? = some unknownSlot :=
    fun j hj => occurrence_unknown store0 L maxGuess s log hinv w1 hw1 hwlen c i1 hslot1 hc1 j hj
  have hgood : ∀ j ∈ truthfulLine w1 c, ¬ badIndex s.guess j := by
    intro j hj hbad
    rw [mem_truthfulLine] at hj
    obtain ⟨h0, h1, h2⟩ := occurrences_range w1 c (j - 1) hj
    have hg := hunk _ h2
    unfold badIndex at hbad
    rcases hbad with hb | hb | hb
    · omega
    · rw [hinv.guess_length, ← hwlen] at hb
      omega
    · exact hb (getD_eq_of_getElem? s.guess _ unknownSlot hg)
  have hne : truthfulLine w1 c ≠ [] := by
    intro hnil
    exact truthfulLine_eq_nil w1 c hnil (List.getElem?_mem hc1)
  obtain ⟨hcode, hmempos⟩ := readIndexes_good s.guess _ hL63 hint hne hgood
  have hposiff : ∀ i : Nat, (i : Int) ∈ (readIndexes s.guess (truthfulLine w1 c)).2
      ↔ w1.str[i]? = some c := by
    intro i
    rw [hmempos, ← mem_occurrences]
    constructor
    · rintro ⟨j, hj, hij⟩
      have := (mem_truthfulLine w1 c j).1 hj
      rw [hij]
      exact this
    · intro h
      exact ⟨(i : Int) + 1, (mem_truthfulLine w1 c _).2 (by simpa using h), by omega⟩
  have hrange : ∀ p ∈ (readIndexes s.guess (truthfulLine w1 c)).2, 0 ≤ p ∧ p < 2 ^ 63 := by
    intro p hp
    obtain ⟨j, hj, hpj⟩ := (hmempos p).1 hp
    rw [mem_truthfulLine] at hj
    obtain ⟨h0, h1, _⟩ := occurrences_range w1 c (j - 1) hj
    have h63 : ((w1.str.length : Nat) : Int) < 2 ^ 63 := by
      have : w1.str.length < 2 ^ 63 := by rw [hwlen]; exact lt_trans hL (by norm_num)
      exact_mod_cast this
    rw [hpj]
    exact ⟨h0, lt_trans h1 h63⟩
  have hcne : c ≠ unknownSlot := by
    rw [hk]
    exact alphabeticIndexToChar_ne_unknown k
  have hround : playRound S s (truthfulLine w1 c)
      = some
        ({ possibleWords := filterGuessed s.possibleWords c
              (readIndexes s.guess (truthfulLine w1 c)).2
           guess := (readIndexes s.guess (truthfulLine w1 c)).2.foldl
              (fun g i => g.set (toSizeT i) c) s.guess
           wrongGuessCount := s.wrongGuessCount
           correctGuessCount :=
              (s.correctGuessCount + (readIndexes s.guess (truthfulLine w1 c)).2.length) % 2 ^ 64
           alreadyGuessed := s.alreadyGuessed.write k true },
          ⟨c, ReturnCode.success, (readIndexes s.guess (truthfulLine w1 c)).2⟩) := by
    unfold playRound
    rw [hq]
    simp only []
    rw [hcode, hk, playSwitch_success]
  have hcold : c ∈ unrevealedLetters w1 s.guess :=
    (mem_unrevealedLetters w1 s.guess c).2
      ⟨i1, hi1, hslot1, getD_eq_of_getElem? w1.str i1 c hc1⟩
  refine ⟨c, _, _, hq, hround, rfl, rfl, hcold, ?_, rfl, ?_⟩
  · show filterGuessed s.possibleWords c _ = [w1]
    have hmem := mem_filterGuessed_of_exact s.possibleWords w1 c
      (readIndexes s.guess (truthfulLine w1 c)).2 hw1 (fun i _ => (hposiff i).symm)
    unfold filterGuessed at hmem ⊢
    rw [hsingle] at hmem ⊢
    rw [List.mem_filter] at hmem
    exact List.filter_eq_self.2 (fun a ha => by
      rw [List.mem_singleton.1 ha]
      exact hmem.2)
  · show unrevealedLetters w1 ((readIndexes s.guess (truthfulLine w1 c)).2.foldl
        (fun g i => g.set (toSizeT i) c) s.guess) ⊂ unrevealedLetters w1 s.guess
    have hlen1 := foldl_set_length c (readIndexes s.guess (truthfulLine w1 c)).2 s.guess
    have hsub : unrevealedLetters w1 ((readIndexes s.guess (truthfulLine w1 c)).2.foldl
        (fun g i => g.set (toSizeT i) c) s.guess) ⊆ unrevealedLetters w1 s.guess := by
      intro x hx
      rw [mem_unrevealedLetters] at hx ⊢
      obtain ⟨i, hi, hg, hxi⟩ := hx
      rw [hlen1] at hi
      refine ⟨i, hi, ?_, hxi⟩
      by_cases hmem : (i : Int) ∈ (readIndexes s.guess (truthfulLine w1 c)).2
      · rw [foldl_set_of_mem c _ hrange i hmem s.guess hi] at hg
        exact absurd (Option.some.inj hg) hcne
      · rw [foldl_set_of_not_mem c _ hrange i hmem s.guess] at hg
        exact hg
    refine (Finset.ssubset_iff_of_subset hsub).2 ⟨c, hcold, ?_⟩
    intro hcnew
    rw [mem_unrevealedLetters] at hcnew
    obtain ⟨i, hi, hg, hxi⟩ := hcnew
    rw [hlen1] at hi
    have hiw : i < w1.str.length := by rw [hwlen, ← hinv.guess_length]; exact hi
    have hwi : w1.str[i]? = some c := by
      rw [getElem?_of_getD w1.str i hiw, hxi]
    have hmem := (hposiff i).2 hwi
    rw [foldl_set_of_mem c _ hrange i hmem s.guess hi] at hg
    exact hcne (Option.some.inj hg)

theorem truthful_single_loop (S : Type) [ScoreArith S] (store0 : List Word)
    (L maxGuess : Nat) (hL : L < 2 ^ 31)
    (hw0 : ∀ v ∈ store0, v.str.length = L ∧ (∀ ch ∈ v.str, isLowercase ch = true) ∧ 1 ≤ v.rank)
    (w : Word) :
    ∀ (n : Nat) (s : State) (log : List Round), PlayInv store0 L maxGuess s log →
      s.possibleWords = [w] → s.wrongGuessCount ≠ maxGuess →
      (unrevealedLetters w s.guess).card ≤ n →
      ∃ s2 new, playLoop S maxGuess (truthfulLines S maxGuess w n s) s log
            = some (s2, log ++ new)
          ∧ s2.correctGuessCount = s2.guess.length
          ∧ s2.guess.length = L
          ∧ s2.wrongGuessCount = s.wrongGuessCount
          ∧ new.length ≤ (unrevealedLetters w s.guess).card
          ∧ ∀ r ∈ new, r.code = ReturnCode.success ∧ r.letter ∈ unrevealedLetters w s.guess := by
  have hdone : ∀ (n : Nat) (s : State) (log : List Round), PlayInv store0 L maxGuess s log →
      s.wrongGuessCount ≠ maxGuess → s.correctGuessCount = s.guess.length →
      ∃ s2 new, playLoop S maxGuess (truthfulLines S maxGuess w n s) s log
            = some (s2, log ++ new)
          ∧ s2.correctGuessCount = s2.guess.length
          ∧ s2.guess.length = L
          ∧ s2.wrongGuessCount = s.wrongGuessCount
          ∧ new.length ≤ (unrevealedLetters w s.guess).card
          ∧ ∀ r ∈ new, r.code = ReturnCode.success
              ∧ r.letter ∈ unrevealedLetters w s.guess := by
    intro n s log hinv hwrong hc
    have hover : (checkGameState maxGuess s.possibleWords s.guess s.wrongGuessCount
        s.correctGuessCount).1 = ReturnCode.gameOver := by
      rw [checkGameState_revealed maxGuess _ _ _ _ hwrong hc]
    refine ⟨s, [], ?_, hc, hinv.guess_length, rfl, Nat.zero_le _,
      fun r hr => absurd hr (List.not_mem_nil r)⟩
    rw [truthfulLines_of_over S maxGuess w n s hover, List.append_nil]
    rfl
  intro n
  induction n with
  | zero =>
    intro s log hinv hsingle hwrong hcard
    by_cases hc : s.correctGuessCount = s.guess.length
    · exact hdone 0 s log hinv hwrong hc
    · have hnotover := checkGameState_in_progress maxGuess s.possibleWords s.guess
        s.wrongGuessCount s.correctGuessCount hwrong hc (by rw [hsingle]; simp)
      obtain ⟨c, _, _, _, _, _, _, hcold, _⟩ :=
        truthful_hit_round S store0 L maxGuess hL hw0 s log hinv w hsingle hnotover
      have := Finset.card_pos.2 ⟨c, hcold⟩
      omega
  | succ m ih =>
    intro s log hinv hsingle hwrong hcard
    by_cases hc : s.correctGuessCount = s.guess.length
    · exact hdone (m + 1) s log hinv hwrong hc
    · have hnotover := checkGameState_in_progress maxGuess s.possibleWords s.guess
        s.wrongGuessCount s.correctGuessCount hwrong hc (by rw [hsingle]; simp)
      obtain ⟨c, s1, r, hq, hround, hcode, hletter, hcold, hs1w, hs1wrong, hss⟩ :=
        truthful_hit_round S store0 L maxGuess hL hw0 s log hinv w hsingle hnotover
      have hwlen : w.str.length = L :=
        (hw0 w (hinv.sublist.subset (by rw [hsingle]; exact List.mem_singleton.2 rfl))).1
      have hinv1 := playRound_inv S store0 L maxGuess s log _ hinv
        (lt_trans hL (by norm_num))
        (truthfulLine_isInt w c (by rw [hwlen]; exact hL)) hwrong s1 r hround
      have hlt := Finset.card_lt_card hss
      obtain ⟨s2, new1, hrun, h1, h2, h3, h4, h5⟩ :=
        ih s1 (log ++ [r]) hinv1 hs1w (by rw [hs1wrong]; exact hwrong) (by omega)
      refine ⟨s2, r :: new1, ?_, h1, h2, by rw [h3, hs1wrong], ?_, ?_⟩
      · rw [truthfulLines_succ S maxGuess w m s c s1 r hnotover hq hround,
          playLoop_cons_of_round S maxGuess s log _ _ s1 r hnotover hround, hrun]
        simp
      · simp only [List.length_cons]
        omega
      · intro r1 hr1
        rcases List.mem_cons.1 hr1 with h | h
        · rw [h]
          exact ⟨hcode, by rw [hletter]; exact hcold⟩
        · exact ⟨(h5 r1 h).1, hss.subset (h5 r1 h).2⟩

/-- C18: from a state the play loop reaches on a store of lowercase words of
length `L` (ranks at least 1) in which the game is not over and exactly one
candidate `w` remains, when every proposal is answered truthfully for `w`:
every further round is processed as a hit for a letter `w` shows at an unknown
slot, no miss is recorded, and after at most as many rounds as `w` shows
distinct letters at unknown slots `correctGuessCount` equals `L` and
`checkGameState` reports the full reveal ("I win!"). -/
theorem single_candidate_revealed (S : Type) [ScoreArith S] (store : List Word)
    (L maxGuess : Nat) (lines : List (List Int)) (w : Word) (s : State) (log : List Round)
    (n : Nat)
    (hL : L < 2 ^ 31) (hint : ∀ line ∈ lines, ∀ i ∈ line, isInt i = true)
    (hw : ∀ v ∈ store, v.str.length = L ∧ (∀ ch ∈ v.str, isLowercase ch = true) ∧ 1 ≤ v.rank)
    (hrun : playLoop S maxGuess lines (initialState store L) [] = some (s, log))
    (hprog : (checkGameState maxGuess s.possibleWords s.guess s.wrongGuessCount
      s.correctGuessCount).1 = ReturnCode.success)
    (hsingle : s.possibleWords = [w])
    (hn : (unrevealedLetters w s.guess).card ≤ n) :
    ∃ s2 new, playLoop S maxGuess (truthfulLines S maxGuess w n s) s log
          = some (s2, log ++ new)
        ∧ (∀ r ∈ new, r.code = ReturnCode.success ∧ r.letter ∈ unrevealedLetters w s.guess)
        ∧ new.length ≤ (unrevealedLetters w s.guess).card
        ∧ s2.wrongGuessCount = s.wrongGuessCount
        ∧ s2.correctGuessCount = L
        ∧ checkGameState maxGuess s2.possibleWords s2.guess s2.wrongGuessCount
            s2.correctGuessCount = (ReturnCode.gameOver, "I win!\n") := by
  have hinv := playLoop_inv S store L maxGuess (lt_trans hL (by norm_num)) lines _ [] hint
    (playInv_initial store L maxGuess) s log hrun
  have hnotover : ¬ (checkGameState maxGuess s.possibleWords s.guess s.wrongGuessCount
      s.correctGuessCount).1 = ReturnCode.gameOver := by
    rw [hprog]
    exact fun h => ReturnCode.noConfusion h
  have hwrong := (checkGameState_success _ _ _ _ _ hnotover).1
  obtain ⟨s2, new, hrun2, h1, h2, h3, h4, h5⟩ :=
    truthful_single_loop S store L maxGuess hL hw w n s log hinv hsingle hwrong hn
  exact ⟨s2, new, hrun2, h5, h4, h3, by rw [h1, h2],
    checkGameState_revealed maxGuess _ _ _ _ (by rw [h3]; exact hwrong) h1⟩

theorem catAha_first_proposal :
    getMostLikelyLetter ℚ catAha (fun _ => false) (List.replicate 3 unknownSlot)
      = some 'a' :=
  getMostLikelyLetter_rat_a catAha (fun _ => false) (List.replicate 3 unknownSlot)
    (fun w hw i hi => slotDefined_of_lowercase _ w
      ((by decide : ∀ w ∈ catAha, (List.replicate 3 unknownSlot).length ≤ w.str.length) w hw)
      ((by decide : ∀ w ∈ catAha, ∀ ch ∈ w.str, isLowercase ch = true) w hw) i hi)
    (by decide) (by decide)

/-- The game on `cat`, `aha` after the line `2`: the proposal `a` is a hit at
slot 1 and `cat` is the only candidate left. -/
theorem catAha_run :
    ∃ s log, playLoop ℚ 6 [[2]] (initialState catAha 3) [] = some (s, log)
      ∧ s.possibleWords = [⟨"cat".toList, 1⟩] ∧ s.guess = patternA
      ∧ s.wrongGuessCount = 0 ∧ s.correctGuessCount = 1 := by
  have hq : getMostLikelyLetter ℚ (initialState catAha 3).possibleWords
      (initialState catAha 3).alreadyGuessed (initialState catAha 3).guess = some 'a' :=
    catAha_first_proposal
  have hround : playRound ℚ (initialState catAha 3) [2]
      = some
        ({ possibleWords := filterGuessed catAha 'a' [1]
           guess := ([1] : List Int).foldl (fun g i => g.set (toSizeT i) 'a')
              (List.replicate 3 unknownSlot)
           wrongGuessCount := 0
           correctGuessCount := (0 + 1) % 2 ^ 64
           alreadyGuessed := Table.write (fun _ => false) ⟨0, by decide⟩ true },
          ⟨'a', ReturnCode.success, [1]⟩) := by
    unfold playRound
    rw [hq]
    rfl
  have hrun : playLoop ℚ 6 [[2]] (initialState catAha 3) []
      = some
        ({ possibleWords := filterGuessed catAha 'a' [1]
           guess := ([1] : List Int).foldl (fun g i => g.set (toSizeT i) 'a')
              (List.replicate 3 unknownSlot)
           wrongGuessCount := 0
           correctGuessCount := (0 + 1) % 2 ^ 64
           alreadyGuessed := Table.write (fun _ => false) ⟨0, by decide⟩ true },
          [⟨'a', ReturnCode.success, [1]⟩]) := by
    rw [playLoop, if_neg (by decide), hround]
    rfl
  exact ⟨_, _, hrun, by decide, by decide, rfl, by decide⟩

/-- Witness for C18: on the store `cat`, `aha` the line `2` leaves the single
candidate `cat` with the pattern `_a_`; two truthful rounds reveal it. -/
theorem single_candidate_revealed_witness :
    (3 : Nat) < 2 ^ 31
      ∧ (∀ line ∈ ([[2]] : List (List Int)), ∀ i ∈ line, isInt i = true)
      ∧ (∀ v ∈ catAha, v.str.length = 3 ∧ (∀ ch ∈ v.str, isLowercase ch = true) ∧ 1 ≤ v.rank)
      ∧ ∃ s log, playLoop ℚ 6 [[2]] (initialState catAha 3) [] = some (s, log)
          ∧ (checkGameState 6 s.possibleWords s.guess s.wrongGuessCount
              s.correctGuessCount).1 = ReturnCode.success
          ∧ s.possibleWords = [⟨"cat".toList, 1⟩]
          ∧ (unrevealedLetters ⟨"cat".toList, 1⟩ s.guess).card ≤ 2
          ∧ ∃ s2 new, playLoop ℚ 6 (truthfulLines ℚ 6 ⟨"cat".toList, 1⟩ 2 s) s log
                = some (s2, log ++ new)
              ∧ new.length ≤ 2
              ∧ s2.correctGuessCount = 3
              ∧ checkGameState 6 s2.possibleWords s2.guess s2.wrongGuessCount
                  s2.correctGuessCount = (ReturnCode.gameOver, "I win!\n") := by
  obtain ⟨s, log, hrun, hwords, hguess, hwrong, hcorrect⟩ := catAha_run
  have hprog : (checkGameState 6 s.possibleWords s.guess s.wrongGuessCount
      s.correctGuessCount).1 = ReturnCode.success := by
    rw [hwords, hguess, hwrong, hcorrect]
    decide
  have hcard : (unrevealedLetters ⟨"cat".toList, 1⟩ s.guess).card ≤ 2 := by
    rw [hguess]
    decide
  obtain ⟨s2, new, h1, _, h3, _, h5, h6⟩ :=
    single_candidate_revealed ℚ catAha 3 6 [[2]] ⟨"cat".toList, 1⟩ s log 2
      (by decide) (by decide) (by decide) hrun hprog hwords hcard
  exact ⟨by decide, by decide, by decide, s, log, hrun, hprog, hwords, hcard,
    s2, new, h1, le_trans h3 hcard, h5, h6⟩

end Hangman
